import Mathlib

/-!
Verification development for the spellchecker-wasm Rust sources.

The Rust code is shallowly embedded over byte strings: a Rust `&str` is a
`List Nat` of its UTF-8 bytes, a grapheme (as approximated by the source's
`GraphemeClusters`, which decodes only the leading byte) is the byte chunk
`List Nat` it spans, and machine integers are `Nat` with explicit `% 2 ^ 64`
wrap where the source can underflow in release builds.  `HashMap`/`HashSet`
state is modelled by association lists / dedup lists; iteration order of the
model is insertion order (the source's hash containers have unspecified
order, which the settled properties do not depend on).  Code paths that
panic in Rust (out-of-bounds indexing and slicing at non-char-boundaries)
are modelled by `Option`, `none` standing for the panic.
-/

set_option autoImplicit false

namespace SpellWasm

/-- Rust strings are modelled as their UTF-8 byte sequences. -/
abbrev Str := List Nat

/-- Graphemes (as the source approximates them) are byte chunks. -/
abbrev G := List Nat

/-- Embedding of `GraphemeClusters::grapheme_len` (src/grapheme_iterator.rs):
byte length of the grapheme starting at a given leading byte. -/
def grapheme_len (byte : Nat) : Nat :=
  let bytes := 1
  let bytes := if ((byte &&& 0b10000000) >>> 7) == 1 && ((byte &&& 0b1000000) >>> 6) == 1
    then bytes + 1 else bytes
  let bytes := if bytes == 2 && ((byte &&& 0b100000) >>> 5) == 1 then bytes + 1 else bytes
  let bytes := if bytes == 3 && ((byte &&& 0b10000) >>> 4) == 1 then bytes + 1 else bytes
  bytes

/-- Chunking loop with fuel; each step consumes at least one byte, so
fuel equal to the byte length never runs out (the `0, _ :: _` case is
unreachable from `graphemes`). -/
def graphemes_go : Nat → Str → List G
  | _, [] => []
  | 0, _ :: _ => []
  | fuel + 1, b :: rest =>
    let n := grapheme_len b
    (b :: rest).take n :: graphemes_go fuel (rest.drop (n - 1))

/-- The grapheme chunks of a byte string, as produced by iterating
`GraphemeClusters` (src/grapheme_iterator.rs).  On valid UTF-8 this
partitions the string; the final chunk of a truncated string is truncated
(where the Rust iterator would slice out of bounds). -/
def graphemes (s : Str) : List G := graphemes_go s.length s

/-- Embedding of `GraphemeClusters::len`: the number of grapheme chunks. -/
def gcLen (s : Str) : Nat := (graphemes s).length

/-- Byte offset of the `k`-th grapheme of `s` (the content of the source's
lazily extended `byte_indices` cache at index `k`). -/
def gcByteIndex (s : Str) (k : Nat) : Nat :=
  ((graphemes s).take k).foldl (fun a g => a + g.length) 0

/-- Embedding of `GraphemeClusters`'s `Index<usize>`: the `i`-th grapheme.
Out-of-range indexing panics in Rust (it reads past the byte buffer), hence
the `Option`. -/
def gcIndex (s : Str) (i : Nat) : Option G := (graphemes s).get? i

/-- Total variant of `gcIndex` for contexts where the index is in bounds
(the DP cores only index inside the prepared windows). -/
def gcAt (s : Str) (i : Nat) : G := (graphemes s).getD i []

/-- The single-space sentinel grapheme the DP cores initialize
`char1`/`char2` with (`let mut char1 = " "`). -/
def spaceG : G := [32]

/-! Association-list model of the `HashMap`s (`usize → usize` cost rows,
word/frequency tables).  `aupd` replaces in place or appends, matching
`HashMap::insert`; `aget` is indexing with a default. -/

def aget {α : Type} [DecidableEq α] (m : List (α × Nat)) (k : α) (d : Nat) : Nat :=
  match m with
  | [] => d
  | (k', v) :: rest => if k' = k then v else aget rest k d

def agetOpt {α β : Type} [DecidableEq α] (m : List (α × β)) (k : α) : Option β :=
  match m with
  | [] => none
  | (k', v) :: rest => if k' = k then some v else agetOpt rest k

def acontains {α β : Type} [DecidableEq α] (m : List (α × β)) (k : α) : Bool :=
  match m with
  | [] => false
  | (k', _) :: rest => k' = k || acontains rest k

def aupd {α β : Type} [DecidableEq α] (m : List (α × β)) (k : α) (v : β) : List (α × β) :=
  match m with
  | [] => [(k, v)]
  | (k', v') :: rest => if k' = k then (k, v) :: rest else (k', v') :: aupd rest k v

def aerase {α β : Type} [DecidableEq α] (m : List (α × β)) (k : α) : List (α × β) :=
  match m with
  | [] => []
  | (k', v') :: rest => if k' = k then aerase rest k else (k', v') :: aerase rest k

/-- Wrapping `usize` subtraction (release-build semantics of `a - b`,
which the source relies on, e.g. `input_len - max_edit_distance`). -/
def usub (a b : Nat) : Nat := (a + (2 ^ 64 - b % 2 ^ 64)) % 2 ^ 64

/-! ### Damerau-Levenshtein OSA cores (src/soft_wx/damerau_osa.rs)

The two cores share their inner-loop body verbatim in the source; the
embedding shares `dl_inner_step`.  The instance state
(`base_char1_costs` / `base_prev_char1_costs`) is threaded explicitly. -/

structure DlMaps where
  base_char1_costs : List (Nat × Nat)
  base_prev_char1_costs : List (Nat × Nat)
deriving Repr, DecidableEq

def DlMaps.init : DlMaps := ⟨[], []⟩

/-- Per-row inner-loop state of the cores: the two cost rows plus the
scalars `left_char_cost`, `above_char_cost`, `next_trans_cost`,
`current_cost` and the lagging `char2`. -/
structure RowSt where
  c1c : List (Nat × Nat)
  pc1c : List (Nat × Nat)
  left : Nat
  above : Nat
  nextT : Nat
  char2 : G
  current : Nat
deriving Repr

/-- One iteration of the shared inner `for j in …` loop body
(lines 74–100 and 143–166 of damerau_osa.rs). -/
def dl_inner_step (gy : List G) (start i : Nat) (char1 prevChar1 : G) (j : Nat)
    (st : RowSt) : RowSt :=
  let thisT := st.nextT
  let nextT := aget st.pc1c j 0
  let current := st.left
  let pc1c := aupd st.pc1c j current
  let left := aget st.c1c j 0
  let prevChar2 := st.char2
  let char2 := gy.getD (start + j) []
  let current :=
    if char1 ≠ char2 then
      let current := if st.above < current then st.above else current
      let current := if left < current then left else current
      let current := current + 1
      if i ≠ 0 ∧ j ≠ 0 ∧ char1 = prevChar2 ∧ prevChar1 = char2 ∧ thisT + 1 < current then
        thisT + 1
      else current
    else current
  { c1c := aupd st.c1c j current, pc1c := pc1c, left := left, above := current,
    nextT := nextT, char2 := char2, current := current }

/-- The inner loop over a list of column indices. -/
def dl_inner_loop (gy : List G) (start i : Nat) (char1 prevChar1 : G) :
    List Nat → RowSt → RowSt
  | [], st => st
  | j :: rest, st =>
    dl_inner_loop gy start i char1 prevChar1 rest (dl_inner_step gy start i char1 prevChar1 j st)

/-- Outer-loop state of the full core: the maps, `current_cost` and the
lagging `char1`. -/
structure OuterSt where
  c1c : List (Nat × Nat)
  pc1c : List (Nat × Nat)
  char1 : G
  current : Nat
deriving Repr

/-- Rows of the unbounded core (`for i in 0..len1`). -/
def dl_outer_loop (gx gy : List G) (start len2 : Nat) : List Nat → OuterSt → OuterSt
  | [], st => st
  | i :: rest, st =>
    let prevChar1 := st.char1
    let char1 := gx.getD (start + i) []
    let row := dl_inner_loop gy start i char1 prevChar1 (List.range len2)
      { c1c := st.c1c, pc1c := st.pc1c, left := i, above := i, nextT := 0,
        char2 := spaceG, current := st.current }
    dl_outer_loop gx gy start len2 rest
      { c1c := row.c1c, pc1c := row.pc1c, char1 := char1, current := row.current }

/-- Initialization `for j in 0..n { char1_costs.insert(j, j + 1) }`. -/
def dl_init_row (m : List (Nat × Nat)) : List Nat → List (Nat × Nat)
  | [] => m
  | j :: rest => dl_init_row (aupd m j (j + 1)) rest

/-- Embedding of `DamaerauOSA::core_damerau_levenshtein` (the unbounded
core).  Returns `Some current_cost` and the updated instance maps. -/
def core_damerau_levenshtein (string1 string2 : Str) (len1 len2 start : Nat)
    (m : DlMaps) : Option Nat × DlMaps :=
  let c1c := dl_init_row m.base_char1_costs (List.range len2)
  let st := dl_outer_loop (graphemes string1) (graphemes string2) start len2 (List.range len1)
    { c1c := c1c, pc1c := m.base_prev_char1_costs, char1 := spaceG, current := 0 }
  (some st.current, ⟨st.c1c, st.pc1c⟩)

/-- Helper for `dl_init_row2`: write `max_distance + 1` at the given keys. -/
def dl_init_cap (max_distance : Nat) : List Nat → List (Nat × Nat) → List (Nat × Nat)
  | [], m => m
  | k :: rest, m => dl_init_cap max_distance rest (aupd m k (max_distance + 1))

/-- Initialization of the banded core's row buffer:
`char1_costs[j] = j+1` for `j < max_distance`, then `max_distance + 1`
up to `len2`. -/
def dl_init_row2 (m : List (Nat × Nat)) (max_distance len2 : Nat) : List (Nat × Nat) :=
  let m := dl_init_row m (List.range max_distance)
  if max_distance < len2 then
    dl_init_cap max_distance (List.range' max_distance (len2 - max_distance)) m
  else m

/-- Rows of the banded core, with the moving `j_start`/`j_end` window and
the per-row early exit `char1_costs[i + len_diff] > max_distance`.
Returns `none` on early exit together with the maps at that point. -/
def dl_outer_loop2 (gx gy : List G) (start len2 len_diff max_distance : Nat)
    (j_offset : Int) : List Nat → (Nat × Nat × OuterSt) → Option (Nat × Nat × OuterSt) × (List (Nat × Nat) × List (Nat × Nat))
  | [], st => (some st, (st.2.2.c1c, st.2.2.pc1c))
  | i :: rest, (j_start, j_end, st) =>
    let prevChar1 := st.char1
    let char1 := gx.getD (start + i) []
    let j_start := if (i : Int) > j_offset then j_start + 1 else j_start
    let j_end := if j_end < len2 then j_end + 1 else j_end
    let row := dl_inner_loop gy start i char1 prevChar1 (List.range' j_start (j_end - j_start))
      { c1c := st.c1c, pc1c := st.pc1c, left := i, above := i, nextT := 0,
        char2 := spaceG, current := st.current }
    if aget row.c1c (i + len_diff) 0 > max_distance then
      (none, (row.c1c, row.pc1c))
    else
      dl_outer_loop2 gx gy start len2 len_diff max_distance j_offset rest
        (j_start, j_end, { c1c := row.c1c, pc1c := row.pc1c, char1 := char1, current := row.current })

/-- Embedding of `DamaerauOSA::core_damerau_levenshtein2` (the banded
core with `max_distance` early exits). -/
def core_damerau_levenshtein2 (string1 string2 : Str) (len1 len2 start max_distance : Nat)
    (m : DlMaps) : Option Nat × DlMaps :=
  let c1c := dl_init_row2 m.base_char1_costs max_distance len2
  let len_diff := len2 - len1
  let j_offset : Int := (max_distance : Int) - (len_diff : Int)
  match dl_outer_loop2 (graphemes string1) (graphemes string2) start len2 len_diff max_distance
      j_offset (List.range len1)
      (0, max_distance, { c1c := c1c, pc1c := m.base_prev_char1_costs, char1 := spaceG, current := 0 }) with
  | (none, (c1c, pc1c)) => (none, ⟨c1c, pc1c⟩)
  | (some (_, _, st), _) =>
    (if st.current ≤ max_distance then some st.current else none, ⟨st.c1c, st.pc1c⟩)

/-! ### prefix/suffix preparation and the `distance` entry points -/

/-- The common-suffix stripping loop of `prefix_suffix_prep`
(src/soft_wx/helpers.rs). -/
def psp_suffix (g1 g2 : List G) : Nat → Nat → Nat × Nat
  | 0, len2 => (0, len2)
  | len1 + 1, len2 =>
    if g1.getD len1 [] = g2.getD (len2 - 1) [] then
      psp_suffix g1 g2 len1 (len2 - 1)
    else (len1 + 1, len2)

/-- The common-prefix scanning loop of `prefix_suffix_prep`, with fuel
`len1 - start` (the loop `while start != len1 && …` increments `start`
from 0 towards `len1`, so fuel `len1` is exact). -/
def psp_start_go (g1 g2 : List G) (len1 : Nat) : Nat → Nat → Nat
  | 0, start => start
  | fuel + 1, start =>
    if start ≠ len1 ∧ g1.getD start [] = g2.getD start [] then
      psp_start_go g1 g2 len1 fuel (start + 1)
    else start

def psp_start (g1 g2 : List G) (len1 : Nat) : Nat := psp_start_go g1 g2 len1 len1 0

/-- Embedding of `prefix_suffix_prep` (src/soft_wx/helpers.rs): lengths of
the trimmed windows and the common-prefix start offset. -/
def prefix_suffix_prep (string1 string2 : Str) : Nat × Nat × Nat :=
  let g1 := graphemes string1
  let g2 := graphemes string2
  let (len1, len2) := psp_suffix g1 g2 g1.length g2.length
  let start := psp_start g1 g2 len1
  if start ≠ 0 then (len1 - start, len2 - start, start) else (len1, len2, start)

/-- Embedding of `null_distance_results` (src/soft_wx/helpers.rs). -/
def null_distance_results (string1 string2 : Str) (max_distance : Nat) : Option Nat :=
  if string1 = [] then
    let str2_len := gcLen string2
    if string2 = [] then some 0
    else if str2_len ≤ max_distance then some str2_len
    else none
  else
    let str1_len := gcLen string1
    if str1_len ≤ max_distance then some str1_len else none

/-- Embedding of `<DamaerauOSA as Distance>::distance` (the unbounded
entry point), threading the instance maps. -/
def DamaerauOSA.distance (m : DlMaps) (string1 string2 : Str) : Option Nat × DlMaps :=
  let str2_len := gcLen string2
  if string1 = [] then (some str2_len, m)
  else
    let str1_len := gcLen string1
    if string2 = [] then (some str1_len, m)
    else
      let (s1, s2) := if str1_len > str2_len then (string2, string1) else (string1, string2)
      let (len1, len2, start) := prefix_suffix_prep s1 s2
      if len1 = 0 then (some len2, m)
      else core_damerau_levenshtein s1 s2 len1 len2 start m

/-- Embedding of `<DamaerauOSA as Distance>::distance2` (the bounded
entry point). -/
def DamaerauOSA.distance2 (m : DlMaps) (string1 string2 : Str) (max_distance : Nat) :
    Option Nat × DlMaps :=
  if string1 = [] ∨ string2 = [] then (null_distance_results string1 string2 max_distance, m)
  else if max_distance = 0 then (if string1 = string2 then some 0 else none, m)
  else
    let str1_len := gcLen string1
    let str2_len := gcLen string2
    let (s1, s2) := if str1_len > str2_len then (string2, string1) else (string1, string2)
    if str2_len > str1_len ∧ str2_len - str1_len > max_distance then (none, m)
    else
      let (len1, len2, start) := prefix_suffix_prep s1 s2
      if len1 = 0 then (if len2 ≤ max_distance then some len2 else none, m)
      else if max_distance < len2 then
        core_damerau_levenshtein2 s1 s2 len1 len2 start max_distance m
      else core_damerau_levenshtein s1 s2 len1 len2 start m

/-- Embedding of `EditDistance::compare` (src/edit_distance.rs) for the
`DamaerauOSA` algorithm used by `SymSpell`. -/
def EditDistance.compare (m : DlMaps) (string1 string2 : Str) (max_distance : Option Nat) :
    Option Nat × DlMaps :=
  match max_distance with
  | some md => DamaerauOSA.distance2 m string1 string2 md
  | none => DamaerauOSA.distance m string1 string2

/-! ### Rust `str` slicing

`&s[a..b]` checks that `a ≤ b ≤ s.len()` and that both `a` and `b` are
char boundaries, panicking otherwise (`none` here).  A byte index is a
char boundary when it is 0, the length, or its byte is not a UTF-8
continuation byte. -/

def isCharBoundary (s : Str) (i : Nat) : Bool :=
  i == 0 || i == s.length || (i < s.length && (s.getD i 0) &&& 0xC0 ≠ 0x80)

def sliceTo (s : Str) (i : Nat) : Option Str :=
  if isCharBoundary s i ∧ i ≤ s.length then some (s.take i) else none

def sliceFrom (s : Str) (i : Nat) : Option Str :=
  if isCharBoundary s i ∧ i ≤ s.length then some (s.drop i) else none

def sliceRange (s : Str) (a b : Nat) : Option Str :=
  if isCharBoundary s a ∧ isCharBoundary s b ∧ a ≤ b ∧ b ≤ s.length then
    some ((s.take b).drop a)
  else none

/-- Byte offsets at which the grapheme chunks of `s` start
(the `range.start` values produced by iterating `GraphemeClusters`). -/
def chunkStartsAux : Nat → List G → List Nat
  | _, [] => []
  | ofs, g :: rest => ofs :: chunkStartsAux (ofs + g.length) rest

def chunkStarts (s : Str) : List Nat := chunkStartsAux 0 (graphemes s)

/-! ### SymSpell engine state (src/sym_spell/sym_spell.rs)

The `DefaultHasher` is modelled by an explicit `hash : Str → Nat`
parameter (the source tolerates hash collisions; the settled properties
hold for every hash function, and concrete evaluations pick one). -/

def USIZE_MAX : Nat := 2 ^ 64 - 1

/-- The saturating-count update
`if usize::max_value() - prev_count > count { prev_count + count } else { usize::max_value() }`. -/
def satAdd (prev count : Nat) : Nat :=
  if USIZE_MAX - prev > count then prev + count else USIZE_MAX

structure SuggestItem where
  term : Str
  distance : Nat
  count : Nat
deriving DecidableEq, Repr

inductive Verbosity where
  | Top
  | Closest
  | All
deriving DecidableEq, Repr

structure SymSpell where
  dictionary_edit_distance : Nat
  prefix_length : Nat
  count_threshold : Nat
  max_dictionary_word_length : Nat
  deletes : List (Nat × List Str)
  words : List (Str × Nat)
  below_threshold_words : List (Str × Nat)
  bigrams : List (Str × Nat)
  bigram_count_min : Nat
deriving DecidableEq, Repr

/-- Embedding of `SymSpell::new` (the `assert!(prefix_len >= 1 || …)` can
never fail since `prefix_len ≥ 1` already holds for every `prefix_len ≥ 1`
and `0 ≤ max_dict_edit_dist` covers the rest). -/
def SymSpell.new (dictionary_edit_distance prefix_length count_threshold : Nat) : SymSpell :=
  { dictionary_edit_distance := dictionary_edit_distance
    prefix_length := prefix_length
    count_threshold := count_threshold
    max_dictionary_word_length := 0
    deletes := []
    words := []
    below_threshold_words := []
    bigrams := []
    bigram_count_min := USIZE_MAX }

/-- Embedding of `SymSpell::insert_delete`: append `key` to the bucket of
`hash(delete)`, creating the bucket if needed. -/
def insert_delete (hash : Str → Nat) (deletes : List (Nat × List Str)) (delete key : Str) :
    List (Nat × List Str) :=
  let delete_hash := hash delete
  match agetOpt deletes delete_hash with
  | some suggestions => aupd deletes delete_hash (suggestions ++ [key])
  | none => aupd deletes delete_hash [key]

/-- Insertion into the `HashSet<String>` of delete words (modelled as an
insertion-ordered dedup list). -/
def setInsert (set : List Str) (s : Str) : List Str :=
  if s ∈ set then set else set ++ [s]

/-- The `for (_, range) in iter` loop body of `edits`, with the
recursive call abstracted as `recurse`. -/
def edits_loop (ded : Nat) (recurse : Str → Nat → List Str → Option (List Str))
    (subject : Str) (len ed : Nat) : List Nat → List Str → Option (List Str)
  | [], dw => some dw
  | rs :: rest, dw =>
    let part1 := if rs ≠ 0 then sliceTo subject rs else some []
    let part2 := if rs + 1 ≠ len then sliceFrom subject (rs + 1) else some []
    match part1, part2 with
    | some p1, some p2 =>
      let delete := p1 ++ p2
      if delete ∈ dw then edits_loop ded recurse subject len ed rest dw
      else
        let dw' := if ed < ded then recurse delete ed dw else some dw
        match dw' with
        | none => none
        | some dw2 => edits_loop ded recurse subject len ed rest (setInsert dw2 delete)
    | _, _ => none

/-- Embedding of `SymSpell::edits`.  The byte-level translation is kept:
the "delete" drops the single byte at `range.start` (not the grapheme
range), and the slice `subject[range.start + 1 ..]` panics (`none`) when
`range.start + 1` is not a char boundary, i.e. whenever the grapheme at
`range.start` is multi-byte.  `fuel` is the byte length of `subject`,
which strictly exceeds the byte length of every generated delete, so the
fuel is never exhausted on the paths the source reaches. -/
def edits (ded : Nat) : Nat → Str → Nat → List Str → Option (List Str)
  | 0, subject, edit_distance, delete_words =>
    let len := subject.length
    if len = 1 then some delete_words
    else
      edits_loop ded (fun _ _ _ => none) subject len (edit_distance + 1)
        (chunkStarts subject) delete_words
  | fuel + 1, subject, edit_distance, delete_words =>
    let len := subject.length
    if len = 1 then some delete_words
    else
      edits_loop ded (edits ded fuel) subject len (edit_distance + 1)
        (chunkStarts subject) delete_words

/-- Fold of `insert_delete` over a generated delete set
(the `for s in set { self.insert_delete(&s, &key) }` loop). -/
def insert_delete_all (hash : Str → Nat) (deletes : List (Nat × List Str)) (key : Str) :
    List Str → List (Nat × List Str)
  | [] => deletes
  | s :: rest => insert_delete_all hash (insert_delete hash deletes s key) key rest

/-- Embedding of `SymSpell::create_deletes`.  Note the source inserts the
(truncated) key's bucket entry once here (`self.insert_delete(key, key)`)
and returns a set still containing the key, so the caller inserts it a
second time. -/
def create_deletes (hash : Str → Nat) (ded plen : Nat) (deletes : List (Nat × List Str))
    (key : Str) : Option (List Str × List (Nat × List Str)) :=
  let set : List Str := []
  let key_len := gcLen key
  let set := if key_len ≤ ded then setInsert set [] else set
  let keyT := if key_len > plen then key.take (gcByteIndex key plen) else key
  let set := setInsert set keyT
  let deletes := insert_delete hash deletes keyT keyT
  match edits ded keyT.length keyT 0 set with
  | none => none
  | some set => some (set, deletes)

/-- The fall-through tail of `SymSpell::create_dictionary_entry`
(lines 136–149): update `max_dictionary_word_length`, generate and insert
the deletes, and insert the word.  (The source updates
`max_dictionary_word_length` before calling `create_deletes`, which does
not read it, so the new value is computed separately here.) -/
def create_dictionary_entry_promote (hash : Str → Nat) (s : SymSpell) (key : Str)
    (count : Nat) : Option (SymSpell × Bool) :=
  let key_len := gcLen key
  let mwl := if key_len > s.max_dictionary_word_length then key_len
    else s.max_dictionary_word_length
  match create_deletes hash s.dictionary_edit_distance s.prefix_length s.deletes key with
  | none => none
  | some (set, deletes) =>
    let deletes2 := insert_delete_all hash deletes key set
    some ({ s with
            max_dictionary_word_length := mwl
            deletes := deletes2
            words := aupd s.words key count }, true)

/-- Embedding of `SymSpell::create_dictionary_entry`. -/
def create_dictionary_entry (hash : Str → Nat) (s : SymSpell) (key : Str) (count : Nat) :
    Option (SymSpell × Bool) :=
  if s.count_threshold > 1 ∧ acontains s.below_threshold_words key then
    let prev_count := aget s.below_threshold_words key 0
    let count := satAdd prev_count count
    if count ≥ s.count_threshold then
      let s := { s with below_threshold_words := aerase s.below_threshold_words key }
      create_dictionary_entry_promote hash s key count
    else
      some ({ s with below_threshold_words := aupd s.below_threshold_words key count }, false)
  else if acontains s.words key then
    let prev_count := aget s.words key 0
    let count := satAdd prev_count count
    some ({ s with words := aupd s.words key count }, false)
  else if count < s.count_threshold then
    some ({ s with below_threshold_words := aupd s.below_threshold_words key count }, false)
  else
    create_dictionary_entry_promote hash s key count

/-! ### dictionary line ingestion -/

/-- Rust `str::trim_end` restricted to ASCII whitespace (the data the
dictionary format carries; multi-byte Unicode whitespace is not modelled). -/
def trimEnd (s : Str) : Str :=
  (s.reverse.dropWhile (fun b => b = 32 ∨ b = 9 ∨ b = 10 ∨ b = 11 ∨ b = 12 ∨ b = 13)).reverse

/-- Rust `str::parse::<usize>` (via `unwrap_or(0)` at the call sites):
an optional leading `+`, then one or more decimal digits, with overflow
above `usize::MAX` an error. -/
def parseUsize (s : Str) : Option Nat :=
  match s with
  | [] => none
  | b :: rest =>
    let digits := if b = 43 then rest else s
    if digits = [] then none
    else if digits.all (fun d => 48 ≤ d && d ≤ 57) then
      let v := digits.foldl (fun a d => a * 10 + (d - 48)) 0
      if v < 2 ^ 64 then some v else none
    else none

/-- The canonical decimal representation of a `usize` count, as the ASCII
bytes Rust's formatter would produce for it in a dictionary file. -/
def natDigits (n : Nat) : Str :=
  if n = 0 then [48] else ((Nat.digits 10 n).map (fun d => d + 48)).reverse

/-- The byte-scanning loop of `SymSpell::write_line_to_dictionary`
(`for i in 0..line.len() { let ch = &line[i..i+1]; … }`); the 1-byte
slice panics (`none`) as soon as the line contains a multi-byte
character. -/
def wl_loop (line separator : Str) : List Nat → Nat → List Str → Option (Nat × List Str)
  | [], idx, parts => some (idx, parts)
  | i :: rest, idx, parts =>
    match sliceRange line i (i + 1) with
    | none => none
    | some ch =>
      if ch = separator then
        match sliceRange line idx i with
        | none => none
        | some part => wl_loop line separator rest (i + 1) (parts ++ [part])
      else wl_loop line separator rest idx parts

/-- Embedding of `SymSpell::write_line_to_dictionary`. -/
def write_line_to_dictionary (hash : Str → Nat) (s : SymSpell) (line separator : Str) :
    Option SymSpell :=
  match wl_loop line separator (List.range line.length) 0 [] with
  | none => none
  | some (idx, parts) =>
    match sliceFrom line idx with
    | none => none
    | some lastPart =>
      let parts := parts ++ [lastPart]
      if parts.length < 2 then some s
      else
        let key := parts.getD 0 []
        let count := (parseUsize (trimEnd (parts.getD 1 []))).getD 0
        match create_dictionary_entry hash s key count with
        | none => none
        | some (s', _) => some s'

/-- Rust `str::split` with a non-empty string pattern (the callers pass
`" "`; the empty-pattern special case is not modelled).  Fuel is the byte
length of the remaining input; every step consumes at least one byte, so
the `0` case is only reached with empty remaining input, where it agrees
with the source. -/
def splitGo (sep : Str) : Nat → Str → Str → List Str
  | 0, _, acc => [acc]
  | fuel + 1, remaining, acc =>
    if sep ≠ [] ∧ sep.isPrefixOf remaining then
      acc :: splitGo sep fuel (remaining.drop sep.length) []
    else
      match remaining with
      | [] => [acc]
      | b :: rest => splitGo sep fuel rest (acc ++ [b])

def rustSplit (line sep : Str) : List Str := splitGo sep line.length line []

/-- Embedding of `SymSpell::write_line_to_bigram_dictionary`.  The source
indexes `parts[1]` and `parts[2]` without a length check; missing fields
panic (`none`). -/
def write_line_to_bigram_dictionary (s : SymSpell) (line separator : Str) : Option SymSpell :=
  let parts := rustSplit line separator
  match parts.get? 0, parts.get? 1 with
  | some p0, some p1 =>
    let key := p0 ++ [32] ++ p1
    match parts.get? 2 with
    | none => none
    | some p2 =>
      let count := (parseUsize (trimEnd p2)).getD 0
      let s := { s with bigrams := aupd s.bigrams key count }
      some (if count < s.bigram_count_min then { s with bigram_count_min := count } else s)
  | _, _ => none

/-! ### SymSpell::lookup -/

/-- Embedding of `SuggestItem::default`. -/
def SuggestItem.default : SuggestItem := ⟨[], 0, 0⟩

/-- The inner `while j < suggestion_len && delete_char != &suggestion_gc[j]`
scan of `delete_in_suggestion_prefix`, with fuel `slen - j` (exact: the
loop stops at `j = slen` at the latest, and fuel 0 implies `j ≥ slen`
where the guard is false anyway). -/
def dsp_scan_go (sgc : List G) (slen : Nat) (dc : G) : Nat → Nat → Nat
  | 0, j => j
  | fuel + 1, j => if j < slen ∧ dc ≠ sgc.getD j [] then dsp_scan_go sgc slen dc fuel (j + 1) else j

def dsp_scan (sgc : List G) (slen : Nat) (dc : G) (j : Nat) : Nat :=
  dsp_scan_go sgc slen dc (slen - j) j

/-- The `for (delete_char, _) in delete_gc` loop of
`delete_in_suggestion_prefix`. -/
def dsp_loop (sgc : List G) (slen : Nat) : List G → Nat → Bool
  | [], _ => true
  | dc :: rest, j =>
    let j := dsp_scan sgc slen dc j
    if j = slen then false else dsp_loop sgc slen rest j

/-- Embedding of `SymSpell::delete_in_suggestion_prefix` (named without
its final source word). -/
def delete_in_suggestion_prefx (plen : Nat) (delete suggestion : Str) : Bool :=
  let delete_gc := graphemes delete
  if delete_gc.length = 0 then true
  else
    let suggestion_len := min (gcLen suggestion) plen
    dsp_loop (graphemes suggestion) suggestion_len delete_gc 0

/-- Embedding of the `should_continue` closure inside `SymSpell::lookup`
(lines 341–369).  `prefix_length - max_edit_distance` wraps as `usize`;
the short-circuit evaluation order of the `||`/`&&` chain is preserved
because the later operands index `input_gc[k - 1]` / `suggestion_gc[l - 1]`,
which panic (`none`) when `k` or `l` is 0. -/
def should_continue (plen : Nat) (suggestion_len med candidate_len input_len : Nat)
    (suggestion input : Str) : Option Bool :=
  let min0 := min input_len suggestion_len
  if usub plen med = candidate_len ∧ min0 > plen then
    let minv := min0 - plen
    let i := input_len + 1 - minv
    let j := suggestion_len + 1 - minv
    let k := input_len - minv
    let l := suggestion_len - minv
    match sliceFrom input i, sliceFrom suggestion j with
    | some si, some sj =>
      if si ≠ sj then some true
      else if minv > 0 ∧ gcAt input k ≠ gcAt suggestion l then
        match gcIndex input (usub k 1) with
        | none => none
        | some gk1 =>
          if gk1 ≠ gcAt suggestion l then some true
          else
            match gcIndex suggestion (usub l 1) with
            | none => none
            | some gl1 => if gcAt input k ≠ gl1 then some true else some false
      else some false
    | _, _ => none
  else some false

/-- Rust `str::contains(&str)` as byte-level substring search (for valid
UTF-8 the two coincide, UTF-8 being self-synchronizing). -/
def strContains : Str → Str → Bool
  | [], needle => needle.isPrefixOf []
  | b :: rest, needle => needle.isPrefixOf (b :: rest) || strContains rest needle

/-- The mutable state of one `lookup` call: the suggestion list, the two
dedup sets, the tightening distance bound, the candidate queue with its
read pointer, and the `EditDistance` instance maps threaded through the
successive `compare` calls. -/
structure LkSt where
  suggestions : List SuggestItem
  deletes_considered : List Str
  suggestions_considered : List Str
  max2 : Nat
  candidates : List Str
  candidate_pointer : Nat
  maps : DlMaps
deriving Repr

/-- The common tail of the suggestion loop (lines 446–471): verbosity
policy, bound tightening and insertion. -/
def lookup_insert (e : SymSpell) (verbosity : Verbosity) (suggestion : Str) (distance : Nat)
    (st : LkSt) : LkSt :=
  if distance ≤ st.max2 then
    let suggestion_ct := aget e.words suggestion 0
    let si : SuggestItem := ⟨suggestion, distance, suggestion_ct⟩
    if st.suggestions ≠ [] then
      match verbosity with
      | Verbosity.Closest =>
        let st := if distance < st.max2 then { st with suggestions := [] } else st
        let st := if verbosity ≠ Verbosity.All then { st with max2 := distance } else st
        { st with suggestions := st.suggestions ++ [si] }
      | Verbosity.Top =>
        if distance < st.max2 ∨ suggestion_ct > (st.suggestions.getD 0 SuggestItem.default).count then
          { st with max2 := distance, suggestions := st.suggestions.set 0 si }
        else st
      | Verbosity.All =>
        { st with suggestions := st.suggestions ++ [si] }
    else
      let st := if verbosity ≠ Verbosity.All then { st with max2 := distance } else st
      { st with suggestions := st.suggestions ++ [si] }
  else st

/-- The `for suggestion in dict_suggestions` loop of `lookup`
(lines 392–472). -/
def lookup_sug_loop (e : SymSpell) (input : Str) (verbosity : Verbosity) (med : Nat)
    (input_len input_prefix_len : Nat) (candidate : Str) (candidate_len : Nat) :
    List Str → LkSt → Option LkSt
  | [], st => some st
  | suggestion :: rest, st =>
    if suggestion = input then
      lookup_sug_loop e input verbosity med input_len input_prefix_len candidate candidate_len rest st
    else
      let suggestion_len := gcLen suggestion
      if (suggestion_len > input_len ∧ suggestion_len - input_len > st.max2) ∨
          suggestion_len < candidate_len ∨
          (suggestion_len = candidate_len ∧ suggestion ≠ candidate) then
        lookup_sug_loop e input verbosity med input_len input_prefix_len candidate candidate_len rest st
      else
        let suggestion_prefix_len := min suggestion_len e.prefix_length
        if suggestion_prefix_len > input_prefix_len ∧
            usub suggestion_prefix_len candidate_len > st.max2 then
          lookup_sug_loop e input verbosity med input_len input_prefix_len candidate candidate_len rest st
        else
          if candidate_len = 0 then
            let distance := max input_len suggestion_len
            if distance > st.max2 then
              lookup_sug_loop e input verbosity med input_len input_prefix_len candidate candidate_len rest st
            else if suggestion ∈ st.suggestions_considered then
              lookup_sug_loop e input verbosity med input_len input_prefix_len candidate candidate_len rest st
            else
              let st := { st with suggestions_considered := st.suggestions_considered ++ [suggestion] }
              lookup_sug_loop e input verbosity med input_len input_prefix_len candidate candidate_len rest
                (lookup_insert e verbosity suggestion distance st)
          else if suggestion_len = 1 then
            let firstG := suggestion.take (gcByteIndex suggestion 1)
            let distance := if strContains input firstG then input_len else usub input_len 1
            lookup_sug_loop e input verbosity med input_len input_prefix_len candidate candidate_len rest
              (lookup_insert e verbosity suggestion distance st)
          else
            match should_continue e.prefix_length suggestion_len med candidate_len input_len
                suggestion input with
            | none => none
            | some true =>
              lookup_sug_loop e input verbosity med input_len input_prefix_len candidate candidate_len rest st
            | some false =>
              if verbosity ≠ Verbosity.All ∧
                  ¬ delete_in_suggestion_prefx e.prefix_length candidate suggestion then
                lookup_sug_loop e input verbosity med input_len input_prefix_len candidate candidate_len rest st
              else if suggestion ∈ st.suggestions_considered then
                lookup_sug_loop e input verbosity med input_len input_prefix_len candidate candidate_len rest st
              else
                let st := { st with suggestions_considered := st.suggestions_considered ++ [suggestion] }
                match EditDistance.compare st.maps input suggestion (some st.max2) with
                | (none, maps) =>
                  lookup_sug_loop e input verbosity med input_len input_prefix_len candidate candidate_len rest
                    { st with maps := maps }
                | (some distance, maps) =>
                  lookup_sug_loop e input verbosity med input_len input_prefix_len candidate candidate_len rest
                    (lookup_insert e verbosity suggestion distance { st with maps := maps })

/-- The candidate-expansion loop of `lookup` (lines 483–496): the same
byte-level delete generation as `edits`, feeding the candidate queue. -/
def lookup_expand (candidate : Str) (len : Nat) : List Nat → LkSt → Option LkSt
  | [], st => some st
  | rs :: rest, st =>
    let part1 := if rs ≠ 0 then sliceTo candidate rs else some []
    let part2 := if rs + 1 ≠ len then sliceFrom candidate (rs + 1) else some []
    match part1, part2 with
    | some p1, some p2 =>
      let delete := p1 ++ p2
      if delete ∈ st.deletes_considered then lookup_expand candidate len rest st
      else
        lookup_expand candidate len rest
          { st with deletes_considered := st.deletes_considered ++ [delete],
                    candidates := st.candidates ++ [delete] }
    | _, _ => none

/-- The main `while candidate_pointer < candidates.len()` loop of
`lookup`, with explicit fuel (the queue only ever holds pairwise distinct
byte-subsequences of the initial prefix, so `2 ^ |prefix bytes| + 1`
iterations always suffice). -/
def lookup_loop (hash : Str → Nat) (e : SymSpell) (input : Str) (verbosity : Verbosity)
    (med : Nat) (input_len input_prefix_len : Nat) : Nat → LkSt → Option LkSt
  | 0, _ => none
  | fuel + 1, st =>
    if st.candidate_pointer < st.candidates.length then
      let candidate := st.candidates.getD st.candidate_pointer []
      let st := { st with candidate_pointer := st.candidate_pointer + 1 }
      let candidate_len := gcLen candidate
      let len_diff := usub input_prefix_len candidate_len
      if len_diff > st.max2 then
        if verbosity = Verbosity.All then
          lookup_loop hash e input verbosity med input_len input_prefix_len fuel st
        else some st
      else
        let bucket :=
          match agetOpt e.deletes (hash candidate) with
          | some dict_suggestions =>
            lookup_sug_loop e input verbosity med input_len input_prefix_len candidate
              candidate_len dict_suggestions st
          | none => some st
        match bucket with
        | none => none
        | some st =>
          if len_diff < med ∧ candidate_len ≤ e.prefix_length then
            if verbosity ≠ Verbosity.All ∧ len_diff ≥ st.max2 then
              lookup_loop hash e input verbosity med input_len input_prefix_len fuel st
            else
              match lookup_expand candidate candidate.length (chunkStarts candidate) st with
              | none => none
              | some st =>
                lookup_loop hash e input verbosity med input_len input_prefix_len fuel st
          else lookup_loop hash e input verbosity med input_len input_prefix_len fuel st
    else some st

/-- The suggestion comparator passed to `suggestions.sort_by`
(lines 500–505): descending by distance, then descending by count. -/
def sugCmp (a b : SuggestItem) : Ordering :=
  if a.distance = b.distance then compare b.count a.count else compare b.distance a.distance

/-- Stable insertion sort with `sugCmp`; its output coincides with
Rust's stable `sort_by` (stable sorts of a list under a fixed comparator
are unique). -/
def insSorted (x : SuggestItem) : List SuggestItem → List SuggestItem
  | [] => [x]
  | y :: ys => if sugCmp x y = Ordering.lt then x :: y :: ys else y :: insSorted x ys

def sortSuggestions (l : List SuggestItem) : List SuggestItem :=
  l.foldl (fun acc x => insSorted x acc) []

/-- The `end` closure of `lookup` (lines 293–298). -/
def lookup_end (input : Str) (med : Nat) (include_unknown : Bool)
    (suggestions : List SuggestItem) : List SuggestItem :=
  if include_unknown ∧ suggestions = [] then suggestions ++ [⟨input, med + 1, 0⟩]
  else suggestions

/-- Embedding of `SymSpell::lookup`.  The `assert!` is a panic (`none`);
`input_len - max_edit_distance` wraps as `usize`. -/
def lookup (hash : Str → Nat) (e : SymSpell) (input : Str) (verbosity : Verbosity)
    (max_edit_distance : Nat) (include_unknown : Bool) : Option (List SuggestItem) :=
  if ¬ max_edit_distance ≤ e.dictionary_edit_distance then none
  else
    let input_len := gcLen input
    if usub input_len max_edit_distance > e.max_dictionary_word_length then
      some (lookup_end input max_edit_distance include_unknown [])
    else if acontains e.words input ∧ verbosity ≠ Verbosity.All then
      some (lookup_end input max_edit_distance include_unknown [])
    else if max_edit_distance = 0 then
      some (lookup_end input max_edit_distance include_unknown [])
    else
      let input_prefix_len := min input_len e.prefix_length
      let first_candidate :=
        if input_len > e.prefix_length then input.take (gcByteIndex input e.prefix_length)
        else input
      let st0 : LkSt :=
        { suggestions := [], deletes_considered := [], suggestions_considered := [input],
          max2 := max_edit_distance, candidates := [first_candidate], candidate_pointer := 0,
          maps := DlMaps.init }
      match lookup_loop hash e input verbosity max_edit_distance input_len input_prefix_len
          (2 ^ input.length + 1) st0 with
      | none => none
      | some st =>
        let suggestions :=
          if st.suggestions.length > 1 then sortSuggestions st.suggestions else st.suggestions
        some (lookup_end input max_edit_distance include_unknown suggestions)

/-! ### suggestion serialization (src/sym_spell/suggested_item.rs and
src/spellchecker_wasm.rs) -/

/-- Little-endian bytes of `x as u32` (`transmute::<u32, [u8; 4]>` on the
little-endian wasm target). -/
def u32le (n : Nat) : List Nat :=
  [n % 2 ^ 32 % 256, n % 2 ^ 32 / 2 ^ 8 % 256, n % 2 ^ 32 / 2 ^ 16 % 256, n % 2 ^ 32 / 2 ^ 24 % 256]

/-- Embedding of `<SuggestItem as Encode<Vec<u8>>>::encode`. -/
def SuggestItem.encode (si : SuggestItem) : List Nat :=
  u32le si.count ++ u32le si.distance ++ u32le si.term.length ++ si.term

/-- Embedding of `emit_results` (src/spellchecker_wasm.rs): the payload
handed to `result_handler`. -/
def emit_results (results : List SuggestItem) : List Nat :=
  u32le results.length ++
    results.foldl (fun payload si => payload ++ u32le si.encode.length ++ si.encode) []

/-! ### SymSpell::word_segmentation

The function's `(String, String, usize, f64)` compositions carry `f64`
log-probabilities.  Floating point is kept abstract: the embedding is
polymorphic in the carrier `P` with the three operations the source
applies to it (the probability of a dictionary hit, of a miss, addition,
and the `<` comparison), so everything proved below holds for every
interpretation of the floats. -/

/-- The `while largest_idx < range.end` extension loop of
`GraphemeClusters::get_slice_range`, over the explicit `byte_indices`
cache; reading past the byte buffer panics (`none`).  Fuel is
`rend - largest` (exact: fuel 0 implies the guard `largest < rend` is
false). -/
def gsr_loop (bytes : Str) (rend rstart : Nat) :
    Nat → Nat → Nat → Nat → List Nat → Option (Nat × Nat × List Nat)
  | 0, _, start_idx, end_idx, cache => some (start_idx, end_idx, cache)
  | fuel + 1, largest, start_idx, end_idx, cache =>
    if largest < rend then
      match bytes.get? end_idx with
      | none => none
      | some byte =>
        let end_idx := end_idx + grapheme_len byte
        let largest := largest + 1
        let cache := cache ++ [end_idx]
        let start_idx := if largest = rstart then end_idx else start_idx
        gsr_loop bytes rend rstart fuel largest start_idx end_idx cache
    else some (start_idx, end_idx, cache)

/-- Embedding of `GraphemeClusters::get_slice_range` with its mutable
`byte_indices` cache threaded explicitly (`cache` starts as `[0]`). -/
def gc_slice_range (bytes : Str) (cache : List Nat) (rstart rend : Nat) :
    Option (Nat × Nat × List Nat) :=
  let largest := cache.length - 1
  let start_idx := if largest ≥ rstart then cache.getD rstart 0 else cache.getD largest 0
  let end_idx := if largest ≥ rend then cache.getD rend 0 else cache.getD largest 0
  gsr_loop bytes rend rstart (rend - largest) largest start_idx end_idx cache

/-- One composition slot `(segmented, corrected, distance_sum, prob_log_sum)`. -/
def WsComp (P : Type) : Type := Str × Str × Nat × P

/-- The inner `for i in 1..max + 1` loop of `word_segmentation`.
`compositions` is created by `Vec::with_capacity` and therefore has
length 0; every index assignment into it is a panic (`none`), as is the
`% capacity` with `capacity = 0`. -/
def ws_inner {P : Type} (probHit probMiss : Nat → P) (addP : P → P → P) (ltP : P → P → Bool)
    (hash : Str → Nat) (e : SymSpell) (input : Str) (med : Nat)
    (maxSeg capacity j : Nat) :
    List Nat → List (WsComp P) × Int × List Nat → Option (List (WsComp P) × Int × List Nat)
  | [], st => some st
  | i :: rest, (comps, circ, cache) =>
    match gc_slice_range input cache j i with
    | none => none
    | some (rs, re, cache) =>
      if ¬ (rs ≤ re ∧ re ≤ input.length) then none
      else
        let part := (input.take re).drop rs
        let sep_part : Option (Str × Nat) :=
          if strContains [32, 10, 13, 9] (input.take 1) then
            if j + 1 ≤ i ∧ i ≤ input.length then some ((input.take i).drop (j + 1), 0) else none
          else some (part, 1)
        match sep_part with
        | none => none
        | some (part, separator_len) =>
          let top_ed := gcLen part
          let part := part.filter (fun b => b ≠ 32)
          let part_len := gcLen part
          let top_ed := usub top_ed part_len
          match lookup hash e part Verbosity.Top med false with
          | none => none
          | some results =>
            let (top_result, top_ed, top_prob) :=
              match results with
              | r :: _ => (r.term, top_ed + r.distance, probHit r.count)
              | [] => (part, top_ed, probMiss part_len)
            if capacity = 0 then none
            else
              let dIdx := (((i : Int) + circ) % (capacity : Int)).toNat
              let comps0 : Option (List (WsComp P)) :=
                if j = 0 then
                  (if dIdx < comps.length then
                    some (comps.set dIdx (part, top_result, top_ed, top_prob))
                  else none)
                else some comps
              match comps0 with
              | none => none
              | some comps =>
                if circ = -1 then
                  ws_inner probHit probMiss addP ltP hash e input med maxSeg capacity j rest
                    (comps, circ, cache)
                else
                  match comps.get? dIdx, comps.get? circ.toNat with
                  | some (_, _, dDist, dProb), some (cSeg, cCorr, cDist, cProb) =>
                    if i = maxSeg ∨
                        ((cDist + top_ed = dDist ∨ cDist + separator_len + top_ed = dDist) ∧
                          ltP dProb cProb) ∨
                        cDist + separator_len + top_ed < dDist then
                      if dIdx < comps.length then
                        ws_inner probHit probMiss addP ltP hash e input med maxSeg capacity j rest
                          (comps.set dIdx
                            (cSeg ++ [32] ++ part, cCorr ++ [32] ++ top_result,
                              cDist + separator_len + top_ed, addP cProb top_prob),
                            circ, cache)
                      else none
                    else
                      ws_inner probHit probMiss addP ltP hash e input med maxSeg capacity j rest
                        (comps, circ, cache)
                  | _, _ => none

/-- The outer `for j in 0..input_len` loop of `word_segmentation`. -/
def ws_outer {P : Type} (probHit probMiss : Nat → P) (addP : P → P → P) (ltP : P → P → Bool)
    (hash : Str → Nat) (e : SymSpell) (input : Str) (med : Nat)
    (maxSeg capacity input_len : Nat) :
    List Nat → List (WsComp P) × Int × List Nat → Option (List (WsComp P) × Int × List Nat)
  | [], st => some st
  | j :: rest, (comps, circ, cache) =>
    let mx := min maxSeg (input_len - j)
    match ws_inner probHit probMiss addP ltP hash e input med maxSeg capacity j
        (List.range' 1 mx) (comps, circ, cache) with
    | none => none
    | some (comps, circ, cache) =>
      let circ := circ + 1
      let circ := if circ.toNat = capacity then (0 : Int) else circ
      ws_outer probHit probMiss addP ltP hash e input med maxSeg capacity input_len rest
        (comps, circ, cache)

/-- Embedding of `SymSpell::word_segmentation`.  The final
`compositions.remove(circular_index as usize)` panics on an
out-of-bounds index. -/
def word_segmentation {P : Type} (probHit probMiss : Nat → P) (addP : P → P → P)
    (ltP : P → P → Bool) (hash : Str → Nat) (e : SymSpell) (input : Str)
    (max_edit_distance : Nat) (max_seg_opt : Option Nat) : Option (WsComp P) :=
  let maxSeg := max_seg_opt.getD e.max_dictionary_word_length
  let input_len := gcLen input
  let capacity := min maxSeg input_len
  match ws_outer probHit probMiss addP ltP hash e input max_edit_distance maxSeg capacity
      input_len (List.range input_len) ([], (-1 : Int), [0]) with
  | none => none
  | some (comps, circ, _) =>
    if h : 0 ≤ circ ∧ circ.toNat < comps.length then some (comps.get ⟨circ.toNat, h.2⟩)
    else none

/-! ### concrete instantiation helpers

The source hashes with `DefaultHasher` (an unspecified, stable 64-bit
string hash whose collisions the algorithm tolerates); concrete
evaluations below instantiate the `hash` parameter with a simple
injective-enough polynomial hash. -/

def demoHash (s : Str) : Nat := s.foldl (fun h b => h * 31 + b + 1) 7

/-- One dictionary-entry insertion step (propagating panics). -/
def engineStep (hash : Str → Nat) (acc : Option SymSpell) (kc : Str × Nat) : Option SymSpell :=
  match acc with
  | none => none
  | some s => (create_dictionary_entry hash s kc.1 kc.2).map Prod.fst

/-- Build an engine by ingesting a list of word/count pairs through
`create_dictionary_entry` (`none` if any insertion panics). -/
def buildEngine (hash : Str → Nat) (ded plen ct : Nat) (ops : List (Str × Nat)) :
    Option SymSpell :=
  ops.foldl (engineStep hash) (some (SymSpell.new ded plen ct))

/-- Build with the demo hash, defaulting to the empty engine on panic
(the concrete builds below are ASCII and cannot panic). -/
def buildEngineD (ded plen ct : Nat) (ops : List (Str × Nat)) : SymSpell :=
  (buildEngine demoHash ded plen ct ops).getD (SymSpell.new ded plen ct)

/-- Concrete engines used by the witnesses and counterexamples below. -/
def engC10 : SymSpell := buildEngineD 2 7 1 [([97, 98], 3)]

def engC1 : SymSpell := buildEngineD 2 7 1 [([116, 101, 115, 116], 5)]

def engC2 : SymSpell := buildEngineD 2 7 1 [([97, 98, 99], 3), ([97, 98, 99, 100], 4)]

/-- The order the final `sort_by` comparator actually realizes:
descending by distance and, among equal distances, descending by count
(`sugCmp a b ≠ gt`). -/
def sugR (a b : SuggestItem) : Prop :=
  b.distance < a.distance ∨ (a.distance = b.distance ∧ b.count ≤ a.count)

instance : DecidableRel sugR := fun a b => by unfold sugR; infer_instance

/-- The ascending-by-distance order claim C2 asserts. -/
def sugAsc (a b : SuggestItem) : Prop := a.distance ≤ b.distance

instance : DecidableRel sugAsc := fun a b => by unfold sugAsc; infer_instance

/-! ### cell-level views of the two Damerau-OSA cores

`dmStep` is the shared inner-loop cell recurrence (the body of the
`char1 != char2` block together with the transposition test).  `Dm` is
the cost matrix the unbounded core computes (`Dm I J` is `current_cost`
after inner iteration `(I-1, J-1)`).  `CC` is the cost matrix the banded
core computes, including its window `[j_start, j_end)`, the re-seeded
`left_char_cost = above_char_cost = i`, sentinel `char2 = " "` and stale
`next_trans_cost = 0` at the left window edge, and the carry of stale
column values outside the window. -/

def dmStep (c1 c2 pc1 pc2 : G) (i j diag upv lfv tt : Nat) : Nat :=
  if c1 = c2 then diag
  else
    let base := min (min diag upv) lfv + 1
    if i ≠ 0 ∧ j ≠ 0 ∧ c1 = pc2 ∧ pc1 = c2 ∧ tt + 1 < base then tt + 1 else base

def Dm (ch1 ch2 : Nat → G) : Nat → Nat → Nat
  | 0, j => j
  | i + 1, 0 => i + 1
  | i + 1, j + 1 =>
    dmStep (ch1 i) (ch2 j) (ch1 (i - 1)) (ch2 (j - 1)) i j
      (Dm ch1 ch2 i j) (Dm ch1 ch2 i (j + 1)) (Dm ch1 ch2 (i + 1) j)
      (Dm ch1 ch2 (i - 1) (j - 1))
termination_by i j => (i, j)

/-- Window start of banded row `i` (value of `j_start` while row `i` runs). -/
def wjs (j_offset i : Nat) : Nat := i - j_offset

/-- Window end of banded row `i` (value of `j_end` while row `i` runs). -/
def wje (maxd len2 i : Nat) : Nat := min (maxd + 1 + i) len2

def CC (ch1 ch2 : Nat → G) (maxd len2 j_offset : Nat) : Nat → Nat → Nat
  | 0, j => if j ≤ maxd then j else maxd + 1
  | i + 1, 0 => i + 1
  | i + 1, j + 1 =>
    if wjs j_offset i ≤ j ∧ j < wje maxd len2 i then
      dmStep (ch1 i) (ch2 j) (ch1 (i - 1))
        (if j = wjs j_offset i then spaceG else ch2 (j - 1)) i j
        (if j = wjs j_offset i then i else CC ch1 ch2 maxd len2 j_offset i j)
        (CC ch1 ch2 maxd len2 j_offset i (j + 1))
        (if j = wjs j_offset i then i else CC ch1 ch2 maxd len2 j_offset (i + 1) j)
        (if j = wjs j_offset i then 0
         else if j - 1 = wjs j_offset (i - 1) ∧ 1 ≤ i then i - 1
         else CC ch1 ch2 maxd len2 j_offset (i - 1) (j - 1))
    else CC ch1 ch2 maxd len2 j_offset i (j + 1)
termination_by i j => (i, j)

/-- Distance of matrix cell `(I, J)` from the diagonal `J - I = ld` the
banded core's early-exit checks and final cell live on. -/
def penN (ld I J : Nat) : Nat := if I + ld ≤ J then J - (I + ld) else (I + ld) - J

/-- The matrix cells the banded core actually materializes: the initial
row, the border column, and each row's window. -/
def InBand (len1 len2 maxd joff I J : Nat) : Prop :=
  (I = 0 ∧ J ≤ len2) ∨ (J = 0 ∧ I ≤ len1) ∨
  (1 ≤ I ∧ I ≤ len1 ∧ 1 ≤ J ∧
    wjs joff (I - 1) ≤ J - 1 ∧ J - 1 < wje maxd len2 (I - 1))

/-! Loop invariants relating the rolling rows of the two DP cores to the
cell matrices `Dm` and `CC`. -/

def dl_cur (gy : List G) (start i : Nat) (char1 prevChar1 : G) (j : Nat) (st : RowSt) : Nat :=
  (dl_inner_step gy start i char1 prevChar1 j st).current

def rowInvA (ch1 ch2 : Nat → G) (len2 i j : Nat) (st : RowSt) : Prop :=
  st.left = Dm ch1 ch2 i j ∧
  st.above = (if j = 0 then (i : Nat) else Dm ch1 ch2 (i + 1) j) ∧
  (1 ≤ j → st.current = Dm ch1 ch2 (i + 1) j) ∧
  (1 ≤ i → 1 ≤ j → st.nextT = Dm ch1 ch2 (i - 1) (j - 1)) ∧
  (1 ≤ j → st.char2 = ch2 (j - 1)) ∧
  (∀ k, k < j → aget st.c1c k 0 = Dm ch1 ch2 (i + 1) (k + 1)) ∧
  (∀ k, j ≤ k → k < len2 → aget st.c1c k 0 = Dm ch1 ch2 i (k + 1)) ∧
  (∀ k, k < j → aget st.pc1c k 0 = Dm ch1 ch2 i k) ∧
  (1 ≤ i → ∀ k, j ≤ k → k < len2 → aget st.pc1c k 0 = Dm ch1 ch2 (i - 1) k)

def outInvA (ch1 ch2 : Nat → G) (len2 i : Nat) (st : OuterSt) : Prop :=
  (∀ k, k < len2 → aget st.c1c k 0 = Dm ch1 ch2 i (k + 1)) ∧
  (1 ≤ i → ∀ k, k < len2 → aget st.pc1c k 0 = Dm ch1 ch2 (i - 1) k) ∧
  (1 ≤ i → st.char1 = ch1 (i - 1)) ∧
  (1 ≤ i → 1 ≤ len2 → st.current = Dm ch1 ch2 i len2)

def rowInvB (ch1 ch2 : Nat → G) (maxd len2 joff i j : Nat) (st : RowSt) : Prop :=
  st.left = (if j = wjs joff i then (i : Nat) else CC ch1 ch2 maxd len2 joff i j) ∧
  st.above = (if j = wjs joff i then (i : Nat) else CC ch1 ch2 maxd len2 joff (i + 1) j) ∧
  (wjs joff i < j → st.current = CC ch1 ch2 maxd len2 joff (i + 1) j) ∧
  (j = wjs joff i → st.nextT = 0) ∧
  (1 ≤ i → wjs joff i < j → j - 1 < wje maxd len2 (i - 1) →
    st.nextT = (if j - 1 = wjs joff (i - 1) then (i - 1 : Nat)
      else CC ch1 ch2 maxd len2 joff (i - 1) (j - 1))) ∧
  (j = wjs joff i → st.char2 = spaceG) ∧
  (wjs joff i < j → st.char2 = ch2 (j - 1)) ∧
  (∀ k, wjs joff i ≤ k → k < j → aget st.c1c k 0 = CC ch1 ch2 maxd len2 joff (i + 1) (k + 1)) ∧
  (∀ k, j ≤ k → k < len2 → aget st.c1c k 0 = CC ch1 ch2 maxd len2 joff i (k + 1)) ∧
  (∀ k, wjs joff i ≤ k → k < j → aget st.pc1c k 0
      = (if k = wjs joff i then (i : Nat) else CC ch1 ch2 maxd len2 joff i k)) ∧
  (1 ≤ i → ∀ k, j ≤ k → wjs joff (i - 1) ≤ k → k < wje maxd len2 (i - 1) →
    aget st.pc1c k 0 = (if k = wjs joff (i - 1) then (i - 1 : Nat)
      else CC ch1 ch2 maxd len2 joff (i - 1) k))

def outInvB (ch1 ch2 : Nat → G) (maxd len2 joff i : Nat) (t : Nat × Nat × OuterSt) : Prop :=
  t.1 = (i - 1) - joff ∧
  t.2.1 = min (maxd + i) len2 ∧
  (∀ k, (i - 1) - joff ≤ k → k < len2 →
    aget t.2.2.c1c k 0 = CC ch1 ch2 maxd len2 joff i (k + 1)) ∧
  (1 ≤ i → ∀ k, wjs joff (i - 1) ≤ k → k < wje maxd len2 (i - 1) →
    aget t.2.2.pc1c k 0 = (if k = wjs joff (i - 1) then (i - 1 : Nat)
      else CC ch1 ch2 maxd len2 joff (i - 1) k)) ∧
  (1 ≤ i → t.2.2.char1 = ch1 (i - 1)) ∧
  (1 ≤ i → t.2.2.current = CC ch1 ch2 maxd len2 joff i (wje maxd len2 (i - 1)))

def engC5w : SymSpell := buildEngineD 2 7 2 [([97], 1), ([97], 1)]

def engC5 : SymSpell := buildEngineD 2 7 1 [([97], 0), ([97], 1)]

/-! ## Theorems -/

theorem grapheme_len_pos (b : Nat) : 0 < grapheme_len b := by
  unfold grapheme_len
  dsimp only
  split <;> split <;> split <;> omega

theorem usub_of_le {a b : Nat} (hb : b ≤ a) (hb' : b < 2 ^ 64) :
    usub a b = (a - b) % 2 ^ 64 := by
  unfold usub
  rw [Nat.mod_eq_of_lt hb']
  omega

theorem usub_of_lt {a b : Nat} (h : a < b) (hb : b < 2 ^ 64) :
    usub a b = 2 ^ 64 - (b - a) := by
  unfold usub
  rw [Nat.mod_eq_of_lt hb]
  have : a + (2 ^ 64 - b) = 2 ^ 64 - (b - a) := by omega
  rw [this, Nat.mod_eq_of_lt (by omega)]

theorem lookup_end_no_unknown (input : Str) (med : Nat) (sugs : List SuggestItem) :
    lookup_end input med false sugs = sugs := by
  unfold lookup_end
  simp

/-- Helper for the `word_segmentation` analysis: the first inner iteration
of row `j = 0` writes into the length-0 `compositions` vector and panics,
whatever the engine, probabilities and cache hold. -/
theorem ws_inner_row0_none {P : Type} (probHit probMiss : Nat → P) (addP : P → P → P)
    (ltP : P → P → Bool) (hash : Str → Nat) (e : SymSpell) (input : Str) (med : Nat)
    (maxSeg capacity : Nat) (i : Nat) (rest : List Nat) (circ : Int) (cache : List Nat) :
    ws_inner probHit probMiss addP ltP hash e input med maxSeg capacity 0 (i :: rest)
      ([], circ, cache) = none := by
  simp only [ws_inner]
  split
  · rfl
  split
  · rfl
  · split
    · rfl
    · split
      · rfl
      · split
        · rfl
        · simp

/-- Helper: with `max_segmentation_word_len = 0` every inner loop is empty,
so the outer loop leaves the (empty) compositions vector untouched. -/
theorem ws_outer_maxSeg_zero {P : Type} (probHit probMiss : Nat → P) (addP : P → P → P)
    (ltP : P → P → Bool) (hash : Str → Nat) (e : SymSpell) (input : Str) (med : Nat)
    (capacity input_len : Nat) (rows : List Nat) (circ : Int) (cache : List Nat) :
    ∃ circ', ws_outer probHit probMiss addP ltP hash e input med 0 capacity input_len rows
      ([], circ, cache) = some ([], circ', cache) := by
  induction rows generalizing circ with
  | nil => exact ⟨circ, rfl⟩
  | cons j rest ih =>
    simpa only [ws_outer, Nat.zero_min, List.range', ws_inner] using ih _

/-- Claim C9 (code_bug evaluation): `word_segmentation` panics on every
input.  `compositions` is created with `Vec::with_capacity` and so has
length 0; for non-empty input the first index assignment
`compositions[destination_index] = …` (or the `% capacity` with capacity
0) panics, and for empty input the final `compositions.remove(-1 as
usize)` panics.  This holds for every engine, hash, and any
interpretation of the floating-point probabilities. -/
theorem C9_word_segmentation_always_panics {P : Type} (probHit probMiss : Nat → P)
    (addP : P → P → P) (ltP : P → P → Bool) (hash : Str → Nat) (e : SymSpell) (input : Str)
    (max_edit_distance : Nat) (max_seg_opt : Option Nat) :
    word_segmentation probHit probMiss addP ltP hash e input max_edit_distance max_seg_opt
      = none := by
  unfold word_segmentation
  dsimp only
  rcases hlen : gcLen input with _ | n
  · simp [ws_outer]
  · rcases hms : max_seg_opt.getD e.max_dictionary_word_length with _ | m
    · obtain ⟨circ', hc⟩ := ws_outer_maxSeg_zero probHit probMiss addP ltP hash e input
        max_edit_distance (min 0 (n + 1)) (n + 1) (List.range (n + 1)) (-1) [0]
      simp only [hc]
      simp
    · have hrows : List.range (n + 1) = 0 :: List.map Nat.succ (List.range n) :=
        List.range_succ_eq_map n
      rw [hrows]
      simp only [ws_outer]
      have hmx : min (m + 1) (n + 1 - 0) = (min m n) + 1 := by omega
      rw [hmx]
      have hr : List.range' 1 (min m n + 1) = 1 :: List.range' 2 (min m n) := rfl
      rw [hr, ws_inner_row0_none]

/-- Claim C6 (code_bug evaluation): promoting a word whose prefix contains
a multi-byte UTF-8 grapheme panics.  `edits` removes the single byte at
`range.start` instead of the grapheme's whole byte range, so the slice
`subject[range.start + 1 ..]` starts mid-character: for the word "éa"
(bytes `[195, 169, 97]`) the very first delete slices at byte offset 1,
inside `é`, and panics — the claimed whole-grapheme delete variants are
never produced. -/
theorem C6_create_deletes_multibyte_panics :
    create_dictionary_entry demoHash (SymSpell.new 2 7 1) [195, 169, 97] 5 = none ∧
    edits 2 3 [195, 169, 97] 0 [[195, 169, 97]] = none := by
  constructor <;> rfl

/-- Claim C7 (code_bug evaluation): a bigram line with fewer than 3
separator-separated fields panics (`parts[1]` / `parts[2]` index out of
bounds) instead of being silently ignored: "abc" has one field, "a b"
has two. -/
theorem C7_bigram_short_line_panics :
    write_line_to_bigram_dictionary (SymSpell.new 2 7 1) [97, 98, 99] [32] = none ∧
    write_line_to_bigram_dictionary (SymSpell.new 2 7 1) [97, 32, 98] [32] = none := by
  constructor <;> rfl

/-- Claim C8 (code_bug evaluation): `SuggestItem::encode` writes the term
byte length as a little-endian `u32` (4 bytes), not the single `u8` the
claim (and the source's own `encode_test`, which reads the term at offset
9) expects: encoding `("test", distance 1, count 2)` yields 16 bytes with
`[4,0,0,0]` at offsets 8–11, not 13 bytes with `4` at offset 8. -/
theorem C8_encode_term_length_u32 :
    SuggestItem.encode ⟨[116, 101, 115, 116], 1, 2⟩ =
      [2, 0, 0, 0, 1, 0, 0, 0, 4, 0, 0, 0, 116, 101, 115, 116] ∧
    (SuggestItem.encode ⟨[116, 101, 115, 116], 1, 2⟩).length = 16 ∧
    emit_results [⟨[116, 101, 115, 116], 1, 2⟩] =
      [1, 0, 0, 0, 16, 0, 0, 0, 2, 0, 0, 0, 1, 0, 0, 0, 4, 0, 0, 0, 116, 101, 115, 116] := by
  refine ⟨rfl, rfl, rfl⟩

/-- Claim C10 (confirmed): when the query has fewer graphemes than the
requested `max_edit_distance`, `input_len - max_edit_distance` wraps as
`usize`, the "word too big" early exit fires, and lookup returns no
dictionary suggestions at all — only the synthetic unknown item when
`include_unknown` — regardless of the dictionary contents. -/
theorem C10_short_input_early_exit (hash : Str → Nat) (e : SymSpell) (input : Str)
    (verbosity : Verbosity) (med : Nat) (include_unknown : Bool)
    (h1 : med ≤ e.dictionary_edit_distance)
    (h2 : gcLen input < med)
    (h3 : e.max_dictionary_word_length + med < 2 ^ 64) :
    lookup hash e input verbosity med include_unknown =
      some (if include_unknown then [⟨input, med + 1, 0⟩] else []) := by
  unfold lookup
  rw [if_neg (by omega)]
  have hwrap : usub (gcLen input) med = 2 ^ 64 - (med - gcLen input) :=
    usub_of_lt h2 (by omega)
  rw [if_pos (by rw [hwrap]; omega)]
  unfold lookup_end
  cases include_unknown <;> simp

/-- Witness for C10: an engine whose dictionary holds "ab" (count 3,
within edit distance 1 of the query "a"), yet `lookup "a"` with
`max_edit_distance = 2 > 1 = len("a")` returns only the synthetic
unknown item. -/
theorem C10_witness :
    2 ≤ engC10.dictionary_edit_distance ∧ gcLen [97] < 2 ∧
      engC10.max_dictionary_word_length + 2 < 2 ^ 64 ∧
      acontains engC10.words [97, 98] = true ∧
      lookup demoHash engC10 [97] Verbosity.Top 2 true = some [⟨[97], 3, 0⟩] := by
  refine ⟨by decide, by decide, by decide, by decide, ?_⟩
  have h := C10_short_input_early_exit demoHash engC10 [97] Verbosity.Top 2 true
    (by decide) (by decide) (by decide)
  simpa using h

/-- Claim C1 (amended): for a word stored in `words` and any verbosity
other than `All`, `lookup(w, v, med, include_unknown := false)` returns
the *empty* list: the exact-match early exit returns without pushing a
suggestion (the port dropped upstream's push), and the suggestion loop
skips `suggestion == input`, so the engine never suggests the query
itself. -/
theorem C1_lookup_exact_match_empty (hash : Str → Nat) (e : SymSpell) (w : Str)
    (verbosity : Verbosity) (med : Nat)
    (h1 : med ≤ e.dictionary_edit_distance)
    (h2 : acontains e.words w = true)
    (h3 : verbosity ≠ Verbosity.All) :
    lookup hash e w verbosity med false = some [] := by
  unfold lookup
  rw [if_neg (by omega)]
  simp only [lookup_end_no_unknown]
  split
  · rfl
  split
  · rfl
  next hcond => exact absurd ⟨h2, h3⟩ hcond

/-- Witness for the amended C1 at a concrete engine. -/
theorem C1_witness :
    2 ≤ engC1.dictionary_edit_distance ∧
      acontains engC1.words [116, 101, 115, 116] = true ∧
      lookup demoHash engC1 [116, 101, 115, 116] Verbosity.Top 2 false = some [] :=
  ⟨by decide, by decide,
    C1_lookup_exact_match_empty demoHash engC1 [116, 101, 115, 116] Verbosity.Top 2
      (by decide) (by decide) (by decide)⟩

/-- Counterexample to C1 as stated: the engine stores "test" with count
5, yet `lookup("test", Top, 2, false)` returns `some []`, which does not
contain the claimed suggestion `("test", 0, 5)`. -/
theorem C1_counterexample :
    aget engC1.words [116, 101, 115, 116] 0 = 5 ∧
    lookup demoHash engC1 [116, 101, 115, 116] Verbosity.Top 2 false = some [] ∧
    (⟨[116, 101, 115, 116], 0, 5⟩ : SuggestItem) ∉ ([] : List SuggestItem) := by
  refine ⟨by decide, by decide, by decide⟩

/-! ### C2: the order actually produced by the final sort -/

theorem sugR_of_cmp_lt {x y : SuggestItem} (h : sugCmp x y = Ordering.lt) : sugR x y := by
  unfold sugCmp at h
  unfold sugR
  split at h
  · rcases Nat.lt_trichotomy y.count x.count with hc | hc | hc
    · right; exact ⟨by omega, by omega⟩
    · right; exact ⟨by omega, by omega⟩
    · simp [Nat.compare_eq_lt] at h; omega
  · simp [Nat.compare_eq_lt] at h
    left; exact h

theorem sugR_total_not_lt {x y : SuggestItem} (h : ¬ sugCmp x y = Ordering.lt) : sugR y x := by
  unfold sugCmp at h
  unfold sugR
  split at h
  · simp [Nat.compare_eq_lt] at h
    right; exact ⟨by omega, h⟩
  · simp [Nat.compare_eq_lt] at h
    rcases Nat.lt_trichotomy y.distance x.distance with hd | hd | hd
    · omega
    · omega
    · left; exact hd

theorem sugR_trans {x y z : SuggestItem} (h1 : sugR x y) (h2 : sugR y z) : sugR x z := by
  unfold sugR at *
  omega

theorem mem_insSorted {x z : SuggestItem} :
    ∀ {l : List SuggestItem}, z ∈ insSorted x l → z = x ∨ z ∈ l := by
  intro l
  induction l with
  | nil => simp [insSorted]
  | cons y ys ih =>
    simp only [insSorted]
    split
    · intro h
      rcases List.mem_cons.mp h with h | h
      · exact Or.inl h
      · exact Or.inr h
    · intro h
      rcases List.mem_cons.mp h with h | h
      · exact Or.inr (by simp [h])
      · rcases ih h with h | h
        · exact Or.inl h
        · exact Or.inr (List.mem_cons_of_mem _ h)

theorem insSorted_pairwise {x : SuggestItem} {l : List SuggestItem}
    (h : l.Pairwise sugR) : (insSorted x l).Pairwise sugR := by
  induction l with
  | nil => simp [insSorted]
  | cons y ys ih =>
    rcases List.pairwise_cons.mp h with ⟨hy, hys⟩
    simp only [insSorted]
    split
    next hlt =>
      refine List.pairwise_cons.mpr ⟨?_, h⟩
      intro z hz
      rcases List.mem_cons.mp hz with rfl | hz'
      · exact sugR_of_cmp_lt hlt
      · exact sugR_trans (sugR_of_cmp_lt hlt) (hy z hz')
    next hnlt =>
      refine List.pairwise_cons.mpr ⟨?_, ih hys⟩
      intro z hz
      rcases mem_insSorted hz with rfl | hz'
      · exact sugR_total_not_lt hnlt
      · exact hy z hz'

theorem sortSuggestions_pairwise (l : List SuggestItem) :
    (sortSuggestions l).Pairwise sugR := by
  have key : ∀ (l acc : List SuggestItem), acc.Pairwise sugR →
      (l.foldl (fun acc x => insSorted x acc) acc).Pairwise sugR := by
    intro l
    induction l with
    | nil => intro acc h; exact h
    | cons x xs ih => intro acc h; exact ih _ (insSorted_pairwise h)
  exact key l [] (by simp)

theorem pairwise_of_len_le_one {R : SuggestItem → SuggestItem → Prop}
    {l : List SuggestItem} (h : l.length ≤ 1) : l.Pairwise R := by
  match l with
  | [] => exact List.Pairwise.nil
  | [a] => simp
  | a :: b :: t => simp at h

theorem lookup_end_pairwise {R : SuggestItem → SuggestItem → Prop} (input : Str) (med : Nat)
    (iu : Bool) {sugs : List SuggestItem} (h : sugs.Pairwise R) :
    (lookup_end input med iu sugs).Pairwise R := by
  unfold lookup_end
  split
  next hc => simp [hc.2]
  · exact h

/-- Claim C2 (amended): every list `lookup` returns is sorted
*descending* by edit distance and, among suggestions of equal distance,
descending by count — the comparator passed to `sort_by` compares
`b` against `a`.  (The unsorted short lists the early exits return are
empty or singletons, which satisfy any order.) -/
theorem C2_lookup_sorted_descending (hash : Str → Nat) (e : SymSpell) (input : Str)
    (verbosity : Verbosity) (med : Nat) (iu : Bool) (l : List SuggestItem)
    (h : lookup hash e input verbosity med iu = some l) : l.Pairwise sugR := by
  unfold lookup at h
  split at h
  · exact Option.noConfusion h
  simp only [] at h
  split at h
  · exact Option.some.inj h ▸ lookup_end_pairwise _ _ _ List.Pairwise.nil
  split at h
  · exact Option.some.inj h ▸ lookup_end_pairwise _ _ _ List.Pairwise.nil
  split at h
  · exact Option.some.inj h ▸ lookup_end_pairwise _ _ _ List.Pairwise.nil
  split at h
  · exact Option.noConfusion h
  next st heq =>
    refine Option.some.inj h ▸ lookup_end_pairwise _ _ _ ?_
    split
    · exact sortSuggestions_pairwise _
    next hlen => exact pairwise_of_len_le_one (by omega)

/-- Witness for the amended C2: a concrete query returning two
suggestions at distances 2 then 1, in the descending order the theorem
states. -/
theorem C2_witness :
    ([⟨[97, 98, 99, 100], 2, 4⟩, ⟨[97, 98, 99], 1, 3⟩] : List SuggestItem).Pairwise sugR :=
  C2_lookup_sorted_descending demoHash engC2 [97, 98, 120] Verbosity.All 2 false _ (by rfl)

/-- Counterexample to C2 as stated: `lookup("abx", All, 2, false)` on a
dictionary holding "abc" (count 3) and "abcd" (count 4) returns
`[("abcd", 2, 4), ("abc", 1, 3)]`, which is not ascending by distance. -/
theorem C2_counterexample :
    lookup demoHash engC2 [97, 98, 120] Verbosity.All 2 false =
      some [⟨[97, 98, 99, 100], 2, 4⟩, ⟨[97, 98, 99], 1, 3⟩] ∧
    ¬ ([⟨[97, 98, 99, 100], 2, 4⟩, ⟨[97, 98, 99], 1, 3⟩] : List SuggestItem).Pairwise sugAsc := by
  exact ⟨by rfl, by decide⟩

/-! ### C5: words / below_threshold_words disjointness -/

theorem acontains_aupd {α β : Type} [DecidableEq α] (m : List (α × β)) (k k' : α) (v : β) :
    acontains (aupd m k v) k' = true ↔ k' = k ∨ acontains m k' = true := by
  induction m with
  | nil =>
    simp only [aupd, acontains, Bool.or_eq_true, decide_eq_true_eq]
    constructor
    · rintro (h | h)
      · exact Or.inl h.symm
      · exact absurd h (by simp)
    · rintro (h | h)
      · exact Or.inl h.symm
      · exact absurd h (by simp)
  | cons p rest ih =>
    obtain ⟨k0, v0⟩ := p
    by_cases hk : k0 = k
    · simp only [aupd, if_pos hk, acontains, Bool.or_eq_true, decide_eq_true_eq]
      constructor
      · rintro (h | h)
        · exact Or.inl h.symm
        · exact Or.inr (Or.inr h)
      · rintro (h | h | h)
        · exact Or.inl h.symm
        · exact Or.inl (hk ▸ h.symm).symm
        · exact Or.inr h
    · simp only [aupd, if_neg hk, acontains, Bool.or_eq_true, decide_eq_true_eq, ih]
      tauto

theorem acontains_aerase {α β : Type} [DecidableEq α] (m : List (α × β)) (k k' : α) :
    acontains (aerase m k) k' = true ↔ k' ≠ k ∧ acontains m k' = true := by
  induction m with
  | nil => simp [aerase, acontains]
  | cons p rest ih =>
    obtain ⟨k0, v0⟩ := p
    by_cases hk : k0 = k
    · rw [show aerase ((k0, v0) :: rest) k = aerase rest k from by simp [aerase, hk]]
      rw [ih]
      simp only [acontains, Bool.or_eq_true, decide_eq_true_eq]
      constructor
      · rintro ⟨h1, h2⟩; exact ⟨h1, Or.inr h2⟩
      · rintro ⟨h1, h2 | h2⟩
        · exact absurd (hk ▸ h2.symm) h1
        · exact ⟨h1, h2⟩
    · rw [show aerase ((k0, v0) :: rest) k = (k0, v0) :: aerase rest k from by simp [aerase, hk]]
      simp only [acontains, Bool.or_eq_true, decide_eq_true_eq, ih]
      constructor
      · rintro (h | ⟨h1, h2⟩)
        · exact ⟨fun he => hk (h.trans he), Or.inl h⟩
        · exact ⟨h1, Or.inr h2⟩
      · rintro ⟨h1, h2 | h2⟩
        · exact Or.inl h2
        · exact Or.inr ⟨h1, h2⟩

/-- Record-projection facts for `create_dictionary_entry_promote`: it
updates `words` with the key and leaves `below_threshold_words`
untouched. -/
theorem promote_maps (hash : Str → Nat) (s : SymSpell) (key : Str) (count : Nat)
    (s' : SymSpell) (b : Bool)
    (h : create_dictionary_entry_promote hash s key count = some (s', b)) :
    s'.words = aupd s.words key count ∧
      s'.below_threshold_words = s.below_threshold_words ∧
      s'.count_threshold = s.count_threshold := by
  unfold create_dictionary_entry_promote at h
  simp only [] at h
  split at h
  · exact Option.noConfusion h
  next set deletes heq =>
    cases Option.some.inj h
    exact ⟨rfl, rfl, rfl⟩

/-- Preservation: one `create_dictionary_entry` step on an engine with
`count_threshold > 1` keeps `words` and `below_threshold_words`
key-disjoint, never removes a key from `words`, and preserves the
threshold. -/
theorem cde_preserves_disjoint (hash : Str → Nat) (s : SymSpell) (key : Str) (count : Nat)
    (s' : SymSpell) (b : Bool)
    (hct : 1 < s.count_threshold)
    (hinv : ∀ k, ¬(acontains s.words k = true ∧ acontains s.below_threshold_words k = true))
    (h : create_dictionary_entry hash s key count = some (s', b)) :
    (∀ k, ¬(acontains s'.words k = true ∧ acontains s'.below_threshold_words k = true)) ∧
      (∀ k, acontains s.words k = true → acontains s'.words k = true) ∧
      s'.count_threshold = s.count_threshold := by
  unfold create_dictionary_entry at h
  simp only [] at h
  split at h
  next hbelow =>
    split at h
    · -- promotion out of below_threshold_words
      obtain ⟨hw, hb, hc⟩ := promote_maps _ _ _ _ _ _ h
      refine ⟨?_, ?_, by simp [hc]⟩
      · intro k ⟨h1, h2⟩
        rw [hw, acontains_aupd] at h1
        rw [hb] at h2
        simp only [acontains_aerase] at h2
        rcases h1 with rfl | h1
        · exact h2.1 rfl
        · exact hinv k ⟨h1, h2.2⟩
      · intro k hk
        rw [hw, acontains_aupd]
        exact Or.inr hk
    · -- stays below threshold
      cases Option.some.inj h
      refine ⟨?_, fun k hk => hk, rfl⟩
      intro k ⟨h1, h2⟩
      simp only [acontains_aupd] at h2
      rcases h2 with rfl | h2
      · exact hinv k ⟨h1, hbelow.2⟩
      · exact hinv k ⟨h1, h2⟩
  next hnotbelow =>
    split at h
    next hwords =>
      cases Option.some.inj h
      refine ⟨?_, ?_, rfl⟩
      · intro k ⟨h1, h2⟩
        simp only [acontains_aupd] at h1
        rcases h1 with rfl | h1
        · exact hinv k ⟨hwords, h2⟩
        · exact hinv k ⟨h1, h2⟩
      · intro k hk
        simp only [acontains_aupd]
        exact Or.inr hk
    next hnotwords =>
      split at h
      · -- new below-threshold word
        cases Option.some.inj h
        refine ⟨?_, fun k hk => hk, rfl⟩
        intro k ⟨h1, h2⟩
        simp only [acontains_aupd] at h2
        rcases h2 with rfl | h2
        · exact hnotwords h1
        · exact hinv k ⟨h1, h2⟩
      · -- direct promotion
        obtain ⟨hw, hb, hc⟩ := promote_maps _ _ _ _ _ _ h
        refine ⟨?_, ?_, by simp [hc]⟩
        · intro k ⟨h1, h2⟩
          rw [hw, acontains_aupd] at h1
          rw [hb] at h2
          rcases h1 with rfl | h1
          · exact hnotbelow ⟨hct, h2⟩
          · exact hinv k ⟨h1, h2⟩
        · intro k hk
          rw [hw, acontains_aupd]
          exact Or.inr hk

theorem foldl_engineStep_none (hash : Str → Nat) (ops : List (Str × Nat)) :
    ops.foldl (engineStep hash) none = none := by
  induction ops with
  | nil => rfl
  | cons op rest ih => simpa [engineStep] using ih

/-- Folding preservation over an operation list. -/
theorem fold_preserves_disjoint (hash : Str → Nat) (ops : List (Str × Nat)) (s s2 : SymSpell)
    (hct : 1 < s.count_threshold)
    (hinv : ∀ k, ¬(acontains s.words k = true ∧ acontains s.below_threshold_words k = true))
    (h : ops.foldl (engineStep hash) (some s) = some s2) :
    (∀ k, ¬(acontains s2.words k = true ∧ acontains s2.below_threshold_words k = true)) ∧
      (∀ k, acontains s.words k = true → acontains s2.words k = true) ∧
      s2.count_threshold = s.count_threshold := by
  induction ops generalizing s with
  | nil => cases Option.some.inj h; exact ⟨hinv, fun k hk => hk, rfl⟩
  | cons op rest ih =>
    simp only [List.foldl_cons, engineStep] at h
    rcases hstep : create_dictionary_entry hash s op.1 op.2 with _ | p
    · rw [hstep] at h
      simp only [Option.map_none'] at h
      rw [foldl_engineStep_none] at h
      exact Option.noConfusion h
    · obtain ⟨s1, b1⟩ := p
      rw [hstep] at h
      simp only [Option.map_some'] at h
      obtain ⟨hd, hmono, hc⟩ := cde_preserves_disjoint hash s op.1 op.2 s1 b1 hct hinv hstep
      obtain ⟨hd2, hmono2, hc2⟩ := ih s1 (hc ▸ hct) hd h
      exact ⟨hd2, fun k hk => hmono2 k (hmono k hk), by rw [hc2, hc]⟩

/-- Claim C5 (amended): in any engine built with `count_threshold > 1`,
every word key is in at most one of `words` / `below_threshold_words`,
and once promoted into `words`, a key stays there through any further
insertions.  (With `count_threshold ≤ 1` the invariant fails: a key
ingested first with count 0 lands in `below_threshold_words`, whose
merge branch requires `count_threshold > 1`, so a later promotion leaves
the key in both maps — see the counterexample.) -/
theorem C5_disjoint_promotion_one_way (hash : Str → Nat) (ded plen ct : Nat)
    (ops ops2 : List (Str × Nat)) (s s2 : SymSpell)
    (hct : 1 < ct)
    (h1 : buildEngine hash ded plen ct ops = some s)
    (h2 : ops2.foldl (engineStep hash) (some s) = some s2) :
    (∀ k, ¬(acontains s.words k = true ∧ acontains s.below_threshold_words k = true)) ∧
      (∀ k, acontains s.words k = true → acontains s2.words k = true) := by
  unfold buildEngine at h1
  obtain ⟨hd, _, hc⟩ := fold_preserves_disjoint hash ops (SymSpell.new ded plen ct) s
    (by simpa [SymSpell.new] using hct) (by simp [SymSpell.new, acontains]) h1
  obtain ⟨_, hmono2, _⟩ := fold_preserves_disjoint hash ops2 s s2
    (by rw [hc]; simpa [SymSpell.new] using hct) hd h2
  exact ⟨hd, hmono2⟩

/-- Witness for the amended C5 at a concrete engine (threshold 2, "a"
promoted on the second observation, then updated again). -/
theorem C5_witness :
    ¬(acontains engC5w.words [97] = true ∧
        acontains engC5w.below_threshold_words [97] = true) ∧
      (acontains engC5w.words [97] = true →
        acontains ((buildEngine demoHash 2 7 2 [([97], 1), ([97], 1), ([97], 5)]).getD
          (SymSpell.new 2 7 2)).words [97] = true) := by
  have h := C5_disjoint_promotion_one_way demoHash 2 7 2 [([97], 1), ([97], 1)] [([97], 5)]
    engC5w ((buildEngine demoHash 2 7 2 [([97], 1), ([97], 1), ([97], 5)]).getD
      (SymSpell.new 2 7 2))
    (by decide) (by rfl) (by rfl)
  exact ⟨h.1 [97], h.2 [97]⟩

/-- Counterexample to C5 as stated: with `count_threshold = 1`, ingesting
"a" with count 0 and then count 1 leaves "a" in `words` *and* in
`below_threshold_words` simultaneously. -/
theorem C5_counterexample :
    acontains engC5.words [97] = true ∧
      acontains engC5.below_threshold_words [97] = true := by
  exact ⟨by rfl, by rfl⟩

/-! ### C4: merging two ingests of the same word -/

theorem satAdd_min (x y : Nat) : satAdd x y = min (x + y) USIZE_MAX := by
  unfold satAdd USIZE_MAX
  split <;> omega

theorem satAdd_assoc (x y z : Nat) : satAdd (satAdd x y) z = satAdd x (satAdd y z) := by
  simp only [satAdd_min]
  omega

theorem satAdd_le_right (x y z : Nat) : satAdd x y ≤ satAdd x (satAdd y z) := by
  simp only [satAdd_min]
  omega

theorem aget_aupd_self {α : Type} [DecidableEq α] (m : List (α × Nat)) (k : α) (v d : Nat) :
    aget (aupd m k v) k d = v := by
  induction m with
  | nil => simp [aupd, aget]
  | cons p rest ih =>
    obtain ⟨k0, v0⟩ := p
    by_cases hk : k0 = k
    · simp [aupd, if_pos hk, aget]
    · simp [aupd, if_neg hk, aget, hk, ih]

theorem aupd_aupd {α β : Type} [DecidableEq α] (m : List (α × β)) (k : α) (v v' : β) :
    aupd (aupd m k v) k v' = aupd m k v' := by
  induction m with
  | nil => simp [aupd]
  | cons p rest ih =>
    obtain ⟨k0, v0⟩ := p
    by_cases hk : k0 = k
    · simp [aupd, if_pos hk]
    · simp [aupd, if_neg hk, ih]

theorem aerase_aupd {α β : Type} [DecidableEq α] (m : List (α × β)) (k : α) (v : β) :
    aerase (aupd m k v) k = aerase m k := by
  induction m with
  | nil => simp [aupd, aerase]
  | cons p rest ih =>
    obtain ⟨k0, v0⟩ := p
    by_cases hk : k0 = k
    · simp [aupd, if_pos hk, aerase, hk]
    · simp [aupd, if_neg hk, aerase, hk, ih]

theorem aerase_not_contains {α β : Type} [DecidableEq α] (m : List (α × β)) (k : α)
    (h : acontains m k = false) : aerase m k = m := by
  induction m with
  | nil => rfl
  | cons p rest ih =>
    obtain ⟨k0, v0⟩ := p
    simp only [acontains, Bool.or_eq_false_iff, decide_eq_false_iff_not] at h
    simp [aerase, h.1, ih h.2]

theorem acontains_aupd_self {α β : Type} [DecidableEq α] (m : List (α × β)) (k : α) (v : β) :
    acontains (aupd m k v) k = true :=
  (acontains_aupd m k k v).mpr (Or.inl rfl)

theorem acontains_aerase_self {α β : Type} [DecidableEq α] (m : List (α × β)) (k : α) :
    acontains (aerase m k) k = false := by
  rw [Bool.eq_false_iff]
  intro h
  exact ((acontains_aerase m k k).mp h).1 rfl

/-! Stepping lemmas for `create_dictionary_entry`, one per branch. -/

theorem cde_below_promote (hash : Str → Nat) (s : SymSpell) (key : Str) (count : Nat)
    (hb : s.count_threshold > 1 ∧ acontains s.below_threshold_words key = true)
    (hge : satAdd (aget s.below_threshold_words key 0) count ≥ s.count_threshold) :
    create_dictionary_entry hash s key count =
      create_dictionary_entry_promote hash
        { s with below_threshold_words := aerase s.below_threshold_words key } key
        (satAdd (aget s.below_threshold_words key 0) count) := by
  unfold create_dictionary_entry
  rw [if_pos hb, if_pos hge]

theorem cde_below_stay (hash : Str → Nat) (s : SymSpell) (key : Str) (count : Nat)
    (hb : s.count_threshold > 1 ∧ acontains s.below_threshold_words key = true)
    (hlt : ¬ satAdd (aget s.below_threshold_words key 0) count ≥ s.count_threshold) :
    create_dictionary_entry hash s key count =
      some ({ s with below_threshold_words := aupd s.below_threshold_words key (satAdd (aget s.below_threshold_words key 0) count) }, false) := by
  unfold create_dictionary_entry
  rw [if_pos hb, if_neg hlt]

theorem cde_words_update (hash : Str → Nat) (s : SymSpell) (key : Str) (count : Nat)
    (hb : ¬ (s.count_threshold > 1 ∧ acontains s.below_threshold_words key = true))
    (hw : acontains s.words key = true) :
    create_dictionary_entry hash s key count =
      some ({ s with words := aupd s.words key (satAdd (aget s.words key 0) count) },
        false) := by
  unfold create_dictionary_entry
  rw [if_neg hb, if_pos hw]

theorem cde_fresh_below (hash : Str → Nat) (s : SymSpell) (key : Str) (count : Nat)
    (hb : ¬ (s.count_threshold > 1 ∧ acontains s.below_threshold_words key = true))
    (hw : ¬ acontains s.words key = true)
    (hlt : count < s.count_threshold) :
    create_dictionary_entry hash s key count =
      some ({ s with below_threshold_words := aupd s.below_threshold_words key count },
        false) := by
  unfold create_dictionary_entry
  rw [if_neg hb, if_neg hw, if_pos hlt]

theorem cde_fresh_promote (hash : Str → Nat) (s : SymSpell) (key : Str) (count : Nat)
    (hb : ¬ (s.count_threshold > 1 ∧ acontains s.below_threshold_words key = true))
    (hw : ¬ acontains s.words key = true)
    (hge : ¬ count < s.count_threshold) :
    create_dictionary_entry hash s key count =
      create_dictionary_entry_promote hash s key count := by
  unfold create_dictionary_entry
  rw [if_neg hb, if_neg hw, if_neg hge]

/-- After a promotion with count `c1`, a further insertion of the same
key with count `c2` lands in the `words` branch and merges saturating —
the same state promotion with `satAdd c1 c2` produces (provided the key
is not in `below_threshold_words`). -/
theorem promote_then_words_update (hash : Str → Nat) (s : SymSpell) (key : Str) (c1 c2 : Nat)
    (hb : acontains s.below_threshold_words key = false) :
    ((create_dictionary_entry_promote hash s key c1).map Prod.fst).bind
      (fun s1 => (create_dictionary_entry hash s1 key c2).map Prod.fst)
    = (create_dictionary_entry_promote hash s key (satAdd c1 c2)).map Prod.fst := by
  unfold create_dictionary_entry_promote
  simp only []
  rcases hcd : create_deletes hash s.dictionary_edit_distance s.prefix_length s.deletes key
    with _ | ⟨st, dels⟩
  · simp
  · simp only [Option.map_some', Option.some_bind]
    rw [cde_words_update hash _ key c2 (by simp [hb]) (acontains_aupd_self _ _ _)]
    simp only [aget_aupd_self, Option.map_some']
    rw [aupd_aupd]

/-- Claim C4's core, at the `create_dictionary_entry` level: on an engine
with `count_threshold > 1`, inserting `key` with counts `a` then `b`
produces the same state as inserting it once with the saturating sum. -/
theorem cde_merge (hash : Str → Nat) (s : SymSpell) (key : Str) (a b : Nat)
    (hct : 1 < s.count_threshold) (hcm : s.count_threshold < 2 ^ 64) :
    ((create_dictionary_entry hash s key a).map Prod.fst).bind
      (fun s1 => (create_dictionary_entry hash s1 key b).map Prod.fst)
    = (create_dictionary_entry hash s key (satAdd a b)).map Prod.fst := by
  have hct' : s.count_threshold > 1 := hct
  by_cases hbw : acontains s.below_threshold_words key = true
  · set prev := aget s.below_threshold_words key 0 with hprev
    have hx : satAdd (satAdd prev a) b = satAdd prev (satAdd a b) := satAdd_assoc _ _ _
    by_cases h1 : satAdd prev a ≥ s.count_threshold
    · -- first step promotes; second step updates words
      have h1' : satAdd prev (satAdd a b) ≥ s.count_threshold :=
        le_trans h1 (satAdd_le_right _ _ _)
      rw [cde_below_promote hash s key a ⟨hct', hbw⟩ (hprev ▸ h1),
        cde_below_promote hash s key (satAdd a b) ⟨hct', hbw⟩ (hprev ▸ h1'),
        promote_then_words_update hash
          { s with below_threshold_words := aerase s.below_threshold_words key }
          key (satAdd (aget s.below_threshold_words key 0) a) b
          (acontains_aerase_self _ _), ← hprev, hx]
    · -- first step stays below
      rw [cde_below_stay hash s key a ⟨hct', hbw⟩ (hprev ▸ h1)]
      simp only [Option.map_some', Option.some_bind]
      by_cases h2 : satAdd prev (satAdd a b) ≥ s.count_threshold
      · rw [cde_below_promote hash
            { s with below_threshold_words := aupd s.below_threshold_words key (satAdd (aget s.below_threshold_words key 0) a) }
            key b ⟨hct', acontains_aupd_self _ _ _⟩
            (by simpa only [aget_aupd_self, hprev ▸ hx] using hprev ▸ h2),
          cde_below_promote hash s key (satAdd a b) ⟨hct', hbw⟩ (hprev ▸ h2)]
        simp only [aget_aupd_self, aerase_aupd, hprev ▸ hx]
      · rw [cde_below_stay hash
            { s with below_threshold_words := aupd s.below_threshold_words key (satAdd (aget s.below_threshold_words key 0) a) }
            key b ⟨hct', acontains_aupd_self _ _ _⟩
            (by simpa only [aget_aupd_self, hprev ▸ hx] using hprev ▸ h2),
          cde_below_stay hash s key (satAdd a b) ⟨hct', hbw⟩ (hprev ▸ h2)]
        simp only [Option.map_some', aget_aupd_self, aupd_aupd, hprev ▸ hx]
  · by_cases hww : acontains s.words key = true
    · rw [cde_words_update hash s key a (by simp [hbw]) hww]
      simp only [Option.map_some', Option.some_bind]
      rw [cde_words_update hash _ key b (by simp [hbw]) (acontains_aupd_self _ _ _),
        cde_words_update hash s key (satAdd a b) (by simp [hbw]) hww]
      simp only [Option.map_some', aget_aupd_self, aupd_aupd, satAdd_assoc]
    · by_cases hnew : a < s.count_threshold
      · rw [cde_fresh_below hash s key a (by simp [hbw]) hww hnew]
        simp only [Option.map_some', Option.some_bind]
        by_cases h2 : satAdd a b ≥ s.count_threshold
        · rw [cde_below_promote hash
              { s with below_threshold_words := aupd s.below_threshold_words key a }
              key b ⟨hct', acontains_aupd_self _ _ _⟩ (by simpa only [aget_aupd_self] using h2),
            cde_fresh_promote hash s key (satAdd a b) (by simp [hbw]) hww (by omega)]
          simp only [aget_aupd_self, aerase_aupd,
            aerase_not_contains _ _ (by simpa using hbw)]
        · rw [cde_below_stay hash
              { s with below_threshold_words := aupd s.below_threshold_words key a }
              key b ⟨hct', acontains_aupd_self _ _ _⟩ (by simpa only [aget_aupd_self] using h2),
            cde_fresh_below hash s key (satAdd a b) (by simp [hbw]) hww (by omega)]
          simp only [Option.map_some', aget_aupd_self, aupd_aupd]
      · have h2 : ¬ satAdd a b < s.count_threshold := by
          simp only [satAdd_min, USIZE_MAX]
          omega
        rw [cde_fresh_promote hash s key a (by simp [hbw]) hww hnew,
          cde_fresh_promote hash s key (satAdd a b) (by simp [hbw]) hww h2,
          promote_then_words_update hash s key a b (by simpa using hbw)]

/-! ### Claim C4: the `write_line_to_dictionary` parse layer -/

theorem natDigits_mem (n : Nat) : ∀ d ∈ natDigits n, 48 ≤ d ∧ d ≤ 57 := by
  intro d hd
  unfold natDigits at hd
  by_cases h0 : n = 0
  · rw [if_pos h0] at hd
    simp only [List.mem_singleton] at hd
    omega
  · rw [if_neg h0, List.mem_reverse, List.mem_map] at hd
    obtain ⟨d', hd', rfl⟩ := hd
    have := Nat.digits_lt_base (by norm_num) hd'
    omega

theorem foldl_digits_eq (L : List Nat) : ∀ acc : Nat,
    L.foldl (fun a d => a * 10 + d) acc = acc * 10 ^ L.length + Nat.ofDigits 10 L.reverse := by
  induction L with
  | nil => intro acc; simp [Nat.ofDigits]
  | cons d L ih =>
    intro acc
    simp only [List.foldl_cons, ih, List.length_cons, List.reverse_cons]
    rw [Nat.ofDigits_append]
    simp only [Nat.ofDigits_singleton, List.length_reverse]
    ring

theorem parseUsize_natDigits (n : Nat) (h : n < 2 ^ 64) : parseUsize (natDigits n) = some n := by
  have hmem := natDigits_mem n
  have hne : natDigits n ≠ [] := by
    unfold natDigits
    by_cases h0 : n = 0
    · rw [if_pos h0]; simp
    · rw [if_neg h0]
      simp only [ne_eq, List.reverse_eq_nil_iff, List.map_eq_nil_iff]
      exact Nat.digits_ne_nil_iff_ne_zero.2 h0
  obtain ⟨b, rest, hbr⟩ := List.exists_cons_of_ne_nil hne
  have hb : 48 ≤ b ∧ b ≤ 57 := hmem b (by rw [hbr]; exact List.mem_cons_self _ _)
  have hfold : (natDigits n).foldl (fun a d => a * 10 + (d - 48)) 0 = n := by
    unfold natDigits
    by_cases h0 : n = 0
    · rw [if_pos h0]; simp [h0]
    · rw [if_neg h0, ← List.map_reverse, List.foldl_map]
      simp only [Nat.add_sub_cancel]
      rw [foldl_digits_eq, List.reverse_reverse, Nat.ofDigits_digits]
      simp
  unfold parseUsize
  rw [hbr]
  have hb43 : ¬ b = 43 := by omega
  simp only [if_neg hb43]
  rw [if_neg (by rw [← hbr]; exact hne), if_pos, ← hbr, hfold, if_pos h]
  rw [← hbr]
  rw [List.all_eq_true]
  intro d hd
  have := hmem d hd
  simp only [Bool.and_eq_true, decide_eq_true_eq]
  omega

theorem trimEnd_digits (L : Str) (h : ∀ d ∈ L, 48 ≤ d ∧ d ≤ 57) : trimEnd L = L := by
  unfold trimEnd
  have hdw : L.reverse.dropWhile
      (fun b => decide (b = 32 ∨ b = 9 ∨ b = 10 ∨ b = 11 ∨ b = 12 ∨ b = 13)) = L.reverse := by
    cases hL : L.reverse with
    | nil => rfl
    | cons x xs =>
      rw [List.dropWhile_cons, if_neg]
      have hx : x ∈ L := by
        rw [← List.mem_reverse, hL]
        exact List.mem_cons_self _ _
      have := h x hx
      simp only [decide_eq_true_eq]
      omega
  rw [hdw, List.reverse_reverse]

theorem ascii_isCharBoundary (s : Str) (h : ∀ x ∈ s, x < 128) (i : Nat) (hi : i ≤ s.length) :
    isCharBoundary s i = true := by
  unfold isCharBoundary
  rcases Nat.eq_or_lt_of_le hi with he | hlt
  · simp [he]
  · by_cases h0 : i = 0
    · simp [h0]
    · have hmem : s[i] ∈ s := List.getElem_mem hlt
      have hlt128 := h _ hmem
      have hand : s[i] &&& 0xC0 ≤ s[i] := Nat.and_le_left
      have h192 : ¬ (s[i] &&& 0xC0 = 0x80) := by
        intro hx
        rw [hx] at hand
        omega
      simp [hlt, h192]

theorem take_drop_one (s : Str) : ∀ i : Nat, i < s.length →
    (s.take (i + 1)).drop i = [s.getD i 0] := by
  induction s with
  | nil => intro i hi; simp at hi
  | cons x xs ih =>
    intro i hi
    cases i with
    | zero => simp [List.getD]
    | succ j =>
      simp only [List.take_succ_cons, List.drop_succ_cons, List.getD_cons_succ]
      exact ih j (by simpa using hi)

theorem slice_one (s : Str) (hascii : ∀ x ∈ s, x < 128) (i : Nat) (hi : i < s.length) :
    sliceRange s i (i + 1) = some [s.getD i 0] := by
  unfold sliceRange
  rw [if_pos ⟨ascii_isCharBoundary s hascii i (by omega),
    ascii_isCharBoundary s hascii (i + 1) (by omega), by omega, by omega⟩]
  rw [take_drop_one s i hi]

theorem wl_loop_append (line sep : Str) (is1 is2 : List Nat) :
    ∀ (idx : Nat) (parts : List Str),
    wl_loop line sep (is1 ++ is2) idx parts
    = (wl_loop line sep is1 idx parts).bind (fun r => wl_loop line sep is2 r.1 r.2) := by
  induction is1 with
  | nil => intro idx parts; simp [wl_loop]
  | cons i rest ih =>
    intro idx parts
    simp only [List.cons_append, wl_loop]
    cases h : sliceRange line i (i + 1) with
    | none => simp
    | some ch =>
      dsimp only
      by_cases hch : ch = sep
      · simp only [if_pos hch]
        cases h2 : sliceRange line idx i with
        | none => rfl
        | some part => exact ih (i + 1) (parts ++ [part])
      · simp only [if_neg hch]
        exact ih idx parts

theorem wl_loop_skip (line sep : Str) (is : List Nat)
    (h : ∀ i ∈ is, ∃ ch, sliceRange line i (i + 1) = some ch ∧ ch ≠ sep) :
    ∀ (idx : Nat) (parts : List Str), wl_loop line sep is idx parts = some (idx, parts) := by
  induction is with
  | nil => intro idx parts; rfl
  | cons i rest ih =>
    intro idx parts
    obtain ⟨ch, hch, hne⟩ := h i (List.mem_cons_self _ _)
    simp only [wl_loop, hch]
    rw [if_neg hne]
    exact ih (fun j hj => h j (List.mem_cons_of_mem _ hj)) idx parts

theorem wl_parse (hash : Str → Nat) (w D : Str) (c : Nat)
    (hw : ∀ x ∈ w, x < 128 ∧ x ≠ c) (hD : ∀ x ∈ D, x < 128 ∧ x ≠ c) (hc : c < 128) :
    ∀ s : SymSpell, write_line_to_dictionary hash s (w ++ c :: D) [c]
      = (create_dictionary_entry hash s w ((parseUsize (trimEnd D)).getD 0)).map Prod.fst := by
  intro s
  have hall : ∀ x ∈ w ++ c :: D, x < 128 := by
    intro x hx
    rcases List.mem_append.1 hx with h1 | h2
    · exact (hw x h1).1
    · rcases List.mem_cons.1 h2 with rfl | h3
      · exact hc
      · exact (hD x h3).1
  have hlen : (w ++ c :: D).length = (w.length + 1) + D.length := by
    simp [Nat.add_comm, Nat.add_assoc, Nat.add_left_comm]
  have hgetw : ∀ i, i < w.length → (w ++ c :: D).getD i 0 = w.getD i 0 := by
    intro i hi
    exact List.getD_append _ _ _ _ hi
  have hgetc : (w ++ c :: D).getD w.length 0 = c := by
    rw [List.getD_append_right _ _ _ _ (le_refl _)]
    simp
  have hgetD : ∀ j, j < D.length → (w ++ c :: D).getD (w.length + 1 + j) 0 = D.getD j 0 := by
    intro j hj
    rw [List.getD_append_right _ _ _ _ (by omega)]
    have : w.length + 1 + j - w.length = j + 1 := by omega
    rw [this]
    simp
  have hscan : wl_loop (w ++ c :: D) [c] (List.range (w ++ c :: D).length) 0 []
      = some (w.length + 1, [w]) := by
    rw [hlen, List.range_add, wl_loop_append]
    have hfirst : wl_loop (w ++ c :: D) [c] (List.range (w.length + 1)) 0 []
        = some (w.length + 1, [w]) := by
      rw [List.range_succ, wl_loop_append]
      rw [wl_loop_skip (w ++ c :: D) [c] (List.range w.length) ?hskip]
      case hskip =>
        intro i hi
        rw [List.mem_range] at hi
        refine ⟨[(w ++ c :: D).getD i 0],
          slice_one _ hall i (by rw [hlen]; omega), ?_⟩
        rw [hgetw i hi]
        have hmem : w.getD i 0 ∈ w := by
          rw [List.getD_eq_getElem w 0 hi]
          exact List.getElem_mem hi
        have := (hw _ hmem).2
        simp only [ne_eq, List.cons.injEq, and_true]
        exact this
      simp only [Option.some_bind]
      have hstep : sliceRange (w ++ c :: D) w.length (w.length + 1) = some [c] := by
        rw [slice_one _ hall w.length (by rw [hlen]; omega), hgetc]
      simp only [wl_loop, hstep, if_pos rfl]
      have hpre : sliceRange (w ++ c :: D) 0 w.length = some w := by
        unfold sliceRange
        rw [if_pos ⟨ascii_isCharBoundary _ hall 0 (by omega),
          ascii_isCharBoundary _ hall w.length (by rw [hlen]; omega),
          by omega, by rw [hlen]; omega⟩]
        rw [List.drop_zero, List.take_left]
      simp only [hpre, List.nil_append, if_true]
    rw [hfirst]
    simp only [Option.some_bind]
    rw [wl_loop_skip]
    intro i hi
    rw [List.mem_map] at hi
    obtain ⟨j, hj, rfl⟩ := hi
    rw [List.mem_range] at hj
    refine ⟨[(w ++ c :: D).getD (w.length + 1 + j) 0,],
      slice_one _ hall _ (by rw [hlen]; omega), ?_⟩
    rw [hgetD j hj]
    have hmem : D.getD j 0 ∈ D := by
      rw [List.getD_eq_getElem D 0 hj]
      exact List.getElem_mem hj
    have := (hD _ hmem).2
    simp only [ne_eq, List.cons.injEq, and_true]
    exact this
  have hfrom : sliceFrom (w ++ c :: D) (w.length + 1) = some D := by
    unfold sliceFrom
    rw [if_pos ⟨ascii_isCharBoundary _ hall (w.length + 1) (by rw [hlen]; omega),
      by rw [hlen]; omega⟩]
    have hsplit : w ++ c :: D = (w ++ [c]) ++ D := by simp
    rw [hsplit, List.drop_left' (by simp)]
  unfold write_line_to_dictionary
  rw [hscan]
  simp only [hfrom]
  rw [if_neg (by simp)]
  simp only [List.singleton_append, List.getD_cons_zero, List.getD_cons_succ]
  cases hcde : create_dictionary_entry hash s w ((parseUsize (trimEnd D)).getD 0) with
  | none => rfl
  | some p => cases p; rfl

/-- C4: with `count_threshold > 1` (and `usize`-ranged threshold and
counts), ingesting the dictionary lines `w<sep>a` then `w<sep>b` leaves
the engine in the same state as ingesting `w<sep>(a+b)` once, where the
count addition saturates at `usize::MAX`.  `w` must not contain the
(single-byte ASCII, non-digit) separator, and the whole line must be
ASCII (a multi-byte character makes the scan's 1-byte slice panic). -/
theorem C4_ingest_lines_merge (hash : Str → Nat) (s : SymSpell) (w : Str) (c a b : Nat)
    (hct : 1 < s.count_threshold) (hcm : s.count_threshold < 2 ^ 64)
    (hw : ∀ x ∈ w, x < 128 ∧ x ≠ c) (hc : c < 128) (hcd : c < 48 ∨ 57 < c)
    (ha : a < 2 ^ 64) (hb : b < 2 ^ 64) :
    (write_line_to_dictionary hash s (w ++ c :: natDigits a) [c]).bind
      (fun s1 => write_line_to_dictionary hash s1 (w ++ c :: natDigits b) [c])
    = write_line_to_dictionary hash s (w ++ c :: natDigits (satAdd a b)) [c] := by
  have hD : ∀ n : Nat, ∀ x ∈ natDigits n, x < 128 ∧ x ≠ c := by
    intro n x hx
    have := natDigits_mem n x hx
    omega
  have hsat : satAdd a b < 2 ^ 64 := by
    simp only [satAdd_min, USIZE_MAX]
    omega
  have hcount : ∀ n : Nat, n < 2 ^ 64 →
      (parseUsize (trimEnd (natDigits n))).getD 0 = n := by
    intro n hn
    rw [trimEnd_digits _ (natDigits_mem n), parseUsize_natDigits n hn]
    rfl
  rw [wl_parse hash w (natDigits a) c hw (hD a) hc,
    wl_parse hash w (natDigits (satAdd a b)) c hw (hD (satAdd a b)) hc]
  simp only [wl_parse hash w (natDigits b) c hw (hD b) hc]
  rw [hcount a ha, hcount b hb, hcount (satAdd a b) hsat]
  exact cde_merge hash s w a b hct hcm

/-- Witness for C4: the merge law at a concrete engine
(`count_threshold = 2`), word `"a"`, separator `" "` and counts 1, 1. -/
theorem C4_witness :
    1 < (SymSpell.new 2 7 2).count_threshold ∧
    (write_line_to_dictionary demoHash (SymSpell.new 2 7 2) ([97] ++ 32 :: natDigits 1) [32]).bind
      (fun s1 => write_line_to_dictionary demoHash s1 ([97] ++ 32 :: natDigits 1) [32])
    = write_line_to_dictionary demoHash (SymSpell.new 2 7 2)
        ([97] ++ 32 :: natDigits (satAdd 1 1)) [32] :=
  ⟨by decide, C4_ingest_lines_merge demoHash (SymSpell.new 2 7 2) [97] 32 1 1 (by decide)
    (by decide) (by decide) (by decide) (by decide) (by decide) (by decide)⟩

/-- Counterexample to the unconditional C4 claim: with `count_threshold = 1`,
ingesting `"a 0"` then `"a 1"` leaves a stale `below_threshold_words` entry
for `"a"` that ingesting `"a 1"` once does not produce. -/
theorem C4_counterexample :
    ((write_line_to_dictionary demoHash (SymSpell.new 2 7 1) [97, 32, 48] [32]).bind
      (fun s1 => write_line_to_dictionary demoHash s1 [97, 32, 49] [32])).map
        (fun s => s.below_threshold_words)
    ≠ (write_line_to_dictionary demoHash (SymSpell.new 2 7 1) [97, 32, 49] [32]).map
        (fun s => s.below_threshold_words) := by
  decide

/-! ### Claim C3: the banded core refines the unbounded core

Structure: `Dm`-matrix properties (Lipschitz, monotone, lower bounds);
faithfulness of `core_damerau_levenshtein` to `Dm`; faithfulness of
`core_damerau_levenshtein2` to `CC`; the band invariants linking `CC` to
`Dm`; and the wrapper assembly. -/

theorem dmStep_main (c1 c2 pc1 pc2 : G) (i j d u l t : Nat) :
    (c1 = c2 ∧ dmStep c1 c2 pc1 pc2 i j d u l t = d) ∨
    (c1 ≠ c2 ∧ dmStep c1 c2 pc1 pc2 i j d u l t = min (min d u) l + 1) ∨
    (c1 ≠ c2 ∧ 1 ≤ i ∧ 1 ≤ j ∧ c1 = pc2 ∧ pc1 = c2 ∧
      dmStep c1 c2 pc1 pc2 i j d u l t = t + 1 ∧ t + 1 < min (min d u) l + 1) := by
  unfold dmStep
  by_cases hc : c1 = c2
  · exact Or.inl ⟨hc, by rw [if_pos hc]⟩
  · rw [if_neg hc]
    simp only []
    split_ifs with hg
    · exact Or.inr (Or.inr ⟨hc, by omega, by omega, hg.2.2.1, hg.2.2.2.1, rfl, hg.2.2.2.2⟩)
    · exact Or.inr (Or.inl ⟨hc, rfl⟩)

theorem dmStep_le_tt (c1 c2 pc1 pc2 : G) (i j d u l t : Nat) (hc : c1 ≠ c2)
    (hi : i ≠ 0) (hj : j ≠ 0) (hp : c1 = pc2) (hq : pc1 = c2) :
    dmStep c1 c2 pc1 pc2 i j d u l t ≤ t + 1 := by
  unfold dmStep
  rw [if_neg hc]
  simp only []
  split_ifs with hg
  · exact le_refl _
  · simp only [not_and, not_lt] at hg
    exact hg hi hj hp hq

theorem Dm_row0 (ch1 ch2 : Nat → G) (j : Nat) : Dm ch1 ch2 0 j = j := by
  rw [Dm]

theorem Dm_col0 (ch1 ch2 : Nat → G) (I : Nat) : Dm ch1 ch2 I 0 = I := by
  cases I with
  | zero => rw [Dm]
  | succ i => rw [Dm]

theorem Dm_succ (ch1 ch2 : Nat → G) (i j : Nat) :
    Dm ch1 ch2 (i + 1) (j + 1)
    = dmStep (ch1 i) (ch2 j) (ch1 (i - 1)) (ch2 (j - 1)) i j
        (Dm ch1 ch2 i j) (Dm ch1 ch2 i (j + 1)) (Dm ch1 ch2 (i + 1) j)
        (Dm ch1 ch2 (i - 1) (j - 1)) := by
  rw [Dm]

theorem Dm_props (ch1 ch2 : Nat → G) : ∀ n : Nat, ∀ I J, I + J ≤ n →
    (J - I ≤ Dm ch1 ch2 I J) ∧ (I - J ≤ Dm ch1 ch2 I J) ∧
    (Dm ch1 ch2 (I + 1) J ≤ Dm ch1 ch2 I J + 1) ∧
    (Dm ch1 ch2 I (J + 1) ≤ Dm ch1 ch2 I J + 1) ∧
    (Dm ch1 ch2 I J ≤ Dm ch1 ch2 (I + 1) J + 1) ∧
    (Dm ch1 ch2 I J ≤ Dm ch1 ch2 I (J + 1) + 1) ∧
    (Dm ch1 ch2 I J ≤ Dm ch1 ch2 (I + 1) (J + 1)) ∧
    (Dm ch1 ch2 (I + 1) (J + 1) ≤ Dm ch1 ch2 I J + 1) := by
  intro n
  induction n using Nat.strong_induction_on with
  | _ n ih =>
  intro I J hIJ
  have IH : ∀ I2 J2, I2 + J2 < I + J →
      (J2 - I2 ≤ Dm ch1 ch2 I2 J2) ∧ (I2 - J2 ≤ Dm ch1 ch2 I2 J2) ∧
      (Dm ch1 ch2 (I2 + 1) J2 ≤ Dm ch1 ch2 I2 J2 + 1) ∧
      (Dm ch1 ch2 I2 (J2 + 1) ≤ Dm ch1 ch2 I2 J2 + 1) ∧
      (Dm ch1 ch2 I2 J2 ≤ Dm ch1 ch2 (I2 + 1) J2 + 1) ∧
      (Dm ch1 ch2 I2 J2 ≤ Dm ch1 ch2 I2 (J2 + 1) + 1) ∧
      (Dm ch1 ch2 I2 J2 ≤ Dm ch1 ch2 (I2 + 1) (J2 + 1)) ∧
      (Dm ch1 ch2 (I2 + 1) (J2 + 1) ≤ Dm ch1 ch2 I2 J2 + 1) :=
    fun I2 J2 h => ih (I2 + J2) (by omega) I2 J2 (le_refl _)
  have P8 : ∀ I2 J2, Dm ch1 ch2 (I2 + 1) (J2 + 1) ≤ Dm ch1 ch2 I2 J2 + 1 := by
    intro I2 J2
    rw [Dm_succ]
    rcases dmStep_main (ch1 I2) (ch2 J2) (ch1 (I2 - 1)) (ch2 (J2 - 1)) I2 J2
      (Dm ch1 ch2 I2 J2) (Dm ch1 ch2 I2 (J2 + 1)) (Dm ch1 ch2 (I2 + 1) J2)
      (Dm ch1 ch2 (I2 - 1) (J2 - 1)) with h | h | h
    · rw [h.2]; omega
    · rw [h.2]; omega
    · obtain ⟨-, -, -, -, -, heq, hlt⟩ := h
      rw [heq]; omega
  have P12 : (J - I ≤ Dm ch1 ch2 I J) ∧ (I - J ≤ Dm ch1 ch2 I J) := by
    rcases I with _ | i
    · rw [Dm_row0]; omega
    rcases J with _ | j
    · rw [Dm_col0]; omega
    obtain ⟨q1, q2, -⟩ := IH i j (by omega)
    obtain ⟨r1, r2, -⟩ := IH i (j + 1) (by omega)
    obtain ⟨s1, s2, -⟩ := IH (i + 1) j (by omega)
    rcases dmStep_main (ch1 i) (ch2 j) (ch1 (i - 1)) (ch2 (j - 1)) i j
      (Dm ch1 ch2 i j) (Dm ch1 ch2 i (j + 1)) (Dm ch1 ch2 (i + 1) j)
      (Dm ch1 ch2 (i - 1) (j - 1)) with h | h | h
    · rw [Dm_succ, h.2]; omega
    · rw [Dm_succ, h.2]; omega
    · obtain ⟨-, hi1, hj1, -, -, heq, hlt⟩ := h
      obtain ⟨t1, t2, -⟩ := IH (i - 1) (j - 1) (by omega)
      rw [Dm_succ, heq]; omega
  have P3 : Dm ch1 ch2 (I + 1) J ≤ Dm ch1 ch2 I J + 1 := by
    rcases J with _ | j
    · rw [Dm_col0, Dm_col0]
    have h6 : Dm ch1 ch2 I j ≤ Dm ch1 ch2 I (j + 1) + 1 :=
      (IH I j (by omega)).2.2.2.2.2.1
    rw [Dm_succ]
    rcases dmStep_main (ch1 I) (ch2 j) (ch1 (I - 1)) (ch2 (j - 1)) I j
      (Dm ch1 ch2 I j) (Dm ch1 ch2 I (j + 1)) (Dm ch1 ch2 (I + 1) j)
      (Dm ch1 ch2 (I - 1) (j - 1)) with h | h | h
    · rw [h.2]; omega
    · rw [h.2]; omega
    · obtain ⟨-, -, -, -, -, heq, hlt⟩ := h
      rw [heq]; omega
  have P4 : Dm ch1 ch2 I (J + 1) ≤ Dm ch1 ch2 I J + 1 := by
    rcases I with _ | i
    · rw [Dm_row0, Dm_row0]
    have h5 : Dm ch1 ch2 i J ≤ Dm ch1 ch2 (i + 1) J + 1 :=
      (IH i J (by omega)).2.2.2.2.1
    rw [Dm_succ]
    rcases dmStep_main (ch1 i) (ch2 J) (ch1 (i - 1)) (ch2 (J - 1)) i J
      (Dm ch1 ch2 i J) (Dm ch1 ch2 i (J + 1)) (Dm ch1 ch2 (i + 1) J)
      (Dm ch1 ch2 (i - 1) (J - 1)) with h | h | h
    · rw [h.2]; omega
    · rw [h.2]; omega
    · obtain ⟨-, -, -, -, -, heq, hlt⟩ := h
      rw [heq]; omega
  have P5 : Dm ch1 ch2 I J ≤ Dm ch1 ch2 (I + 1) J + 1 := by
    rcases J with _ | j
    · rw [Dm_col0, Dm_col0]; omega
    have h4 : Dm ch1 ch2 I (j + 1) ≤ Dm ch1 ch2 I j + 1 :=
      (IH I j (by omega)).2.2.2.1
    have h5 : Dm ch1 ch2 I j ≤ Dm ch1 ch2 (I + 1) j + 1 :=
      (IH I j (by omega)).2.2.2.2.1
    rcases dmStep_main (ch1 I) (ch2 j) (ch1 (I - 1)) (ch2 (j - 1)) I j
      (Dm ch1 ch2 I j) (Dm ch1 ch2 I (j + 1)) (Dm ch1 ch2 (I + 1) j)
      (Dm ch1 ch2 (I - 1) (j - 1)) with h | h | h
    · rw [Dm_succ, h.2]; omega
    · rw [Dm_succ, h.2]; omega
    · obtain ⟨-, hi1, hj1, -, -, heq, hlt⟩ := h
      rcases I with _ | i2
      · omega
      have h8 : Dm ch1 ch2 (i2 + 1) (j - 1 + 1) ≤ Dm ch1 ch2 i2 (j - 1) + 1 :=
        P8 i2 (j - 1)
      have hj2 : j - 1 + 1 = j := by omega
      rw [hj2] at h8
      have he2 : (i2 + 1 - 1 : Nat) = i2 := by omega
      rw [Dm_succ ch1 ch2 (i2 + 1) j, heq, he2]
      omega
  have P6 : Dm ch1 ch2 I J ≤ Dm ch1 ch2 I (J + 1) + 1 := by
    rcases I with _ | i
    · rw [Dm_row0, Dm_row0]; omega
    have h3 : Dm ch1 ch2 (i + 1) J ≤ Dm ch1 ch2 i J + 1 :=
      (IH i J (by omega)).2.2.1
    have h6 : Dm ch1 ch2 i J ≤ Dm ch1 ch2 i (J + 1) + 1 :=
      (IH i J (by omega)).2.2.2.2.2.1
    rcases dmStep_main (ch1 i) (ch2 J) (ch1 (i - 1)) (ch2 (J - 1)) i J
      (Dm ch1 ch2 i J) (Dm ch1 ch2 i (J + 1)) (Dm ch1 ch2 (i + 1) J)
      (Dm ch1 ch2 (i - 1) (J - 1)) with h | h | h
    · rw [Dm_succ, h.2]; omega
    · rw [Dm_succ, h.2]; omega
    · obtain ⟨-, hi1, hj1, -, -, heq, hlt⟩ := h
      rcases J with _ | j2
      · omega
      have h8 : Dm ch1 ch2 (i - 1 + 1) (j2 + 1) ≤ Dm ch1 ch2 (i - 1) j2 + 1 :=
        P8 (i - 1) j2
      have hi2 : i - 1 + 1 = i := by omega
      rw [hi2] at h8
      have he2 : (j2 + 1 - 1 : Nat) = j2 := by omega
      rw [Dm_succ ch1 ch2 i (j2 + 1), heq, he2]
      omega
  have P7 : Dm ch1 ch2 I J ≤ Dm ch1 ch2 (I + 1) (J + 1) := by
    rcases dmStep_main (ch1 I) (ch2 J) (ch1 (I - 1)) (ch2 (J - 1)) I J
      (Dm ch1 ch2 I J) (Dm ch1 ch2 I (J + 1)) (Dm ch1 ch2 (I + 1) J)
      (Dm ch1 ch2 (I - 1) (J - 1)) with h | h | h
    · rw [Dm_succ, h.2]
    · rw [Dm_succ, h.2]; omega
    · obtain ⟨-, hi1, hj1, -, -, heq, hlt⟩ := h
      rcases I with _ | i
      · omega
      rcases J with _ | j
      · omega
      have h8 : Dm ch1 ch2 (i + 1) (j + 1) ≤ Dm ch1 ch2 i j + 1 := P8 i j
      have he1 : (i + 1 - 1 : Nat) = i := by omega
      have he2 : (j + 1 - 1 : Nat) = j := by omega
      rw [Dm_succ ch1 ch2 (i + 1) (j + 1), heq, he1, he2]
      omega
  exact ⟨P12.1, P12.2, P3, P4, P5, P6, P7, P8 I J⟩

theorem dmStep_eq (c1 c2 pc1 pc2 : G) (i j d u l t : Nat) (h : c1 = c2) :
    dmStep c1 c2 pc1 pc2 i j d u l t = d := by
  unfold dmStep
  rw [if_pos h]

theorem dmStep_le_base (c1 c2 pc1 pc2 : G) (i j d u l t : Nat) (h : c1 ≠ c2) :
    dmStep c1 c2 pc1 pc2 i j d u l t ≤ min (min d u) l + 1 := by
  unfold dmStep
  rw [if_neg h]
  simp only []
  split_ifs with hg
  · omega
  · exact le_refl _

theorem Dm_lb1 (ch1 ch2 : Nat → G) (I J : Nat) : J - I ≤ Dm ch1 ch2 I J :=
  (Dm_props ch1 ch2 (I + J) I J (le_refl _)).1

theorem Dm_lb2 (ch1 ch2 : Nat → G) (I J : Nat) : I - J ≤ Dm ch1 ch2 I J :=
  (Dm_props ch1 ch2 (I + J) I J (le_refl _)).2.1

theorem Dm_lipB (ch1 ch2 : Nat → G) (I J : Nat) :
    Dm ch1 ch2 I (J + 1) ≤ Dm ch1 ch2 I J + 1 :=
  (Dm_props ch1 ch2 (I + J) I J (le_refl _)).2.2.2.1

theorem Dm_lipC (ch1 ch2 : Nat → G) (I J : Nat) :
    Dm ch1 ch2 I J ≤ Dm ch1 ch2 (I + 1) J + 1 :=
  (Dm_props ch1 ch2 (I + J) I J (le_refl _)).2.2.2.2.1

theorem Dm_lipD (ch1 ch2 : Nat → G) (I J : Nat) :
    Dm ch1 ch2 I J ≤ Dm ch1 ch2 I (J + 1) + 1 :=
  (Dm_props ch1 ch2 (I + J) I J (le_refl _)).2.2.2.2.2.1

theorem Dm_mono (ch1 ch2 : Nat → G) (I J : Nat) :
    Dm ch1 ch2 I J ≤ Dm ch1 ch2 (I + 1) (J + 1) :=
  (Dm_props ch1 ch2 (I + J) I J (le_refl _)).2.2.2.2.2.2.1

theorem Dm_dlip (ch1 ch2 : Nat → G) (I J : Nat) :
    Dm ch1 ch2 (I + 1) (J + 1) ≤ Dm ch1 ch2 I J + 1 :=
  (Dm_props ch1 ch2 (I + J) I J (le_refl _)).2.2.2.2.2.2.2

theorem Dm_diag_chain (ch1 ch2 : Nat → G) (I J : Nat) :
    ∀ k, Dm ch1 ch2 I J ≤ Dm ch1 ch2 (I + k) (J + k) := by
  intro k
  induction k with
  | zero => exact le_refl _
  | succ q ihq => exact le_trans ihq (Dm_mono ch1 ch2 (I + q) (J + q))

theorem Dm_le_max (ch1 ch2 : Nat → G) : ∀ n I J, I + J ≤ n →
    Dm ch1 ch2 I J ≤ max I J := by
  intro n
  induction n using Nat.strong_induction_on with
  | _ n ih =>
  intro I J hIJ
  rcases I with _ | i
  · rw [Dm_row0]; omega
  rcases J with _ | j
  · rw [Dm_col0]; omega
  have hq : Dm ch1 ch2 i j ≤ max i j := ih (i + j) (by omega) i j (le_refl _)
  rw [Dm_succ]
  rcases dmStep_main (ch1 i) (ch2 j) (ch1 (i - 1)) (ch2 (j - 1)) i j
    (Dm ch1 ch2 i j) (Dm ch1 ch2 i (j + 1)) (Dm ch1 ch2 (i + 1) j)
    (Dm ch1 ch2 (i - 1) (j - 1)) with h | h | h
  · rw [h.2]; omega
  · rw [h.2]; omega
  · obtain ⟨-, -, -, -, -, heq, hlt⟩ := h
    rw [heq]; omega

theorem Dm_zero (ch1 ch2 : Nat → G) (h0 : ch1 0 ≠ ch2 0) : ∀ n I J, I + J ≤ n →
    Dm ch1 ch2 I J = 0 → I = 0 ∧ J = 0 := by
  intro n
  induction n using Nat.strong_induction_on with
  | _ n ih =>
  intro I J hIJ hz
  rcases I with _ | i
  · rw [Dm_row0] at hz; omega
  rcases J with _ | j
  · rw [Dm_col0] at hz; omega
  exfalso
  rw [Dm_succ] at hz
  rcases dmStep_main (ch1 i) (ch2 j) (ch1 (i - 1)) (ch2 (j - 1)) i j
    (Dm ch1 ch2 i j) (Dm ch1 ch2 i (j + 1)) (Dm ch1 ch2 (i + 1) j)
    (Dm ch1 ch2 (i - 1) (j - 1)) with h | h | h
  · rw [h.2] at hz
    obtain ⟨hi0, hj0⟩ := ih (i + j) (by omega) i j (le_refl _) hz
    subst hi0; subst hj0
    exact h0 h.1
  · rw [h.2] at hz; omega
  · obtain ⟨-, -, -, -, -, heq, hlt⟩ := h
    rw [heq] at hz; omega

theorem CC_row0 (ch1 ch2 : Nat → G) (maxd len2 joff j : Nat) :
    CC ch1 ch2 maxd len2 joff 0 j = if j ≤ maxd then j else maxd + 1 := by
  rw [CC]

theorem CC_col0 (ch1 ch2 : Nat → G) (maxd len2 joff I : Nat) :
    CC ch1 ch2 maxd len2 joff I 0 = I := by
  cases I with
  | zero => rw [CC]; simp
  | succ i => rw [CC]

theorem CC_in (ch1 ch2 : Nat → G) (maxd len2 joff i j : Nat)
    (h : wjs joff i ≤ j ∧ j < wje maxd len2 i) :
    CC ch1 ch2 maxd len2 joff (i + 1) (j + 1)
    = dmStep (ch1 i) (ch2 j) (ch1 (i - 1))
        (if j = wjs joff i then spaceG else ch2 (j - 1)) i j
        (if j = wjs joff i then i else CC ch1 ch2 maxd len2 joff i j)
        (CC ch1 ch2 maxd len2 joff i (j + 1))
        (if j = wjs joff i then i else CC ch1 ch2 maxd len2 joff (i + 1) j)
        (if j = wjs joff i then 0
         else if j - 1 = wjs joff (i - 1) ∧ 1 ≤ i then i - 1
         else CC ch1 ch2 maxd len2 joff (i - 1) (j - 1)) := by
  rw [CC, if_pos h]

theorem CC_out (ch1 ch2 : Nat → G) (maxd len2 joff i j : Nat)
    (h : ¬(wjs joff i ≤ j ∧ j < wje maxd len2 i)) :
    CC ch1 ch2 maxd len2 joff (i + 1) (j + 1) = CC ch1 ch2 maxd len2 joff i (j + 1) := by
  rw [CC, if_neg h]

/-- Columns at or beyond the window end carry the capped initial value. -/
theorem CC_frontier (ch1 ch2 : Nat → G) (maxd len2 joff : Nat) :
    ∀ i j, maxd + i ≤ j → j < len2 →
    CC ch1 ch2 maxd len2 joff i (j + 1) = maxd + 1 := by
  intro i
  induction i with
  | zero =>
    intro j h1 h2
    rw [CC_row0, if_neg (by omega)]
  | succ i2 ihi =>
    intro j h1 h2
    rw [CC_out ch1 ch2 maxd len2 joff i2 j (by unfold wjs wje; omega)]
    exact ihi j (by omega) h2

/-- On the initial row the banded values never exceed the true ones. -/
theorem CC_row0_le (ch1 ch2 : Nat → G) (maxd len2 joff J : Nat) :
    CC ch1 ch2 maxd len2 joff 0 J ≤ Dm ch1 ch2 0 J := by
  rw [CC_row0, Dm_row0]
  split_ifs with h <;> omega

theorem Dm_lipA (ch1 ch2 : Nat → G) (I J : Nat) :
    Dm ch1 ch2 (I + 1) J ≤ Dm ch1 ch2 I J + 1 :=
  (Dm_props ch1 ch2 (I + J) I J (le_refl _)).2.2.1

theorem penN_diag (ld A B : Nat) : penN ld (A + 1) (B + 1) = penN ld A B := by
  unfold penN
  split_ifs <;> omega

theorem penN_right (ld A B : Nat) :
    penN ld A (B + 1) ≤ penN ld A B + 1 ∧ penN ld A B ≤ penN ld A (B + 1) + 1 := by
  unfold penN
  split_ifs <;> omega

theorem penN_down (ld A B : Nat) :
    penN ld (A + 1) B ≤ penN ld A B + 1 ∧ penN ld A B ≤ penN ld (A + 1) B + 1 := by
  unfold penN
  split_ifs <;> omega

theorem penN_row0 (ld B : Nat) : penN ld 0 B = if ld ≤ B then B - ld else ld - B := by
  unfold penN
  simp

theorem penN_edge (ld joff maxd A : Nat) (h : joff < A) (hjoff : joff + ld = maxd) :
    penN ld (A + 1) (A - joff + 1) = maxd := by
  unfold penN
  split_ifs <;> omega

theorem penN_col1 (ld A : Nat) : penN ld (A + 1) 1 = A + ld := by
  unfold penN
  split_ifs <;> omega



set_option maxHeartbeats 1600000 in
/-- Lower band invariant: a banded cell is at least the true cost, unless
it sits within `penN` of the budget cap. -/
theorem CC_L (ch1 ch2 : Nat → G) (len1 len2 maxd ld joff : Nat)
    (hld : len2 = len1 + ld) (hldm : ld ≤ maxd) (hjoff : joff + ld = maxd)
    (hmd : 1 ≤ maxd) :
    ∀ n I J, I + J ≤ n → InBand len1 len2 maxd joff I J →
      min (Dm ch1 ch2 I J) (maxd + 1 - penN ld I J) ≤ CC ch1 ch2 maxd len2 joff I J := by
  intro n
  induction n using Nat.strong_induction_on with
  | _ n ih =>
  intro I J hIJ hband
  have IH : ∀ I2 J2, I2 + J2 < I + J → InBand len1 len2 maxd joff I2 J2 →
      min (Dm ch1 ch2 I2 J2) (maxd + 1 - penN ld I2 J2) ≤ CC ch1 ch2 maxd len2 joff I2 J2 :=
    fun I2 J2 h hb => ih (I2 + J2) (by omega) I2 J2 (le_refl _) hb
  rcases I with _ | i
  · rw [CC_row0, Dm_row0, penN_row0]
    split_ifs <;> omega
  rcases J with _ | j
  · rw [CC_col0, Dm_col0]
    exact min_le_left _ _
  have hwin : wjs joff i ≤ j ∧ j < wje maxd len2 i ∧ i + 1 ≤ len1 := by
    unfold InBand at hband
    simp only [Nat.add_sub_cancel] at hband
    rcases hband with ⟨h0, -⟩ | ⟨h0, -⟩ | ⟨-, hIle, -, hb1, hb2⟩
    · omega
    · omega
    · exact ⟨hb1, hb2, hIle⟩
  obtain ⟨hw1, hw2, hIlen⟩ := hwin
  have hw1u : i - joff ≤ j := hw1
  have hw2u : j < min (maxd + 1 + i) len2 := hw2
  rw [CC_in ch1 ch2 maxd len2 joff i j ⟨hw1, hw2⟩]
  have hdlip := Dm_dlip ch1 ch2 i j
  have hlipA := Dm_lipA ch1 ch2 i (j + 1)
  have hlipB := Dm_lipB ch1 ch2 (i + 1) j
  have hpd := penN_diag ld i j
  have hpu := penN_down ld i (j + 1)
  have hpl := penN_right ld (i + 1) j
  by_cases hedge : j = wjs joff i
  · simp only [if_pos hedge]
    by_cases hjs0 : wjs joff i = 0
    · have hj0 : j = 0 := by
        have : wjs joff i = i - joff := rfl
        omega
      subst hj0
      simp only [Nat.zero_add] at hdlip hlipA hpu ⊢
      rcases dmStep_main (ch1 i) (ch2 0) (ch1 (i - 1)) spaceG i 0 i
        (CC ch1 ch2 maxd len2 joff i 1) i 0 with hM | hM | hM
      · obtain ⟨hMc, hMe⟩ := hM
        rw [hMe]
        clear hMe
        have hDt : Dm ch1 ch2 (i + 1) 1 = Dm ch1 ch2 i 0 := by
          rw [Dm_succ, dmStep_eq _ _ _ _ _ _ _ _ _ _ hMc]
        rw [hDt, Dm_col0]
        omega
      · obtain ⟨-, hMe⟩ := hM
        rw [hMe]
        clear hMe
        have hcol0 : Dm ch1 ch2 i 0 = i := Dm_col0 ch1 ch2 i
        rcases Nat.eq_zero_or_pos i with hi0 | hi1
        · subst hi0
          have h01 : CC ch1 ch2 maxd len2 joff 0 1 = 1 := by
            rw [CC_row0, if_pos (by omega)]
          have hD01 : Dm ch1 ch2 0 1 = 1 := Dm_row0 ch1 ch2 1
          rw [h01]
          omega
        · have hLi1 := IH i 1 (by omega) (by unfold InBand wjs wje; omega)
          have hp1 : penN ld i 1 + 1 = i + ld := by
            unfold penN
            split_ifs <;> omega
          rw [penN_col1]
          omega
      · omega
    · have hij : joff < i := by
        have : wjs joff i = i - joff := rfl
        omega
      have hpe : penN ld (i + 1) (j + 1) = maxd := by
        have hjv : j = i - joff := hedge
        rw [hjv]
        exact penN_edge ld joff maxd i hij hjoff
      rw [hpe]
      have h1v : 1 ≤ dmStep (ch1 i) (ch2 j) (ch1 (i - 1)) spaceG i j i
          (CC ch1 ch2 maxd len2 joff i (j + 1)) i 0 := by
        rcases dmStep_main (ch1 i) (ch2 j) (ch1 (i - 1)) spaceG i j i
          (CC ch1 ch2 maxd len2 joff i (j + 1)) i 0 with hM | hM | hM
        · rw [hM.2]; omega
        · rw [hM.2]; omega
        · have := hM.2.2.2.2.2.1
          omega
      omega
  · simp only [if_neg hedge]
    have hedgeu : ¬ j = i - joff := hedge
    have hj1 : 1 ≤ j := by omega
    have hLd := IH i j (by omega) (by unfold InBand wjs wje; omega)
    have hLl := IH (i + 1) j (by omega) (by unfold InBand wjs wje; omega)
    set Cd := CC ch1 ch2 maxd len2 joff i j with hCd
    set Cu := CC ch1 ch2 maxd len2 joff i (j + 1) with hCu
    set Cl := CC ch1 ch2 maxd len2 joff (i + 1) j with hCl
    set Ct := CC ch1 ch2 maxd len2 joff (i - 1) (j - 1) with hCt
    rcases dmStep_main (ch1 i) (ch2 j) (ch1 (i - 1)) (ch2 (j - 1)) i j
      Cd Cu Cl
      (if j - 1 = wjs joff (i - 1) ∧ 1 ≤ i then i - 1 else Ct) with hM | hM | hM
    · obtain ⟨hMc, hMe⟩ := hM
      rw [hMe]
      clear hMe
      have hDt : Dm ch1 ch2 (i + 1) (j + 1) = Dm ch1 ch2 i j := by
        rw [Dm_succ, dmStep_eq _ _ _ _ _ _ _ _ _ _ hMc]
      rw [hDt, hpd]
      exact hLd
    · obtain ⟨-, hMe⟩ := hM
      rw [hMe]
      clear hMe
      by_cases hfr : wje maxd len2 (i - 1) ≤ j ∧ 1 ≤ i
      · have hfru : min (maxd + 1 + (i - 1)) len2 ≤ j := hfr.1
        have hupfr : Cu = maxd + 1 := by
          rw [hCu]
          apply CC_frontier
          · omega
          · omega
        rw [hupfr]
        clear hCd hCu hCl hCt
        omega
      · have hfru : ¬ (min (maxd + 1 + (i - 1)) len2 ≤ j ∧ 1 ≤ i) := hfr
        have hLu := IH i (j + 1) (by clear hCd hCu hCl hCt hLd hLl; omega)
          (by clear hCd hCu hCl hCt hLd hLl; unfold InBand wjs wje; omega)
        rw [← hCu] at hLu
        clear hCd hCu hCl hCt
        omega
    · obtain ⟨hcne, hi1, hj1b, hcp2, hcp1, hMe, hlt⟩ := hM
      rw [hMe]
      clear hMe hlt
      have hDtr : Dm ch1 ch2 (i + 1) (j + 1) ≤ Dm ch1 ch2 (i - 1) (j - 1) + 1 := by
        rw [Dm_succ]
        exact dmStep_le_tt _ _ _ _ _ _ _ _ _ _ hcne (by omega) (by omega) hcp2 hcp1
      clear hcne hcp1 hcp2
      by_cases hseed : j - 1 = wjs joff (i - 1) ∧ 1 ≤ i
      · rw [if_pos hseed]
        have hs : j - 1 = i - 1 - joff := hseed.1
        have hj1e : j = 1 := by omega
        have hcol : Dm ch1 ch2 (i - 1) (j - 1) = i - 1 := by
          rw [show j - 1 = 0 from by omega, Dm_col0]
        clear hCd hCu hCl hCt
        omega
      · rw [if_neg hseed]
        have hseedu : ¬ (j - 1 = i - 1 - joff ∧ 1 ≤ i) := hseed
        have hmem : InBand len1 len2 maxd joff (i - 1) (j - 1) := by
          clear hCd hCu hCl hCt hLd hLl hDtr
          unfold InBand wjs wje
          omega
        have hLt := IH (i - 1) (j - 1) (by omega) hmem
        rw [← hCt] at hLt
        have hpdd : penN ld (i + 1) (j + 1) = penN ld (i - 1) (j - 1) := by
          rcases i with _ | i2
          · omega
          rcases j with _ | j2
          · omega
          simp only [Nat.add_sub_cancel]
          rw [penN_diag, penN_diag]
        clear hCd hCu hCl hCt
        omega

set_option maxHeartbeats 1600000 in
/-- Upper band invariant: within `penN` of the budget, banded cells never
exceed the true costs. -/
theorem CC_U (ch1 ch2 : Nat → G) (len1 len2 maxd ld joff : Nat)
    (hld : len2 = len1 + ld) (hldm : ld ≤ maxd) (hjoff : joff + ld = maxd)
    (hmd : 1 ≤ maxd) (hml : maxd < len2) (hfirst : ch1 0 ≠ ch2 0) :
    ∀ n I J, I + J ≤ n → InBand len1 len2 maxd joff I J →
      Dm ch1 ch2 I J + penN ld I J ≤ maxd →
      CC ch1 ch2 maxd len2 joff I J ≤ Dm ch1 ch2 I J := by
  intro n
  induction n using Nat.strong_induction_on with
  | _ n ih =>
  intro I J hIJ hband hU
  have IH : ∀ I2 J2, I2 + J2 < I + J → InBand len1 len2 maxd joff I2 J2 →
      Dm ch1 ch2 I2 J2 + penN ld I2 J2 ≤ maxd →
      CC ch1 ch2 maxd len2 joff I2 J2 ≤ Dm ch1 ch2 I2 J2 :=
    fun I2 J2 h hb hu => ih (I2 + J2) (by omega) I2 J2 (le_refl _) hb hu
  rcases I with _ | i
  · exact CC_row0_le ch1 ch2 maxd len2 joff J
  rcases J with _ | j
  · rw [CC_col0, Dm_col0]
  have hwin : wjs joff i ≤ j ∧ j < wje maxd len2 i ∧ i + 1 ≤ len1 := by
    unfold InBand at hband
    simp only [Nat.add_sub_cancel] at hband
    rcases hband with ⟨h0, -⟩ | ⟨h0, -⟩ | ⟨-, hIle, -, hb1, hb2⟩
    · omega
    · omega
    · exact ⟨hb1, hb2, hIle⟩
  obtain ⟨hw1, hw2, hIlen⟩ := hwin
  have hw1u : i - joff ≤ j := hw1
  have hw2u : j < min (maxd + 1 + i) len2 := hw2
  have hDpos : 1 ≤ Dm ch1 ch2 (i + 1) (j + 1) := by
    have hz := Dm_zero ch1 ch2 hfirst ((i + 1) + (j + 1)) (i + 1) (j + 1) (le_refl _)
    omega
  by_cases hcor : j = wjs joff i ∧ 1 ≤ wjs joff i
  · exfalso
    have hju : j = i - joff := hcor.1
    have hjsu : wjs joff i = i - joff := rfl
    have hpe : penN ld (i + 1) (j + 1) = maxd := by
      rw [hju]
      exact penN_edge ld joff maxd i (by omega) hjoff
    omega
  rw [CC_in ch1 ch2 maxd len2 joff i j ⟨hw1, hw2⟩]
  have hpd := penN_diag ld i j
  by_cases hedge : j = wjs joff i
  · simp only [if_pos hedge]
    have hjsu : wjs joff i = i - joff := rfl
    have hj0 : j = 0 := by omega
    subst hj0
    have hDm00 : Dm ch1 ch2 i 0 = i := Dm_col0 ch1 ch2 i
    have hDmI0 : Dm ch1 ch2 (i + 1) 0 = i + 1 := Dm_col0 ch1 ch2 (i + 1)
    by_cases hc : ch1 i = ch2 0
    · rw [dmStep_eq _ _ _ _ _ _ _ _ _ _ hc]
      have hDt : Dm ch1 ch2 (i + 1) (0 + 1) = Dm ch1 ch2 i 0 := by
        rw [Dm_succ, dmStep_eq _ _ _ _ _ _ _ _ _ _ hc]
      omega
    · have hvb := dmStep_le_base (ch1 i) (ch2 0) (ch1 (i - 1)) spaceG i 0 i
        (CC ch1 ch2 maxd len2 joff i (0 + 1)) i 0 hc
      have hDmt : Dm ch1 ch2 (i + 1) (0 + 1)
          = dmStep (ch1 i) (ch2 0) (ch1 (i - 1)) (ch2 (0 - 1)) i 0
            (Dm ch1 ch2 i 0) (Dm ch1 ch2 i (0 + 1)) (Dm ch1 ch2 (i + 1) 0)
            (Dm ch1 ch2 (i - 1) (0 - 1)) := Dm_succ ch1 ch2 i 0
      rcases dmStep_main (ch1 i) (ch2 0) (ch1 (i - 1)) (ch2 (0 - 1)) i 0
        (Dm ch1 ch2 i 0) (Dm ch1 ch2 i (0 + 1)) (Dm ch1 ch2 (i + 1) 0)
        (Dm ch1 ch2 (i - 1) (0 - 1)) with hD | hD | hD
      · exact absurd hD.1 hc
      · obtain ⟨-, hDe2⟩ := hD
        rw [hDe2] at hDmt
        have hach : Dm ch1 ch2 (i + 1) (0 + 1) = Dm ch1 ch2 i 0 + 1 ∨
            Dm ch1 ch2 (i + 1) (0 + 1) = Dm ch1 ch2 i (0 + 1) + 1 ∨
            Dm ch1 ch2 (i + 1) (0 + 1) = Dm ch1 ch2 (i + 1) 0 + 1 := by omega
        rcases hach with hA | hA | hA
        · omega
        · have hpu2 := penN_down ld i (0 + 1)
          have hUu := IH i (0 + 1) (by omega) (by unfold InBand wjs wje; omega)
            (by omega)
          omega
        · omega
      · obtain ⟨-, -, hDj, -⟩ := hD
        omega
  · simp only [if_neg hedge]
    have hedgeu : ¬ j = i - joff := hedge
    have hj1 : 1 ≤ j := by omega
    set Cd := CC ch1 ch2 maxd len2 joff i j with hCd
    set Cu := CC ch1 ch2 maxd len2 joff i (j + 1) with hCu
    set Cl := CC ch1 ch2 maxd len2 joff (i + 1) j with hCl
    set Ct := CC ch1 ch2 maxd len2 joff (i - 1) (j - 1) with hCt
    by_cases hc : ch1 i = ch2 j
    · rw [dmStep_eq _ _ _ _ _ _ _ _ _ _ hc]
      have hDt : Dm ch1 ch2 (i + 1) (j + 1) = Dm ch1 ch2 i j := by
        rw [Dm_succ, dmStep_eq _ _ _ _ _ _ _ _ _ _ hc]
      have hUd := IH i j (by omega) (by clear hCd hCu hCl hCt; unfold InBand wjs wje; omega)
        (by omega)
      rw [← hCd] at hUd
      omega
    · have hvb := dmStep_le_base (ch1 i) (ch2 j) (ch1 (i - 1)) (ch2 (j - 1)) i j
        Cd Cu Cl (if j - 1 = wjs joff (i - 1) ∧ 1 ≤ i then i - 1 else Ct) hc
      rcases dmStep_main (ch1 i) (ch2 j) (ch1 (i - 1)) (ch2 (j - 1)) i j
        (Dm ch1 ch2 i j) (Dm ch1 ch2 i (j + 1)) (Dm ch1 ch2 (i + 1) j)
        (Dm ch1 ch2 (i - 1) (j - 1)) with hD | hD | hD
      · exact absurd hD.1 hc
      · obtain ⟨-, hDe2⟩ := hD
        have hDmt : Dm ch1 ch2 (i + 1) (j + 1)
            = min (min (Dm ch1 ch2 i j) (Dm ch1 ch2 i (j + 1))) (Dm ch1 ch2 (i + 1) j) + 1 := by
          rw [Dm_succ]
          exact hDe2
        have hach : Dm ch1 ch2 (i + 1) (j + 1) = Dm ch1 ch2 i j + 1 ∨
            Dm ch1 ch2 (i + 1) (j + 1) = Dm ch1 ch2 i (j + 1) + 1 ∨
            Dm ch1 ch2 (i + 1) (j + 1) = Dm ch1 ch2 (i + 1) j + 1 := by omega
        rcases hach with hA | hA | hA
        · have hUd := IH i j (by omega)
            (by clear hCd hCu hCl hCt hvb; unfold InBand wjs wje; omega) (by omega)
          rw [← hCd] at hUd
          omega
        · by_cases hfr : wje maxd len2 (i - 1) ≤ j ∧ 1 ≤ i
          · exfalso
            have hfru : min (maxd + 1 + (i - 1)) len2 ≤ j := hfr.1
            have hlb := Dm_lb1 ch1 ch2 i (j + 1)
            omega
          · have hfru : ¬ (min (maxd + 1 + (i - 1)) len2 ≤ j ∧ 1 ≤ i) := hfr
            have hpu2 := penN_down ld i (j + 1)
            have hUu := IH i (j + 1) (by omega)
              (by clear hCd hCu hCl hCt hvb; unfold InBand wjs wje; omega) (by omega)
            rw [← hCu] at hUu
            omega
        · have hpl2 := penN_right ld (i + 1) j
          have hUl := IH (i + 1) j (by omega)
            (by clear hCd hCu hCl hCt hvb; unfold InBand wjs wje; omega) (by omega)
          rw [← hCl] at hUl
          omega
      · obtain ⟨-, hDi, hDj, hDp2, hDp1, hDeq, hDlt⟩ := hD
        have hDmt : Dm ch1 ch2 (i + 1) (j + 1) = Dm ch1 ch2 (i - 1) (j - 1) + 1 := by
          rw [Dm_succ]
          exact hDeq
        have hvt : dmStep (ch1 i) (ch2 j) (ch1 (i - 1)) (ch2 (j - 1)) i j
            Cd Cu Cl (if j - 1 = wjs joff (i - 1) ∧ 1 ≤ i then i - 1 else Ct)
            ≤ (if j - 1 = wjs joff (i - 1) ∧ 1 ≤ i then i - 1 else Ct) + 1 :=
          dmStep_le_tt _ _ _ _ _ _ _ _ _ _ hc (by omega) (by omega) hDp2 hDp1
        by_cases hseed : j - 1 = wjs joff (i - 1) ∧ 1 ≤ i
        · rw [if_pos hseed] at hvt ⊢
          have hs : j - 1 = i - 1 - joff := hseed.1
          have hj1e : j = 1 := by omega
          have hcol : Dm ch1 ch2 (i - 1) (j - 1) = i - 1 := by
            rw [show j - 1 = 0 from by omega, Dm_col0]
          omega
        · rw [if_neg hseed] at hvt ⊢
          have hseedu : ¬ (j - 1 = i - 1 - joff ∧ 1 ≤ i) := hseed
          have hpdd : penN ld (i + 1) (j + 1) = penN ld (i - 1) (j - 1) := by
            rcases i with _ | i2
            · omega
            rcases j with _ | j2
            · omega
            simp only [Nat.add_sub_cancel]
            rw [penN_diag, penN_diag]
          have hmem : InBand len1 len2 maxd joff (i - 1) (j - 1) := by
            clear hCd hCu hCl hCt hvb hvt hDmt
            unfold InBand wjs wje
            omega
          have hUt := IH (i - 1) (j - 1) (by omega) hmem (by omega)
          rw [← hCt] at hUt
          omega

theorem aget_aupd_ne {α : Type} [DecidableEq α] (m : List (α × Nat)) (k k2 : α) (v d : Nat)
    (h : k ≠ k2) : aget (aupd m k v) k2 d = aget m k2 d := by
  induction m with
  | nil => simp [aupd, aget, h]
  | cons p rest ih =>
    obtain ⟨k3, v3⟩ := p
    unfold aupd
    by_cases h3 : k3 = k
    · rw [if_pos h3]
      unfold aget
      rw [if_neg h, if_neg (h3 ▸ h)]
    · rw [if_neg h3]
      unfold aget
      by_cases h4 : k3 = k2
      · rw [if_pos h4, if_pos h4]
      · rw [if_neg h4, if_neg h4]
        exact ih

theorem aget_aupd_self2 {α : Type} [DecidableEq α] (m : List (α × Nat)) (k : α) (v d : Nat) :
    aget (aupd m k v) k d = v := by
  induction m with
  | nil => simp [aupd, aget]
  | cons p rest ih =>
    obtain ⟨k3, v3⟩ := p
    unfold aupd
    by_cases h3 : k3 = k
    · rw [if_pos h3]
      unfold aget
      rw [if_pos rfl]
    · rw [if_neg h3]
      unfold aget
      rw [if_neg h3]
      exact ih

theorem dl_step_fields (gy : List G) (start i : Nat) (c1 p1 : G) (j : Nat) (st : RowSt) :
    dl_inner_step gy start i c1 p1 j st
    = { c1c := aupd st.c1c j (dl_cur gy start i c1 p1 j st),
        pc1c := aupd st.pc1c j st.left,
        left := aget st.c1c j 0,
        above := dl_cur gy start i c1 p1 j st,
        nextT := aget st.pc1c j 0,
        char2 := gy.getD (start + j) [],
        current := dl_cur gy start i c1 p1 j st } := rfl

theorem dl_cur_eq (gy : List G) (start i : Nat) (c1 p1 : G) (j : Nat) (st : RowSt) :
    dl_cur gy start i c1 p1 j st
    = dmStep c1 (gy.getD (start + j) []) p1 st.char2 i j
        st.left (aget st.c1c j 0) st.above st.nextT := by
  unfold dl_cur dl_inner_step dmStep
  dsimp only
  by_cases hc : c1 = gy.getD (start + j) []
  · rw [if_neg (not_not_intro hc), if_pos hc]
  · rw [if_pos hc, if_neg hc]
    set q1 := if st.above < st.left then st.above else st.left with hq1
    set q2 := if aget st.c1c j 0 < q1 then aget st.c1c j 0 else q1 with hq2
    have hq : q2 + 1 = min (min st.left (aget st.c1c j 0)) st.above + 1 := by
      rw [hq2, hq1]
      split_ifs <;> omega
    simp only [hq]

theorem dmStep_guard_false (c1 c2 pc1 pc2 : G) (i j d u l t : Nat) (h : i = 0 ∨ j = 0) :
    dmStep c1 c2 pc1 pc2 i j d u l t = if c1 = c2 then d else min (min d u) l + 1 := by
  unfold dmStep
  by_cases hc : c1 = c2
  · rw [if_pos hc, if_pos hc]
  · rw [if_neg hc, if_neg hc]
    dsimp only
    rw [if_neg]
    intro hg
    rcases h with h | h
    · exact hg.1 h
    · exact hg.2.1 h

theorem dmStep_to_Dm (ch1 ch2 : Nat → G) (i j : Nat) (p1 pc2v : G) (A T : Nat)
    (hp1 : 1 ≤ i → p1 = ch1 (i - 1))
    (hP2 : 1 ≤ j → pc2v = ch2 (j - 1))
    (hA : A = if j = 0 then i else Dm ch1 ch2 (i + 1) j)
    (hT : 1 ≤ i → 1 ≤ j → T = Dm ch1 ch2 (i - 1) (j - 1)) :
    dmStep (ch1 i) (ch2 j) p1 pc2v i j (Dm ch1 ch2 i j) (Dm ch1 ch2 i (j + 1)) A T
    = Dm ch1 ch2 (i + 1) (j + 1) := by
  rw [Dm_succ]
  rcases Nat.eq_zero_or_pos j with hj0 | hj1
  · subst hj0
    rw [dmStep_guard_false _ _ _ _ _ _ _ _ _ _ (Or.inr rfl),
      dmStep_guard_false _ _ _ _ _ _ _ _ _ _ (Or.inr rfl)]
    rw [hA, if_pos rfl]
    by_cases hc : ch1 i = ch2 0
    · rw [if_pos hc, if_pos hc]
    · rw [if_neg hc, if_neg hc]
      have h0 : Dm ch1 ch2 i 0 = i := Dm_col0 ch1 ch2 i
      have h1 : Dm ch1 ch2 (i + 1) 0 = i + 1 := Dm_col0 ch1 ch2 (i + 1)
      omega
  rcases Nat.eq_zero_or_pos i with hi0 | hi1
  · subst hi0
    rw [dmStep_guard_false _ _ _ _ _ _ _ _ _ _ (Or.inl rfl),
      dmStep_guard_false _ _ _ _ _ _ _ _ _ _ (Or.inl rfl)]
    rw [hA, if_neg (show ¬ (j = 0) by omega)]
  · rw [hA, if_neg (show ¬ (j = 0) by omega), hp1 hi1, hP2 hj1, hT hi1 hj1]

theorem rowA_step (gy : List G) (start : Nat) (ch1 ch2 : Nat → G)
    (hch2 : ∀ k, ch2 k = gy.getD (start + k) ([] : G))
    (len2 i j : Nat) (hj : j < len2) (p1 : G) (hp1 : 1 ≤ i → p1 = ch1 (i - 1))
    (st : RowSt) (hinv : rowInvA ch1 ch2 len2 i j st) :
    rowInvA ch1 ch2 len2 i (j + 1) (dl_inner_step gy start i (ch1 i) p1 j st) := by
  obtain ⟨h1, h2, h3, h4, h5, h6, h7, h8, h9⟩ := hinv
  have hcur : dl_cur gy start i (ch1 i) p1 j st = Dm ch1 ch2 (i + 1) (j + 1) := by
    rw [dl_cur_eq, ← hch2 j, h1, h7 j (le_refl j) hj]
    exact dmStep_to_Dm ch1 ch2 i j p1 st.char2 st.above st.nextT hp1 h5 h2 h4
  rw [dl_step_fields]
  refine ⟨?_, ?_, ?_, ?_, ?_, ?_, ?_, ?_, ?_⟩
  · exact h7 j (le_refl j) hj
  · rw [if_neg (by omega)]
    exact hcur
  · intro _
    exact hcur
  · intro hi1 _
    show aget st.pc1c j 0 = Dm ch1 ch2 (i - 1) (j + 1 - 1)
    rw [Nat.add_sub_cancel]
    exact h9 hi1 j (le_refl j) hj
  · intro _
    show (gy.getD (start + j) [] : G) = ch2 (j + 1 - 1)
    rw [Nat.add_sub_cancel, hch2 j]
  · intro k hk
    rcases Nat.lt_succ_iff_lt_or_eq.1 hk with hk2 | hk2
    · show aget (aupd st.c1c j (dl_cur gy start i (ch1 i) p1 j st)) k 0 = _
      rw [aget_aupd_ne _ _ _ _ _ (by omega)]
      exact h6 k hk2
    · subst hk2
      show aget (aupd st.c1c k (dl_cur gy start i (ch1 i) p1 k st)) k 0 = _
      rw [aget_aupd_self2]
      exact hcur
  · intro k hk1 hk2
    show aget (aupd st.c1c j (dl_cur gy start i (ch1 i) p1 j st)) k 0 = _
    rw [aget_aupd_ne _ _ _ _ _ (by omega)]
    exact h7 k (by omega) hk2
  · intro k hk
    rcases Nat.lt_succ_iff_lt_or_eq.1 hk with hk2 | hk2
    · show aget (aupd st.pc1c j st.left) k 0 = _
      rw [aget_aupd_ne _ _ _ _ _ (by omega)]
      exact h8 k hk2
    · subst hk2
      show aget (aupd st.pc1c k st.left) k 0 = _
      rw [aget_aupd_self2]
      exact h1
  · intro hi1 k hk1 hk2
    show aget (aupd st.pc1c j st.left) k 0 = _
    rw [aget_aupd_ne _ _ _ _ _ (by omega)]
    exact h9 hi1 k (by omega) hk2

theorem rowA_loop (gy : List G) (start : Nat) (ch1 ch2 : Nat → G)
    (hch2 : ∀ k, ch2 k = gy.getD (start + k) ([] : G))
    (len2 i : Nat) (p1 : G) (hp1 : 1 ≤ i → p1 = ch1 (i - 1)) :
    ∀ cnt j st, j + cnt ≤ len2 → rowInvA ch1 ch2 len2 i j st →
    rowInvA ch1 ch2 len2 i (j + cnt)
      (dl_inner_loop gy start i (ch1 i) p1 (List.range' j cnt) st) := by
  intro cnt
  induction cnt with
  | zero =>
    intro j st h hi
    simpa [dl_inner_loop] using hi
  | succ c ihc =>
    intro j st h hi
    have hr : List.range' j (c + 1) = j :: List.range' (j + 1) c := rfl
    rw [hr]
    show rowInvA ch1 ch2 len2 i (j + (c + 1))
      (dl_inner_loop gy start i (ch1 i) p1 (List.range' (j + 1) c)
        (dl_inner_step gy start i (ch1 i) p1 j st))
    have h2 := ihc (j + 1) (dl_inner_step gy start i (ch1 i) p1 j st) (by omega)
      (rowA_step gy start ch1 ch2 hch2 len2 i j (by omega) p1 hp1 st hi)
    have he : j + 1 + c = j + (c + 1) := by omega
    rw [he] at h2
    exact h2

theorem dl_outer_cons (gx gy : List G) (start len2 i : Nat) (rest : List Nat) (st : OuterSt) :
    dl_outer_loop gx gy start len2 (i :: rest) st
    = dl_outer_loop gx gy start len2 rest
        { c1c := (dl_inner_loop gy start i (gx.getD (start + i) []) st.char1 (List.range len2)
            ⟨st.c1c, st.pc1c, i, i, 0, spaceG, st.current⟩).c1c,
          pc1c := (dl_inner_loop gy start i (gx.getD (start + i) []) st.char1 (List.range len2)
            ⟨st.c1c, st.pc1c, i, i, 0, spaceG, st.current⟩).pc1c,
          char1 := gx.getD (start + i) [],
          current := (dl_inner_loop gy start i (gx.getD (start + i) []) st.char1 (List.range len2)
            ⟨st.c1c, st.pc1c, i, i, 0, spaceG, st.current⟩).current } := rfl

theorem outA_loop (gx gy : List G) (start : Nat) (ch1 ch2 : Nat → G)
    (hch1 : ∀ k, ch1 k = gx.getD (start + k) ([] : G))
    (hch2 : ∀ k, ch2 k = gy.getD (start + k) ([] : G))
    (len2 : Nat) (hlen2 : 1 ≤ len2) :
    ∀ cnt i st, outInvA ch1 ch2 len2 i st →
    outInvA ch1 ch2 len2 (i + cnt) (dl_outer_loop gx gy start len2 (List.range' i cnt) st) := by
  intro cnt
  induction cnt with
  | zero =>
    intro i st hi
    simpa [dl_outer_loop] using hi
  | succ c ihc =>
    intro i st hi
    obtain ⟨hI1, hI2, hI3, hI4⟩ := hi
    have hr : List.range' i (c + 1) = i :: List.range' (i + 1) c := rfl
    rw [hr, dl_outer_cons, ← hch1 i, List.range_eq_range']
    have hinit : rowInvA ch1 ch2 len2 i 0 ⟨st.c1c, st.pc1c, i, i, 0, spaceG, st.current⟩ := by
      refine ⟨(Dm_col0 ch1 ch2 i).symm, by simp, by omega, by omega, by omega,
        by omega, ?_, by omega, ?_⟩
      · intro k hk1 hk2
        exact hI1 k hk2
      · intro hi1 k hk1 hk2
        exact hI2 hi1 k hk2
    have hrow := rowA_loop gy start ch1 ch2 hch2 len2 i st.char1 hI3 len2 0
      ⟨st.c1c, st.pc1c, i, i, 0, spaceG, st.current⟩ (by omega) hinit
    simp only [Nat.zero_add] at hrow
    obtain ⟨hr1, hr2, hr3, hr4, hr5, hr6, hr7, hr8, hr9⟩ := hrow
    have hnext : outInvA ch1 ch2 len2 (i + 1)
        { c1c := (dl_inner_loop gy start i (ch1 i) st.char1 (List.range' 0 len2)
            ⟨st.c1c, st.pc1c, i, i, 0, spaceG, st.current⟩).c1c,
          pc1c := (dl_inner_loop gy start i (ch1 i) st.char1 (List.range' 0 len2)
            ⟨st.c1c, st.pc1c, i, i, 0, spaceG, st.current⟩).pc1c,
          char1 := ch1 i,
          current := (dl_inner_loop gy start i (ch1 i) st.char1 (List.range' 0 len2)
            ⟨st.c1c, st.pc1c, i, i, 0, spaceG, st.current⟩).current } := by
      refine ⟨?_, ?_, ?_, ?_⟩
      · intro k hk
        exact hr6 k hk
      · intro _ k hk
        show aget _ k 0 = Dm ch1 ch2 (i + 1 - 1) k
        rw [Nat.add_sub_cancel]
        exact hr8 k hk
      · intro _
        show ch1 i = ch1 (i + 1 - 1)
        rw [Nat.add_sub_cancel]
      · intro _ h2
        exact hr3 h2
    have hfin := ihc (i + 1) _ hnext
    have he : i + 1 + c = i + (c + 1) := by omega
    rw [he] at hfin
    exact hfin

theorem dl_init_row_spec (ks : List Nat) : ∀ (m : List (Nat × Nat)) (k : Nat),
    (k ∈ ks → aget (dl_init_row m ks) k 0 = k + 1) ∧
    (k ∉ ks → aget (dl_init_row m ks) k 0 = aget m k 0) := by
  induction ks with
  | nil =>
    intro m k
    exact ⟨fun h => absurd h (List.not_mem_nil k), fun _ => rfl⟩
  | cons q rest ih =>
    intro m k
    constructor
    · intro hk
      rcases List.mem_cons.1 hk with hk2 | hk2
      · subst hk2
        show aget (dl_init_row (aupd m k (k + 1)) rest) k 0 = k + 1
        by_cases hin : k ∈ rest
        · exact (ih (aupd m k (k + 1)) k).1 hin
        · rw [(ih (aupd m k (k + 1)) k).2 hin, aget_aupd_self2]
      · exact (ih (aupd m q (q + 1)) k).1 hk2
    · intro hk
      show aget (dl_init_row (aupd m q (q + 1)) rest) k 0 = aget m k 0
      rw [(ih (aupd m q (q + 1)) k).2 (fun h => hk (List.mem_cons_of_mem _ h)),
        aget_aupd_ne _ _ _ _ _ ?_]
      intro h
      exact hk (h ▸ List.mem_cons_self q rest)

theorem coreA_spec (s1 s2 : Str) (len1 len2 start : Nat) (m : DlMaps)
    (hl1 : 1 ≤ len1) (hl2 : 1 ≤ len2) :
    (core_damerau_levenshtein s1 s2 len1 len2 start m).1
    = some (Dm (fun k => (graphemes s1).getD (start + k) [])
        (fun k => (graphemes s2).getD (start + k) []) len1 len2) := by
  set ch1 : Nat → G := fun k => (graphemes s1).getD (start + k) [] with hch1d
  set ch2 : Nat → G := fun k => (graphemes s2).getD (start + k) [] with hch2d
  have hch1 : ∀ k, ch1 k = (graphemes s1).getD (start + k) ([] : G) := fun k => rfl
  have hch2 : ∀ k, ch2 k = (graphemes s2).getD (start + k) ([] : G) := fun k => rfl
  unfold core_damerau_levenshtein
  dsimp only
  have hinit : outInvA ch1 ch2 len2 0
      ⟨dl_init_row m.base_char1_costs (List.range len2), m.base_prev_char1_costs, spaceG, 0⟩ := by
    refine ⟨?_, by omega, by omega, by omega⟩
    intro k hk
    have := (dl_init_row_spec (List.range len2) m.base_char1_costs k).1
      (List.mem_range.2 hk)
    rw [this, Dm_row0]
  have hres := outA_loop (graphemes s1) (graphemes s2) start ch1 ch2 hch1 hch2 len2 hl2
    len1 0 _ hinit
  simp only [Nat.zero_add] at hres
  rw [List.range_eq_range']
  exact congrArg some (hres.2.2.2 hl1 hl2)

/-! ### Phase B: the banded core computes `CC` -/

theorem rowB_step (gy : List G) (start : Nat) (ch1 ch2 : Nat → G)
    (hch2 : ∀ k, ch2 k = gy.getD (start + k) ([] : G))
    (maxd len2 joff i j : Nat)
    (hwj : wjs joff i ≤ j) (hje : j < wje maxd len2 i)
    (p1 : G) (hp1 : 1 ≤ i → p1 = ch1 (i - 1))
    (st : RowSt) (hinv : rowInvB ch1 ch2 maxd len2 joff i j st) :
    rowInvB ch1 ch2 maxd len2 joff i (j + 1) (dl_inner_step gy start i (ch1 i) p1 j st) := by
  obtain ⟨h1, h2, h3, h4, h5, h6, h7, h8, h9, h10, h11⟩ := hinv
  have hjsu : wjs joff i = i - joff := rfl
  have hjsu2 : wjs joff (i - 1) = i - 1 - joff := rfl
  have hjeu : wje maxd len2 i = min (maxd + 1 + i) len2 := rfl
  have hjeu2 : wje maxd len2 (i - 1) = min (maxd + 1 + (i - 1)) len2 := rfl
  have hlen2 : j < len2 := by omega
  have hcur : dl_cur gy start i (ch1 i) p1 j st = CC ch1 ch2 maxd len2 joff (i + 1) (j + 1) := by
    rw [dl_cur_eq, ← hch2 j, h1, h9 j (le_refl j) hlen2,
      CC_in ch1 ch2 maxd len2 joff i j ⟨hwj, hje⟩]
    by_cases hi0 : i = 0
    · subst hi0
      rw [dmStep_guard_false _ _ _ _ _ _ _ _ _ _ (Or.inl rfl),
        dmStep_guard_false _ _ _ _ _ _ _ _ _ _ (Or.inl rfl), h2]
    · have hi1 : 1 ≤ i := by omega
      rw [h2, hp1 hi1]
      by_cases hjs : j = wjs joff i
      · rw [h6 hjs, h4 hjs]
        simp only [if_pos hjs]
      · have hlt : wjs joff i < j := by omega
        rw [h7 hlt, h5 hi1 hlt (by rw [hjeu2]; omega)]
        simp only [if_neg hjs]
        by_cases hs : j - 1 = wjs joff (i - 1)
        · rw [if_pos hs, if_pos ⟨hs, hi1⟩]
        · rw [if_neg hs, if_neg (fun hand => hs hand.1)]
  rw [dl_step_fields]
  refine ⟨?_, ?_, ?_, ?_, ?_, ?_, ?_, ?_, ?_, ?_, ?_⟩
  · rw [if_neg (by omega)]
    exact h9 j (le_refl j) hlen2
  · rw [if_neg (by omega)]
    exact hcur
  · intro _
    exact hcur
  · intro h
    exact absurd h (by omega)
  · intro hi1 _ hv
    show aget st.pc1c j 0 = _
    have hv2 : j < wje maxd len2 (i - 1) := by
      rw [hjeu2]
      rw [Nat.add_sub_cancel] at hv
      exact hjeu2 ▸ hv
    rw [h11 hi1 j (le_refl j) (by omega) hv2]
    rw [Nat.add_sub_cancel]
  · intro h
    exact absurd h (by omega)
  · intro _
    show (gy.getD (start + j) [] : G) = ch2 (j + 1 - 1)
    rw [Nat.add_sub_cancel, hch2 j]
  · intro k hk1 hk2
    rcases Nat.lt_succ_iff_lt_or_eq.1 hk2 with hk3 | hk3
    · show aget (aupd st.c1c j (dl_cur gy start i (ch1 i) p1 j st)) k 0 = _
      rw [aget_aupd_ne _ _ _ _ _ (by omega)]
      exact h8 k hk1 hk3
    · subst hk3
      show aget (aupd st.c1c k (dl_cur gy start i (ch1 i) p1 k st)) k 0 = _
      rw [aget_aupd_self2]
      exact hcur
  · intro k hk1 hk2
    show aget (aupd st.c1c j (dl_cur gy start i (ch1 i) p1 j st)) k 0 = _
    rw [aget_aupd_ne _ _ _ _ _ (by omega)]
    exact h9 k (by omega) hk2
  · intro k hk1 hk2
    rcases Nat.lt_succ_iff_lt_or_eq.1 hk2 with hk3 | hk3
    · show aget (aupd st.pc1c j st.left) k 0 = _
      rw [aget_aupd_ne _ _ _ _ _ (by omega)]
      exact h10 k hk1 hk3
    · subst hk3
      show aget (aupd st.pc1c k st.left) k 0 = _
      rw [aget_aupd_self2]
      exact h1
  · intro hi1 k hk1 hk2 hk3
    show aget (aupd st.pc1c j st.left) k 0 = _
    rw [aget_aupd_ne _ _ _ _ _ (by omega)]
    exact h11 hi1 k (by omega) hk2 hk3

theorem rowB_loop (gy : List G) (start : Nat) (ch1 ch2 : Nat → G)
    (hch2 : ∀ k, ch2 k = gy.getD (start + k) ([] : G))
    (maxd len2 joff i : Nat) (p1 : G) (hp1 : 1 ≤ i → p1 = ch1 (i - 1)) :
    ∀ cnt j st, wjs joff i ≤ j → j + cnt ≤ wje maxd len2 i →
    rowInvB ch1 ch2 maxd len2 joff i j st →
    rowInvB ch1 ch2 maxd len2 joff i (j + cnt)
      (dl_inner_loop gy start i (ch1 i) p1 (List.range' j cnt) st) := by
  intro cnt
  induction cnt with
  | zero =>
    intro j st h1 h2 hi
    simpa [dl_inner_loop] using hi
  | succ c ihc =>
    intro j st h1 h2 hi
    have hr : List.range' j (c + 1) = j :: List.range' (j + 1) c := rfl
    rw [hr]
    show rowInvB ch1 ch2 maxd len2 joff i (j + (c + 1))
      (dl_inner_loop gy start i (ch1 i) p1 (List.range' (j + 1) c)
        (dl_inner_step gy start i (ch1 i) p1 j st))
    have h3 := ihc (j + 1) (dl_inner_step gy start i (ch1 i) p1 j st) (by omega) (by omega)
      (rowB_step gy start ch1 ch2 hch2 maxd len2 joff i j h1 (by omega) p1 hp1 st hi)
    have he : j + 1 + c = j + (c + 1) := by omega
    rw [he] at h3
    exact h3

theorem dl_outer2_cons (gx gy : List G) (start len2 ld maxd : Nat) (joffI : Int)
    (i : Nat) (rest : List Nat) (jsv jev : Nat) (st : OuterSt) :
    dl_outer_loop2 gx gy start len2 ld maxd joffI (i :: rest) (jsv, jev, st)
    = (if aget (dl_inner_loop gy start i (gx.getD (start + i) []) st.char1
          (List.range' (if (i : Int) > joffI then jsv + 1 else jsv)
            ((if jev < len2 then jev + 1 else jev) - (if (i : Int) > joffI then jsv + 1 else jsv)))
          ⟨st.c1c, st.pc1c, i, i, 0, spaceG, st.current⟩).c1c (i + ld) 0 > maxd then
        (none, ((dl_inner_loop gy start i (gx.getD (start + i) []) st.char1
          (List.range' (if (i : Int) > joffI then jsv + 1 else jsv)
            ((if jev < len2 then jev + 1 else jev) - (if (i : Int) > joffI then jsv + 1 else jsv)))
          ⟨st.c1c, st.pc1c, i, i, 0, spaceG, st.current⟩).c1c,
          (dl_inner_loop gy start i (gx.getD (start + i) []) st.char1
          (List.range' (if (i : Int) > joffI then jsv + 1 else jsv)
            ((if jev < len2 then jev + 1 else jev) - (if (i : Int) > joffI then jsv + 1 else jsv)))
          ⟨st.c1c, st.pc1c, i, i, 0, spaceG, st.current⟩).pc1c))
      else dl_outer_loop2 gx gy start len2 ld maxd joffI rest
        ((if (i : Int) > joffI then jsv + 1 else jsv),
         (if jev < len2 then jev + 1 else jev),
         ⟨(dl_inner_loop gy start i (gx.getD (start + i) []) st.char1
            (List.range' (if (i : Int) > joffI then jsv + 1 else jsv)
              ((if jev < len2 then jev + 1 else jev) - (if (i : Int) > joffI then jsv + 1 else jsv)))
            ⟨st.c1c, st.pc1c, i, i, 0, spaceG, st.current⟩).c1c,
          (dl_inner_loop gy start i (gx.getD (start + i) []) st.char1
            (List.range' (if (i : Int) > joffI then jsv + 1 else jsv)
              ((if jev < len2 then jev + 1 else jev) - (if (i : Int) > joffI then jsv + 1 else jsv)))
            ⟨st.c1c, st.pc1c, i, i, 0, spaceG, st.current⟩).pc1c,
          gx.getD (start + i) [],
          (dl_inner_loop gy start i (gx.getD (start + i) []) st.char1
            (List.range' (if (i : Int) > joffI then jsv + 1 else jsv)
              ((if jev < len2 then jev + 1 else jev) - (if (i : Int) > joffI then jsv + 1 else jsv)))
            ⟨st.c1c, st.pc1c, i, i, 0, spaceG, st.current⟩).current⟩)) := rfl

theorem outB_row (gx gy : List G) (start : Nat) (ch1 ch2 : Nat → G)
    (hch1 : ∀ k, ch1 k = gx.getD (start + k) ([] : G))
    (hch2 : ∀ k, ch2 k = gy.getD (start + k) ([] : G))
    (len1 len2 maxd ld joff : Nat) (joffI : Int)
    (hld : len2 = len1 + ld) (hldm : ld ≤ maxd) (hjoff : joff + ld = maxd)
    (hmd : 1 ≤ maxd) (hml : maxd < len2) (hjoffI : joffI = (joff : Int))
    (i : Nat) (hi : i < len1) (jsv jev : Nat) (st : OuterSt)
    (hinv : outInvB ch1 ch2 maxd len2 joff i (jsv, jev, st)) :
    (if (i : Int) > joffI then jsv + 1 else jsv) = wjs joff i ∧
    (if jev < len2 then jev + 1 else jev) = wje maxd len2 i ∧
    rowInvB ch1 ch2 maxd len2 joff i (wje maxd len2 i)
      (dl_inner_loop gy start i (ch1 i) st.char1
        (List.range' (wjs joff i) (wje maxd len2 i - wjs joff i))
        ⟨st.c1c, st.pc1c, i, i, 0, spaceG, st.current⟩) := by
  obtain ⟨hi1, hi2, hi3, hi4, hi5, hi6⟩ := hinv
  simp only at hi1 hi2 hi3 hi4 hi5 hi6
  have hjsu : wjs joff i = i - joff := rfl
  have hjeu : wje maxd len2 i = min (maxd + 1 + i) len2 := rfl
  have hjs2 : (if (i : Int) > joffI then jsv + 1 else jsv) = wjs joff i := by
    rw [hjoffI, hi1, hjsu]
    split_ifs with h
    · have h2 : (joff : Int) < (i : Int) := h
      have h3 : joff < i := by exact_mod_cast h2
      omega
    · have h3 : ¬ joff < i := by
        intro h4
        exact h (by exact_mod_cast h4)
      omega
  have hje2 : (if jev < len2 then jev + 1 else jev) = wje maxd len2 i := by
    rw [hi2, hjeu]
    split_ifs with h <;> omega
  refine ⟨hjs2, hje2, ?_⟩
  have hinit : rowInvB ch1 ch2 maxd len2 joff i (wjs joff i)
      ⟨st.c1c, st.pc1c, i, i, 0, spaceG, st.current⟩ := by
    refine ⟨by rw [if_pos rfl], by rw [if_pos rfl], by omega, fun _ => rfl, by omega,
      fun _ => rfl, by omega, by omega, ?_, by omega, ?_⟩
    · intro k hk1 hk2
      exact hi3 k (by omega) hk2
    · intro hge1 k hk1 hk2 hk3
      exact hi4 hge1 k hk2 hk3
  have hrun := rowB_loop gy start ch1 ch2 hch2 maxd len2 joff i st.char1 hi5
    (wje maxd len2 i - wjs joff i) (wjs joff i)
    ⟨st.c1c, st.pc1c, i, i, 0, spaceG, st.current⟩ (le_refl _) (by omega) hinit
  have he : wjs joff i + (wje maxd len2 i - wjs joff i) = wje maxd len2 i := by omega
  rw [he] at hrun
  exact hrun

theorem outB_post (gx gy : List G) (start : Nat) (ch1 ch2 : Nat → G)
    (hch1 : ∀ k, ch1 k = gx.getD (start + k) ([] : G))
    (hch2 : ∀ k, ch2 k = gy.getD (start + k) ([] : G))
    (len1 len2 maxd ld joff : Nat)
    (hld : len2 = len1 + ld) (hldm : ld ≤ maxd) (hjoff : joff + ld = maxd)
    (hmd : 1 ≤ maxd) (hml : maxd < len2)
    (i : Nat) (hi : i < len1) (st : OuterSt)
    (hrow : rowInvB ch1 ch2 maxd len2 joff i (wje maxd len2 i)
      (dl_inner_loop gy start i (ch1 i) st.char1
        (List.range' (wjs joff i) (wje maxd len2 i - wjs joff i))
        ⟨st.c1c, st.pc1c, i, i, 0, spaceG, st.current⟩)) :
    aget (dl_inner_loop gy start i (ch1 i) st.char1
        (List.range' (wjs joff i) (wje maxd len2 i - wjs joff i))
        ⟨st.c1c, st.pc1c, i, i, 0, spaceG, st.current⟩).c1c (i + ld) 0
      = CC ch1 ch2 maxd len2 joff (i + 1) (i + ld + 1) ∧
    outInvB ch1 ch2 maxd len2 joff (i + 1)
      (wjs joff i, wje maxd len2 i,
        ⟨(dl_inner_loop gy start i (ch1 i) st.char1
            (List.range' (wjs joff i) (wje maxd len2 i - wjs joff i))
            ⟨st.c1c, st.pc1c, i, i, 0, spaceG, st.current⟩).c1c,
         (dl_inner_loop gy start i (ch1 i) st.char1
            (List.range' (wjs joff i) (wje maxd len2 i - wjs joff i))
            ⟨st.c1c, st.pc1c, i, i, 0, spaceG, st.current⟩).pc1c,
         ch1 i,
         (dl_inner_loop gy start i (ch1 i) st.char1
            (List.range' (wjs joff i) (wje maxd len2 i - wjs joff i))
            ⟨st.c1c, st.pc1c, i, i, 0, spaceG, st.current⟩).current⟩) := by
  obtain ⟨hr1, hr2, hr3, hr4, hr5, hr6, hr7, hr8, hr9, hr10, hr11⟩ := hrow
  have hjsu : wjs joff i = i - joff := rfl
  have hjeu : wje maxd len2 i = min (maxd + 1 + i) len2 := rfl
  have ha1 : wjs joff i ≤ i + ld := by omega
  have ha2 : i + ld < wje maxd len2 i := by omega
  constructor
  · exact hr8 (i + ld) ha1 ha2
  refine ⟨by show wjs joff i = (i + 1 - 1) - joff; omega,
    by show wje maxd len2 i = min (maxd + (i + 1)) len2; omega, ?_, ?_, ?_, ?_⟩
  · intro k hk1 hk2
    simp only
    by_cases hk3 : k < wje maxd len2 i
    · exact hr8 k (by omega) hk3
    · rw [CC_out ch1 ch2 maxd len2 joff i k (by rw [hjsu, hjeu] at *; omega)]
      exact hr9 k (by omega) hk2
  · intro _ k hk1 hk2
    simp only
    have := hr10 k (by simpa using hk1) (by simpa using hk2)
    simpa using this
  · intro _
    simp only
    rw [Nat.add_sub_cancel]
  · intro _
    simp only
    rw [Nat.add_sub_cancel]
    exact hr3 (by omega)


theorem dl_init_cap_spec (maxd : Nat) : ∀ (ks : List Nat) (m : List (Nat × Nat)) (k : Nat),
    (k ∈ ks → aget (dl_init_cap maxd ks m) k 0 = maxd + 1) ∧
    (k ∉ ks → aget (dl_init_cap maxd ks m) k 0 = aget m k 0) := by
  intro ks
  induction ks with
  | nil =>
    intro m k
    exact ⟨fun h => absurd h (List.not_mem_nil k), fun _ => rfl⟩
  | cons q rest ih =>
    intro m k
    constructor
    · intro hk
      show aget (dl_init_cap maxd rest (aupd m q (maxd + 1))) k 0 = maxd + 1
      rcases List.mem_cons.1 hk with he | hmem
      · by_cases hk2 : k ∈ rest
        · exact (ih _ k).1 hk2
        · rw [(ih _ k).2 hk2, he, aget_aupd_self2]
      · exact (ih _ k).1 hmem
    · intro hk
      show aget (dl_init_cap maxd rest (aupd m q (maxd + 1))) k 0 = aget m k 0
      rw [(ih _ k).2 (fun h => hk (List.mem_cons_of_mem q h)),
        aget_aupd_ne _ _ _ _ _ ?_]
      intro h
      exact hk (h ▸ List.mem_cons_self q rest)

theorem dl_init_row2_spec (m : List (Nat × Nat)) (maxd len2 k : Nat)
    (hml : maxd < len2) (hk : k < len2) :
    aget (dl_init_row2 m maxd len2) k 0 = if k < maxd then k + 1 else maxd + 1 := by
  show aget (if maxd < len2 then
      dl_init_cap maxd (List.range' maxd (len2 - maxd)) (dl_init_row m (List.range maxd))
    else dl_init_row m (List.range maxd)) k 0 = _
  rw [if_pos hml]
  by_cases hkm : k < maxd
  · rw [(dl_init_cap_spec maxd _ _ k).2 (by
      intro h
      have := List.mem_range'_1.1 h
      omega)]
    rw [(dl_init_row_spec _ _ k).1 (List.mem_range.2 hkm), if_pos hkm]
  · rw [(dl_init_cap_spec maxd _ _ k).1 (List.mem_range'_1.2 (by omega)), if_neg hkm]

theorem outB_loop_ok (gx gy : List G) (start : Nat) (ch1 ch2 : Nat → G)
    (hch1 : ∀ k, ch1 k = gx.getD (start + k) ([] : G))
    (hch2 : ∀ k, ch2 k = gy.getD (start + k) ([] : G))
    (len1 len2 maxd ld joff : Nat) (joffI : Int)
    (hld : len2 = len1 + ld) (hldm : ld ≤ maxd) (hjoff : joff + ld = maxd)
    (hmd : 1 ≤ maxd) (hml : maxd < len2) (hjoffI : joffI = (joff : Int)) :
    ∀ cnt i t, i + cnt ≤ len1 → outInvB ch1 ch2 maxd len2 joff i t →
    (∀ r, i ≤ r → r < i + cnt → CC ch1 ch2 maxd len2 joff (r + 1) (r + ld + 1) ≤ maxd) →
    ∃ t2, dl_outer_loop2 gx gy start len2 ld maxd joffI (List.range' i cnt) t
        = (some t2, (t2.2.2.c1c, t2.2.2.pc1c)) ∧
      outInvB ch1 ch2 maxd len2 joff (i + cnt) t2 := by
  intro cnt
  induction cnt with
  | zero =>
    intro i t _ hinv _
    obtain ⟨jsv, jev, st⟩ := t
    exact ⟨(jsv, jev, st), rfl, hinv⟩
  | succ c ih =>
    intro i t hle hinv hall
    obtain ⟨jsv, jev, st⟩ := t
    obtain ⟨hjs2, hje2, hrow⟩ := outB_row gx gy start ch1 ch2 hch1 hch2 len1 len2 maxd ld joff
      joffI hld hldm hjoff hmd hml hjoffI i (by omega) jsv jev st hinv
    obtain ⟨hcheck, hinv2⟩ := outB_post gx gy start ch1 ch2 hch1 hch2 len1 len2 maxd ld joff
      hld hldm hjoff hmd hml i (by omega) st hrow
    have hr : List.range' i (c + 1) = i :: List.range' (i + 1) c := rfl
    rw [hr, dl_outer2_cons, hjs2, hje2, ← hch1 i, hcheck,
      if_neg (show ¬ (CC ch1 ch2 maxd len2 joff (i + 1) (i + ld + 1) > maxd) by
        have := hall i (le_refl i) (by omega)
        omega)]
    obtain ⟨t2, hres, hinv3⟩ := ih (i + 1) _ (by omega) hinv2
      (fun r h1 h2 => hall r (by omega) (by omega))
    refine ⟨t2, by rw [hres], ?_⟩
    have he : i + 1 + c = i + (c + 1) := by omega
    rw [← he]
    exact hinv3

theorem outB_loop_fail (gx gy : List G) (start : Nat) (ch1 ch2 : Nat → G)
    (hch1 : ∀ k, ch1 k = gx.getD (start + k) ([] : G))
    (hch2 : ∀ k, ch2 k = gy.getD (start + k) ([] : G))
    (len1 len2 maxd ld joff : Nat) (joffI : Int)
    (hld : len2 = len1 + ld) (hldm : ld ≤ maxd) (hjoff : joff + ld = maxd)
    (hmd : 1 ≤ maxd) (hml : maxd < len2) (hjoffI : joffI = (joff : Int)) :
    ∀ cnt i t, i + cnt ≤ len1 → outInvB ch1 ch2 maxd len2 joff i t →
    (∃ r, i ≤ r ∧ r < i + cnt ∧ maxd < CC ch1 ch2 maxd len2 joff (r + 1) (r + ld + 1)) →
    (dl_outer_loop2 gx gy start len2 ld maxd joffI (List.range' i cnt) t).1 = none := by
  intro cnt
  induction cnt with
  | zero =>
    intro i t _ _ hex
    obtain ⟨r, h1, h2, _⟩ := hex
    exact absurd h2 (by omega)
  | succ c ih =>
    intro i t hle hinv hex
    obtain ⟨jsv, jev, st⟩ := t
    obtain ⟨hjs2, hje2, hrow⟩ := outB_row gx gy start ch1 ch2 hch1 hch2 len1 len2 maxd ld joff
      joffI hld hldm hjoff hmd hml hjoffI i (by omega) jsv jev st hinv
    obtain ⟨hcheck, hinv2⟩ := outB_post gx gy start ch1 ch2 hch1 hch2 len1 len2 maxd ld joff
      hld hldm hjoff hmd hml i (by omega) st hrow
    have hr : List.range' i (c + 1) = i :: List.range' (i + 1) c := rfl
    rw [hr, dl_outer2_cons, hjs2, hje2, ← hch1 i, hcheck]
    by_cases hgt : maxd < CC ch1 ch2 maxd len2 joff (i + 1) (i + ld + 1)
    · rw [if_pos hgt]
    · rw [if_neg hgt]
      apply ih (i + 1) _ (by omega) hinv2
      obtain ⟨r, hr1, hr2, hr3⟩ := hex
      have hne : r ≠ i := by
        intro he
        subst he
        exact hgt hr3
      exact ⟨r, by omega, by omega, hr3⟩

theorem coreB_spec (s1 s2 : Str) (len1 len2 start maxd ld joff : Nat) (m : DlMaps)
    (hld : len2 = len1 + ld) (hldm : ld ≤ maxd) (hjoff : joff + ld = maxd)
    (hl1 : 1 ≤ len1) (hmd : 1 ≤ maxd) (hml : maxd < len2) :
    (core_damerau_levenshtein2 s1 s2 len1 len2 start maxd m).1
    = if ∀ r, r < len1 → CC (fun k => (graphemes s1).getD (start + k) [])
          (fun k => (graphemes s2).getD (start + k) []) maxd len2 joff (r + 1) (r + ld + 1) ≤ maxd
      then some (CC (fun k => (graphemes s1).getD (start + k) [])
          (fun k => (graphemes s2).getD (start + k) []) maxd len2 joff len1 len2)
      else none := by
  set ch1 : Nat → G := fun k => (graphemes s1).getD (start + k) [] with hch1d
  set ch2 : Nat → G := fun k => (graphemes s2).getD (start + k) [] with hch2d
  have hch1 : ∀ k, ch1 k = (graphemes s1).getD (start + k) ([] : G) := fun k => rfl
  have hch2 : ∀ k, ch2 k = (graphemes s2).getD (start + k) ([] : G) := fun k => rfl
  unfold core_damerau_levenshtein2
  dsimp only
  rw [show len2 - len1 = ld from by omega]
  rw [show (maxd : Int) - ((ld : Nat) : Int) = ((joff : Nat) : Int) from by push_cast; omega]
  rw [List.range_eq_range']
  have hinit : outInvB ch1 ch2 maxd len2 joff 0
      (0, maxd, ⟨dl_init_row2 m.base_char1_costs maxd len2, m.base_prev_char1_costs, spaceG, 0⟩) := by
    refine ⟨by show (0 : Nat) = (0 - 1) - joff; omega,
      by show maxd = min (maxd + 0) len2; omega, ?_,
      fun h => absurd h (by omega), fun h => absurd h (by omega), fun h => absurd h (by omega)⟩
    intro k _ hk2
    show aget (dl_init_row2 m.base_char1_costs maxd len2) k 0 = _
    rw [dl_init_row2_spec m.base_char1_costs maxd len2 k hml hk2, CC_row0]
    split_ifs <;> omega
  by_cases hall : ∀ r, r < len1 →
      CC ch1 ch2 maxd len2 joff (r + 1) (r + ld + 1) ≤ maxd
  · obtain ⟨t2, hres, hinv2⟩ := outB_loop_ok (graphemes s1) (graphemes s2) start ch1 ch2
      hch1 hch2 len1 len2 maxd ld joff ((joff : Nat) : Int) hld hldm hjoff hmd hml rfl
      len1 0 _ (by omega) hinit (fun r _ h2 => hall r (by omega))
    rw [Nat.zero_add] at hinv2
    obtain ⟨jsf, jef, stf⟩ := t2
    rw [hres]
    obtain ⟨_, _, _, _, _, hc6⟩ := hinv2
    have hcur : stf.current = CC ch1 ch2 maxd len2 joff len1 len2 := by
      have h1 := hc6 (by omega)
      simp only at h1
      rw [h1]
      have hwje : wje maxd len2 (len1 - 1) = len2 := by
        show min (maxd + 1 + (len1 - 1)) len2 = len2
        omega
      rw [hwje]
    show (if stf.current ≤ maxd then some stf.current else none) = _
    rw [hcur, if_pos hall, if_pos ?_]
    have := hall (len1 - 1) (by omega)
    have he2 : len1 - 1 + 1 = len1 := by omega
    have he3 : len1 - 1 + ld + 1 = len2 := by omega
    rw [he2, he3] at this
    exact this
  · push_neg at hall
    obtain ⟨r, hr1, hr2⟩ := hall
    have hfail := outB_loop_fail (graphemes s1) (graphemes s2) start ch1 ch2
      hch1 hch2 len1 len2 maxd ld joff ((joff : Nat) : Int) hld hldm hjoff hmd hml rfl
      len1 0 _ (by omega) hinit ⟨r, by omega, by omega, hr2⟩
    rcases hloop : dl_outer_loop2 (graphemes s1) (graphemes s2) start len2 ld maxd
        ((joff : Nat) : Int) (List.range' 0 len1)
        (0, maxd, ⟨dl_init_row2 m.base_char1_costs maxd len2, m.base_prev_char1_costs, spaceG, 0⟩)
      with ⟨o, mc, mp⟩
    rw [hloop] at hfail
    simp only at hfail
    subst hfail
    rw [if_neg (by
      intro hk
      exact absurd (hk r hr1) (by omega))]

/-! ### Phase C: the banded core agrees with the filtered full core -/

theorem coreBA (s1 s2 : Str) (len1 len2 start maxd ld joff : Nat) (m : DlMaps)
    (hld : len2 = len1 + ld) (hldm : ld ≤ maxd) (hjoff : joff + ld = maxd)
    (hl1 : 1 ≤ len1) (hmd : 1 ≤ maxd) (hml : maxd < len2)
    (hfirst : (graphemes s1).getD (start + 0) ([] : G) ≠ (graphemes s2).getD (start + 0) ([] : G)) :
    (core_damerau_levenshtein2 s1 s2 len1 len2 start maxd m).1
    = if Dm (fun k => (graphemes s1).getD (start + k) [])
          (fun k => (graphemes s2).getD (start + k) []) len1 len2 ≤ maxd
      then some (Dm (fun k => (graphemes s1).getD (start + k) [])
          (fun k => (graphemes s2).getD (start + k) []) len1 len2)
      else none := by
  rw [coreB_spec s1 s2 len1 len2 start maxd ld joff m hld hldm hjoff hl1 hmd hml]
  set ch1 : Nat → G := fun k => (graphemes s1).getD (start + k) [] with hch1d
  set ch2 : Nat → G := fun k => (graphemes s2).getD (start + k) [] with hch2d
  have hfirst2 : ch1 0 ≠ ch2 0 := hfirst
  have hband : ∀ r, r < len1 → InBand len1 len2 maxd joff (r + 1) (r + ld + 1) := by
    intro r hr
    right; right
    refine ⟨by omega, by omega, by omega, ?_, ?_⟩
    · show wjs joff r ≤ r + ld + 1 - 1
      show r - joff ≤ r + ld + 1 - 1
      omega
    · show r + ld + 1 - 1 < wje maxd len2 r
      show r + ld + 1 - 1 < min (maxd + 1 + r) len2
      omega
  have hpen0 : ∀ r, penN ld (r + 1) (r + ld + 1) = 0 := by
    intro r
    show (if r + 1 + ld ≤ r + ld + 1 then (r + ld + 1) - (r + 1 + ld) else (r + 1 + ld) - (r + ld + 1)) = 0
    rw [if_pos (by omega)]
    omega
  have hbandF : InBand len1 len2 maxd joff len1 len2 := by
    have := hband (len1 - 1) (by omega)
    have he1 : len1 - 1 + 1 = len1 := by omega
    have he2 : len1 - 1 + ld + 1 = len2 := by omega
    rw [he1, he2] at this
    exact this
  have hpenF : penN ld len1 len2 = 0 := by
    have := hpen0 (len1 - 1)
    have he1 : len1 - 1 + 1 = len1 := by omega
    have he2 : len1 - 1 + ld + 1 = len2 := by omega
    rw [he1, he2] at this
    exact this
  by_cases hD : Dm ch1 ch2 len1 len2 ≤ maxd
  · rw [if_pos hD]
    have hcells : ∀ r, r < len1 → CC ch1 ch2 maxd len2 joff (r + 1) (r + ld + 1) ≤ maxd := by
      intro r hr
      have hdm : Dm ch1 ch2 (r + 1) (r + ld + 1) ≤ maxd := by
        have hchain := Dm_diag_chain ch1 ch2 (r + 1) (r + ld + 1) (len1 - 1 - r)
        have he1 : r + 1 + (len1 - 1 - r) = len1 := by omega
        have he2 : r + ld + 1 + (len1 - 1 - r) = len2 := by omega
        rw [he1, he2] at hchain
        omega
      have hU := CC_U ch1 ch2 len1 len2 maxd ld joff hld hldm hjoff hmd hml hfirst2
        (r + 1 + (r + ld + 1)) (r + 1) (r + ld + 1) (le_refl _) (hband r hr)
        (by rw [hpen0 r]; omega)
      omega
    rw [if_pos hcells]
    have hUF := CC_U ch1 ch2 len1 len2 maxd ld joff hld hldm hjoff hmd hml hfirst2
      (len1 + len2) len1 len2 (le_refl _) hbandF (by rw [hpenF]; omega)
    have hLF := CC_L ch1 ch2 len1 len2 maxd ld joff hld hldm hjoff hmd
      (len1 + len2) len1 len2 (le_refl _) hbandF
    rw [hpenF] at hLF
    have : CC ch1 ch2 maxd len2 joff len1 len2 = Dm ch1 ch2 len1 len2 := by omega
    rw [this]
  · rw [if_neg hD]
    rw [if_neg ?_]
    intro hk
    have hLF := CC_L ch1 ch2 len1 len2 maxd ld joff hld hldm hjoff hmd
      (len1 + len2) len1 len2 (le_refl _) hbandF
    rw [hpenF] at hLF
    have hlast := hk (len1 - 1) (by omega)
    have he1 : len1 - 1 + 1 = len1 := by omega
    have he2 : len1 - 1 + ld + 1 = len2 := by omega
    rw [he1, he2] at hlast
    omega

theorem dl_inner_untouched (gy : List G) (start i : Nat) (c1 p1 : G) :
    ∀ (js : List Nat) (st : RowSt) (k : Nat), k ∉ js →
    aget (dl_inner_loop gy start i c1 p1 js st).c1c k 0 = aget st.c1c k 0 := by
  intro js
  induction js with
  | nil =>
    intro st k _
    rfl
  | cons q rest ih =>
    intro st k hk
    show aget (dl_inner_loop gy start i c1 p1 rest (dl_inner_step gy start i c1 p1 q st)).c1c k 0 = _
    rw [ih _ k (fun h => hk (List.mem_cons_of_mem q h))]
    show aget (aupd st.c1c q (dl_cur gy start i c1 p1 q st)) k 0 = aget st.c1c k 0
    rw [aget_aupd_ne _ _ _ _ _ ?_]
    intro h
    exact hk (h ▸ List.mem_cons_self q rest)

theorem coreB_wide (s1 s2 : Str) (len1 len2 start maxd ld : Nat) (m : DlMaps)
    (hld : len2 = len1 + ld) (hldw : maxd < ld)
    (hl1 : 1 ≤ len1) (hml : maxd < len2) :
    (core_damerau_levenshtein2 s1 s2 len1 len2 start maxd m).1 = none := by
  unfold core_damerau_levenshtein2
  dsimp only
  rw [show len2 - len1 = ld from by omega]
  obtain ⟨l1p, rfl⟩ : ∃ p, len1 = p + 1 := ⟨len1 - 1, by omega⟩
  rw [List.range_eq_range']
  have hr : List.range' 0 (l1p + 1) = 0 :: List.range' 1 l1p := rfl
  rw [hr, dl_outer2_cons,
    if_pos (show ((0 : Nat) : Int) > (maxd : Int) - ((ld : Nat) : Int) by
      push_cast
      omega),
    if_pos hml]
  rw [if_pos ?_]
  rw [dl_inner_untouched _ _ _ _ _ _ _ (0 + ld) (by
    intro h
    have := List.mem_range'_1.1 h
    omega)]
  show aget (dl_init_row2 m.base_char1_costs maxd len2) (0 + ld) 0 > maxd
  rw [show 0 + ld = ld from by omega,
    dl_init_row2_spec m.base_char1_costs maxd len2 ld hml (by omega),
    if_neg (by omega)]
  omega

/-! ### Phase D: prefix/suffix prep facts and the entry points -/

theorem psp_suffix_spec (g1 g2 : List G) : ∀ l1 l2, l1 ≤ l2 →
    (psp_suffix g1 g2 l1 l2).1 ≤ l1 ∧
    (psp_suffix g1 g2 l1 l2).2 = (psp_suffix g1 g2 l1 l2).1 + (l2 - l1) ∧
    (∀ t, (psp_suffix g1 g2 l1 l2).1 ≤ t → t < l1 →
      g1.getD t [] = g2.getD (t + (l2 - l1)) []) := by
  intro l1
  induction l1 with
  | zero =>
    intro l2 _
    exact ⟨le_refl 0, by show l2 = 0 + (l2 - 0); omega, fun t _ ht => absurd ht (by omega)⟩
  | succ l ih =>
    intro l2 h
    by_cases hc : g1.getD l [] = g2.getD (l2 - 1) []
    · have he : psp_suffix g1 g2 (l + 1) l2 = psp_suffix g1 g2 l (l2 - 1) := by
        simp only [psp_suffix]
        rw [if_pos hc]
      rw [he]
      obtain ⟨i1, i2, i3⟩ := ih (l2 - 1) (by omega)
      refine ⟨by omega, by omega, ?_⟩
      intro t ht1 ht2
      rcases Nat.lt_succ_iff_lt_or_eq.1 ht2 with ht3 | ht3
      · have := i3 t ht1 ht3
        rw [show t + (l2 - 1 - l) = t + (l2 - (l + 1)) from by omega] at this
        exact this
      · subst ht3
        rw [show t + (l2 - (t + 1)) = l2 - 1 from by omega]
        exact hc
    · have he : psp_suffix g1 g2 (l + 1) l2 = (l + 1, l2) := by
        simp only [psp_suffix]
        rw [if_neg hc]
      rw [he]
      exact ⟨le_refl _, by show l2 = (l + 1) + (l2 - (l + 1)); omega,
        fun t ht1 ht2 => absurd ht2 (by omega)⟩

theorem psp_suffix_self (g : List G) : ∀ l, psp_suffix g g l l = (0, 0) := by
  intro l
  induction l with
  | zero => rfl
  | succ q ih =>
    have he : psp_suffix g g (q + 1) (q + 1) = psp_suffix g g q q := by
      simp only [psp_suffix]
      rw [if_pos (show g.getD q ([] : G) = g.getD (q + 1 - 1) [] from rfl)]
      rfl
    rw [he, ih]

theorem psp_start_go_spec (g1 g2 : List G) (len1 : Nat) :
    ∀ fuel start, start ≤ len1 → len1 ≤ start + fuel →
    (∀ k, k < start → g1.getD k [] = g2.getD k []) →
    start ≤ psp_start_go g1 g2 len1 fuel start ∧
    psp_start_go g1 g2 len1 fuel start ≤ len1 ∧
    (∀ k, k < psp_start_go g1 g2 len1 fuel start → g1.getD k [] = g2.getD k []) ∧
    (psp_start_go g1 g2 len1 fuel start ≠ len1 →
      g1.getD (psp_start_go g1 g2 len1 fuel start) []
        ≠ g2.getD (psp_start_go g1 g2 len1 fuel start) []) := by
  intro fuel
  induction fuel with
  | zero =>
    intro start h1 h2 h3
    refine ⟨le_refl _, h1, h3, fun hne => absurd ?_ hne⟩
    show start = len1
    omega
  | succ f ih =>
    intro start h1 h2 h3
    by_cases hc : start ≠ len1 ∧ g1.getD start [] = g2.getD start []
    · have he : psp_start_go g1 g2 len1 (f + 1) start = psp_start_go g1 g2 len1 f (start + 1) := by
        simp only [psp_start_go]
        rw [if_pos hc]
      rw [he]
      have hk3 : ∀ k, k < start + 1 → g1.getD k [] = g2.getD k [] := by
        intro k hk
        rcases Nat.lt_succ_iff_lt_or_eq.1 hk with h | h
        · exact h3 k h
        · rw [h]
          exact hc.2
      obtain ⟨j1, j2, j3, j4⟩ := ih (start + 1) (by omega) (by omega) hk3
      exact ⟨by omega, j2, j3, j4⟩
    · have he : psp_start_go g1 g2 len1 (f + 1) start = start := by
        simp only [psp_start_go]
        rw [if_neg hc]
      rw [he]
      exact ⟨le_refl _, h1, h3, fun hne heq => hc ⟨hne, heq⟩⟩

theorem prep_spec (s1 s2 : Str) (len1 len2 start : Nat)
    (hL : gcLen s1 ≤ gcLen s2)
    (hprep : prefix_suffix_prep s1 s2 = (len1, len2, start)) :
    len2 = len1 + (gcLen s2 - gcLen s1) ∧
    start + len1 ≤ gcLen s1 ∧
    (len1 ≠ 0 → (graphemes s1).getD start [] ≠ (graphemes s2).getD start []) ∧
    (len1 = 0 → len2 = 0 → graphemes s1 = graphemes s2) := by
  unfold prefix_suffix_prep at hprep
  dsimp only at hprep
  rcases hsuf : psp_suffix (graphemes s1) (graphemes s2) (graphemes s1).length
      (graphemes s2).length with ⟨r1, r2⟩
  rw [hsuf] at hprep
  dsimp only at hprep
  have hL2 : (graphemes s1).length ≤ (graphemes s2).length := hL
  obtain ⟨hS1, hS2, hS3⟩ := psp_suffix_spec (graphemes s1) (graphemes s2)
    (graphemes s1).length (graphemes s2).length hL2
  rw [hsuf] at hS1 hS2 hS3
  dsimp only at hS1 hS2 hS3
  obtain ⟨hG1, hG2, hG3, hG4⟩ := psp_start_go_spec (graphemes s1) (graphemes s2) r1 r1 0
    (by omega) (by omega) (fun k hk => absurd hk (by omega))
  have hgo : psp_start_go (graphemes s1) (graphemes s2) r1 r1 0
      = psp_start (graphemes s1) (graphemes s2) r1 := rfl
  rw [hgo] at hG1 hG2 hG3 hG4
  have hgc1 : gcLen s1 = (graphemes s1).length := rfl
  have hgc2 : gcLen s2 = (graphemes s2).length := rfl
  by_cases h0 : psp_start (graphemes s1) (graphemes s2) r1 ≠ 0
  · rw [if_pos h0] at hprep
    simp only [Prod.mk.injEq] at hprep
    obtain ⟨e1, e2, e3⟩ := hprep
    refine ⟨by omega, by omega, ?_, ?_⟩
    · intro h10
      rw [← e3]
      exact hG4 (by omega)
    · intro h10 h20
      have hd0 : (graphemes s2).length - (graphemes s1).length = 0 := by omega
      have hlen : (graphemes s1).length = (graphemes s2).length := by omega
      apply List.ext_getElem hlen
      intro i h1 h2
      rw [← List.getD_eq_getElem (graphemes s1) ([] : G) h1,
        ← List.getD_eq_getElem (graphemes s2) ([] : G) h2]
      by_cases hi : i < psp_start (graphemes s1) (graphemes s2) r1
      · exact hG3 i hi
      · have := hS3 i (by omega) (by omega)
        rw [hd0, Nat.add_zero] at this
        exact this
  · rw [if_neg h0] at hprep
    simp only [Prod.mk.injEq] at hprep
    obtain ⟨e1, e2, e3⟩ := hprep
    refine ⟨by omega, by omega, ?_, ?_⟩
    · intro h10
      rw [← e3]
      exact hG4 (by omega)
    · intro h10 h20
      have hd0 : (graphemes s2).length - (graphemes s1).length = 0 := by omega
      have hlen : (graphemes s1).length = (graphemes s2).length := by omega
      apply List.ext_getElem hlen
      intro i h1 h2
      rw [← List.getD_eq_getElem (graphemes s1) ([] : G) h1,
        ← List.getD_eq_getElem (graphemes s2) ([] : G) h2]
      have := hS3 i (by omega) (by omega)
      rw [hd0, Nat.add_zero] at this
      exact this

theorem graphemes_go_join : ∀ (fuel : Nat) (s : Str), s.length ≤ fuel →
    (graphemes_go fuel s).flatten = s := by
  intro fuel
  induction fuel with
  | zero =>
    intro s h
    cases s with
    | nil => rfl
    | cons b rest => exact absurd h (by simp)
  | succ f ih =>
    intro s h
    cases s with
    | nil => rfl
    | cons b rest =>
      show ((b :: rest).take (grapheme_len b)
        :: graphemes_go f (rest.drop (grapheme_len b - 1))).flatten = b :: rest
      rw [List.flatten_cons]
      rw [ih (rest.drop (grapheme_len b - 1)) (by
        rw [List.length_drop]
        simp only [List.length_cons] at h
        omega)]
      obtain ⟨q, hq⟩ : ∃ q, grapheme_len b = q + 1 :=
        ⟨grapheme_len b - 1, by have := grapheme_len_pos b; omega⟩
      rw [hq]
      show b :: rest.take q ++ rest.drop (q + 1 - 1) = b :: rest
      rw [show q + 1 - 1 = q from rfl, List.cons_append, List.take_append_drop]

theorem graphemes_join (s : Str) : (graphemes s).flatten = s :=
  graphemes_go_join s.length s (le_refl _)

theorem graphemes_injective {s1 s2 : Str} (h : graphemes s1 = graphemes s2) : s1 = s2 := by
  rw [← graphemes_join s1, ← graphemes_join s2, h]

theorem prep_self (s : Str) : prefix_suffix_prep s s = (0, 0, 0) := by
  unfold prefix_suffix_prep
  dsimp only
  rw [psp_suffix_self]
  rfl

theorem distance_sorted_eval (m : DlMaps) (s1 s2 : Str) (len1 len2 start : Nat)
    (h1 : s1 ≠ []) (h2 : s2 ≠ []) (hsw : ¬ gcLen s1 > gcLen s2)
    (hprep : prefix_suffix_prep s1 s2 = (len1, len2, start)) :
    (DamaerauOSA.distance m s1 s2).1
    = if len1 = 0 then some len2
      else some (Dm (fun k => (graphemes s1).getD (start + k) [])
        (fun k => (graphemes s2).getD (start + k) []) len1 len2) := by
  obtain ⟨hP1, hP2, hP3, hP4⟩ := prep_spec s1 s2 len1 len2 start (by omega) hprep
  unfold DamaerauOSA.distance
  dsimp only
  rw [if_neg h1, if_neg h2, if_neg hsw]
  dsimp only
  rw [hprep]
  dsimp only
  rw [apply_ite (fun p : Option Nat × DlMaps => p.1)]
  by_cases h10 : len1 = 0
  · rw [if_pos h10, if_pos h10]
  · rw [if_neg h10, if_neg h10]
    exact coreA_spec s1 s2 len1 len2 start m (by omega) (by omega)

theorem distance_swap (m : DlMaps) (a b : Str) (ha : a ≠ []) (hb : b ≠ [])
    (hsw : gcLen a > gcLen b) :
    (DamaerauOSA.distance m a b).1 = (DamaerauOSA.distance m b a).1 := by
  unfold DamaerauOSA.distance
  dsimp only
  rw [if_neg ha, if_neg hb, if_neg hb, if_neg ha,
    if_pos hsw, if_neg (show ¬ gcLen b > gcLen a from by omega)]

theorem distance_pos (m : DlMaps) (a b : Str) (ha : a ≠ []) (hb : b ≠ [])
    (hab : a ≠ b) :
    ∃ d, (DamaerauOSA.distance m a b).1 = some d ∧ 1 ≤ d := by
  have main : ∀ (s1 s2 : Str), s1 ≠ [] → s2 ≠ [] → s1 ≠ s2 → ¬ gcLen s1 > gcLen s2 →
      ∃ d, (DamaerauOSA.distance m s1 s2).1 = some d ∧ 1 ≤ d := by
    intro s1 s2 h1 h2 hne hsw
    rcases hprep : prefix_suffix_prep s1 s2 with ⟨len1, len2, start⟩
    obtain ⟨hP1, hP2, hP3, hP4⟩ := prep_spec s1 s2 len1 len2 start (by omega) hprep
    rw [distance_sorted_eval m s1 s2 len1 len2 start h1 h2 hsw hprep]
    by_cases h10 : len1 = 0
    · rw [if_pos h10]
      refine ⟨len2, rfl, ?_⟩
      by_contra hz
      exact hne (graphemes_injective (hP4 h10 (by omega)))
    · rw [if_neg h10]
      refine ⟨_, rfl, ?_⟩
      by_contra hz
      have hz2 : Dm (fun k => (graphemes s1).getD (start + k) [])
          (fun k => (graphemes s2).getD (start + k) []) len1 len2 = 0 := by omega
      have := Dm_zero (fun k => (graphemes s1).getD (start + k) [])
        (fun k => (graphemes s2).getD (start + k) []) (hP3 h10) (len1 + len2) len1 len2
        (le_refl _) hz2
      omega
  by_cases hsw : gcLen a > gcLen b
  · rw [distance_swap m a b ha hb hsw]
    exact main b a hb ha (fun h => hab h.symm) (by omega)
  · exact main a b ha hb hab hsw

theorem C3_sorted (m1 m2 : DlMaps) (s1 s2 : Str) (maxd len1 len2 start : Nat)
    (h1 : s1 ≠ []) (h2 : s2 ≠ []) (hm : maxd ≠ 0) (hL : gcLen s1 ≤ gcLen s2)
    (hprep : prefix_suffix_prep s1 s2 = (len1, len2, start)) :
    (if len1 = 0 then (if len2 ≤ maxd then some len2 else none)
     else if maxd < len2 then (core_damerau_levenshtein2 s1 s2 len1 len2 start maxd m1).1
     else (core_damerau_levenshtein s1 s2 len1 len2 start m1).1)
    = match (DamaerauOSA.distance m2 s1 s2).1 with
      | some d => if d ≤ maxd then some d else none
      | none => none := by
  rw [distance_sorted_eval m2 s1 s2 len1 len2 start h1 h2 (by omega) hprep]
  obtain ⟨hP1, hP2, hP3, hP4⟩ := prep_spec s1 s2 len1 len2 start hL hprep
  by_cases h10 : len1 = 0
  · rw [if_pos h10, if_pos h10]
  · rw [if_neg h10, if_neg h10]
    set ch1 : Nat → G := fun k => (graphemes s1).getD (start + k) [] with hch1d
    set ch2 : Nat → G := fun k => (graphemes s2).getD (start + k) [] with hch2d
    show _ = if Dm ch1 ch2 len1 len2 ≤ maxd then some (Dm ch1 ch2 len1 len2) else none
    by_cases hml : maxd < len2
    · rw [if_pos hml]
      by_cases hldm : len2 - len1 ≤ maxd
      · rw [coreBA s1 s2 len1 len2 start maxd (len2 - len1) (maxd - (len2 - len1)) m1
          (by omega) hldm (by omega) (by omega) (by omega) hml (hP3 h10)]
      · rw [coreB_wide s1 s2 len1 len2 start maxd (len2 - len1) m1
          (by omega) (by omega) (by omega) hml]
        have := Dm_lb1 ch1 ch2 len1 len2
        rw [if_neg (by omega)]
    · rw [if_neg hml]
      rw [coreA_spec s1 s2 len1 len2 start m1 (by omega) (by omega)]
      have := Dm_le_max ch1 ch2 (len1 + len2) len1 len2 (le_refl _)
      rw [if_pos (by omega)]

/-- C3: for all byte strings `a`, `b` and every bound `max_distance`, the
bounded entry point `distance2` returns exactly the distance computed by the
unbounded entry point `distance` when that distance is at most
`max_distance`, and the sentinel `none` otherwise (for any instance maps). -/
theorem C3_bounded_refines_unbounded (m1 m2 : DlMaps) (a b : Str) (maxd : Nat) :
    (DamaerauOSA.distance2 m1 a b maxd).1
    = match (DamaerauOSA.distance m2 a b).1 with
      | some d => if d ≤ maxd then some d else none
      | none => none := by
  by_cases ha : a = []
  · unfold DamaerauOSA.distance2 DamaerauOSA.distance null_distance_results
    dsimp only
    rw [if_pos (Or.inl ha), if_pos ha, if_pos ha]
    by_cases hb : b = []
    · rw [if_pos hb]
      subst hb
      show some 0 = if (0 : Nat) ≤ maxd then some 0 else none
      rw [if_pos (Nat.zero_le maxd)]
    · rw [if_neg hb]
  by_cases hb : b = []
  · unfold DamaerauOSA.distance2 DamaerauOSA.distance null_distance_results
    dsimp only
    rw [if_pos (Or.inr hb), if_neg ha, if_neg ha, if_pos hb]
  by_cases hm0 : maxd = 0
  · subst hm0
    unfold DamaerauOSA.distance2
    dsimp only
    rw [if_neg (show ¬ (a = [] ∨ b = []) from fun h => h.elim ha hb), if_pos rfl]
    by_cases hab : a = b
    · subst hab
      rw [if_pos rfl]
      rw [distance_sorted_eval m2 a a 0 0 0 ha ha (lt_irrefl _) (prep_self a)]
      rfl
    · rw [if_neg hab]
      obtain ⟨d, hd, hd1⟩ := distance_pos m2 a b ha hb hab
      rw [hd]
      show (none : Option Nat) = if d ≤ 0 then some d else none
      rw [if_neg (by omega)]
  · unfold DamaerauOSA.distance2
    dsimp only
    rw [if_neg (show ¬ (a = [] ∨ b = []) from fun h => h.elim ha hb), if_neg hm0]
    by_cases hsw : gcLen a > gcLen b
    · rw [if_pos hsw]
      dsimp only
      rw [if_neg (show ¬ (gcLen b > gcLen a ∧ gcLen b - gcLen a > maxd) from
        fun h => absurd h.1 (by omega))]
      rcases hprep : prefix_suffix_prep b a with ⟨len1, len2, start⟩
      dsimp only
      rw [apply_ite (fun p : Option Nat × DlMaps => p.1),
        apply_ite (fun p : Option Nat × DlMaps => p.1)]
      dsimp only
      rw [distance_swap m2 a b ha hb hsw]
      exact C3_sorted m1 m2 b a maxd len1 len2 start hb ha hm0 (by omega) hprep
    · rw [if_neg hsw]
      dsimp only
      by_cases hdiff : gcLen b > gcLen a ∧ gcLen b - gcLen a > maxd
      · rw [if_pos hdiff]
        rcases hprep : prefix_suffix_prep a b with ⟨len1, len2, start⟩
        obtain ⟨hP1, hP2, hP3, hP4⟩ := prep_spec a b len1 len2 start (by omega) hprep
        rw [distance_sorted_eval m2 a b len1 len2 start ha hb hsw hprep]
        by_cases h10 : len1 = 0
        · rw [if_pos h10]
          show (none : Option Nat) = if len2 ≤ maxd then some len2 else none
          rw [if_neg (by omega)]
        · rw [if_neg h10]
          have := Dm_lb1 (fun k => (graphemes a).getD (start + k) [])
            (fun k => (graphemes b).getD (start + k) []) len1 len2
          show (none : Option Nat) = if Dm _ _ len1 len2 ≤ maxd then some _ else none
          rw [if_neg (by omega)]
      · rw [if_neg hdiff]
        rcases hprep : prefix_suffix_prep a b with ⟨len1, len2, start⟩
        dsimp only
        rw [apply_ite (fun p : Option Nat × DlMaps => p.1),
          apply_ite (fun p : Option Nat × DlMaps => p.1)]
        dsimp only
        exact C3_sorted m1 m2 a b maxd len1 len2 start ha hb hm0 (by omega) hprep

end SpellWasm
